import Mathlib

/-!
The playlist tree of `src/playtree.c` and its iterator, as a shallow embedding.

* Entries live in a heap `Ptr → play_tree`; a C pointer is an `Option Ptr`
  (`none` is `NULL`).  Every statement of the C code that writes a field is one
  `upd` of the heap, in the order of the source, so aliasing between the
  arguments behaves as in C.
* Loops that follow `next`, `prev` or `child` pointers take a `fuel : Nat` and
  return `none` when it runs out (a cyclic chain never ends in C either).
  A failing `assert` or a dereferenced `NULL` also yields `none`.
* `int` values are `Int`; the one subtraction that can leave the range of a
  32-bit `int` (`iter->tree->loop - 1`) wraps with `wrap_int`.
* `rand()` and its floating-point scaling are an input: `draw k count` is
  the value of `(int)(count * rand() / (RAND_MAX + 1.0))` at the `k`-th call
  of `rand()`.
* `malloc`, `calloc` and `realloc` always succeed; `free` records the address.
-/

namespace PlayTree

/-! ## Data model -/

abbrev Ptr := Nat

/-- Modelled from the spec: the `entry_type` constants are declared in
`playtree.h`, which is not part of the sources.  `node` is
`PLAY_TREE_ENTRY_NODE` (a Container), `file` is `PLAY_TREE_ENTRY_FILE`
(a Leaf), `other` stands for every other value of the field. -/
inductive EntryType where
  | node
  | file
  | other
  deriving DecidableEq, Repr

/-- Modelled from the spec: the masks `PLAY_TREE_RND` and
`PLAY_TREE_RND_PLAYED` are declared in `playtree.h`, which is not part of the
sources.  The bit set `flags` is kept as one boolean per mask. -/
structure Flags where
  rnd : Bool := false
  rnd_played : Bool := false
  deriving DecidableEq, Repr

/-- The mask `PLAY_TREE_RND`. -/
def PLAY_TREE_RND : Flags := { rnd := true, rnd_played := false }

/-- The mask `PLAY_TREE_RND_PLAYED`. -/
def PLAY_TREE_RND_PLAYED : Flags := { rnd := false, rnd_played := true }

/-- The C expression `f & ~mask`. -/
def Flags.clear (f mask : Flags) : Flags :=
  { rnd := f.rnd && !mask.rnd, rnd_played := f.rnd_played && !mask.rnd_played }

/-- The struct `play_tree_t`. -/
structure play_tree where
  parent : Option Ptr := none
  child : Option Ptr := none
  next : Option Ptr := none
  prev : Option Ptr := none
  params : Option (List (String × String)) := none
  loop : Int := 0
  files : Option (List String) := none
  entry_type : EntryType := EntryType.node
  flags : Flags := {}
  deriving DecidableEq, Repr

abbrev Heap := Ptr → play_tree

/-- One field write `p->field = ...`: the cell at `p` becomes `f` of itself. -/
def upd (h : Heap) (p : Ptr) (f : play_tree → play_tree) : Heap :=
  fun q => if q = p then f (h q) else h q

/-- The heap together with the addresses handed to `free`. -/
structure Mem where
  heap : Heap
  freed : List Ptr := []

/-- The 32-bit `int` that a C implementation with wrapping arithmetic stores
for the mathematical value `x`. -/
def wrap_int (x : Int) : Int := (x + 2147483648) % 4294967296 - 2147483648

/-! ## Tree store -/

/-- The function `play_tree_new`: the cell `calloc` returns, with
`entry_type = PLAY_TREE_ENTRY_NODE`. -/
def play_tree_new : play_tree := { entry_type := EntryType.node }

/-- The loop `for(iter = pt ; iter->next != NULL ; iter = iter->next)`. -/
def last_entry (h : Heap) : Nat → Ptr → Option Ptr
  | 0, _ => none
  | fuel + 1, pt =>
    match (h pt).next with
    | none => some pt
    | some n => last_entry h fuel n

/-- The loop `for(iter = pt ; iter->prev != NULL ; iter = iter->prev)`. -/
def first_entry (h : Heap) : Nat → Ptr → Option Ptr
  | 0, _ => none
  | fuel + 1, pt =>
    match (h pt).prev with
    | none => some pt
    | some n => first_entry h fuel n

/-- The function `play_tree_append_entry`. -/
def play_tree_append_entry (fuel : Nat) (h : Heap) (pt entry : Ptr) : Option Heap :=
  if pt = entry then some h
  else
    match last_entry h fuel pt with
    | none => none
    | some iter =>
      let h1 := upd h entry (fun e => { e with parent := (h iter).parent })
      let h2 := upd h1 entry (fun e => { e with prev := some iter })
      let h3 := upd h2 entry (fun e => { e with next := none })
      some (upd h3 iter (fun e => { e with next := some entry }))

/-- The body of `play_tree_remove` up to `pt->prev = pt->next = pt->parent = NULL`,
which is all of `play_tree_remove(pt,0,0)`. -/
def play_tree_remove_links (h : Heap) (pt : Ptr) : Option Heap :=
  let clear (h : Heap) : Heap :=
    upd h pt (fun e => { e with prev := none, next := none, parent := none })
  match (h pt).prev, (h pt).next with
  | some pv, some nx =>
    -- Middle of list
    if (h pv).next = some pt ∧ (h nx).prev = some pt then
      let h1 := upd h pv (fun e => { e with next := (h pt).next })
      let h2 := upd h1 nx (fun e => { e with prev := (h1 pt).prev })
      some (clear h2)
    else none
  | some pv, none =>
    -- End of list
    if (h pv).next = some pt then
      some (clear (upd h pv (fun e => { e with next := none })))
    else none
  | none, some nx =>
    -- Beginning of list
    if (h nx).prev = some pt then
      let h1 := upd h nx (fun e => { e with prev := none })
      match (h1 pt).parent with
      | some par =>
        if (h1 par).child = some pt then
          some (clear (upd h1 par (fun e => { e with child := (h1 pt).next })))
        else none
      | none => some (clear h1)
    else none
  | none, none =>
    -- The only one
    match (h pt).parent with
    | some par =>
      if (h par).child = some pt then
        some (clear (upd h par (fun e => { e with child := none })))
      else none
    | none => some (clear h)

/-- The loop `for(iter = ... ; iter != NULL ; iter = iter->next) iter->parent = v`. -/
def set_parent_next (v : Option Ptr) : Nat → Heap → Option Ptr → Option Heap
  | 0, _, _ => none
  | _ + 1, h, none => some h
  | fuel + 1, h, some i =>
    let h1 := upd h i (fun e => { e with parent := v })
    set_parent_next v fuel h1 (h1 i).next

mutual
/-- The function `play_tree_free`; its call `play_tree_remove(pt,0,0)` is
`play_tree_remove_links`. -/
def play_tree_free : Nat → Mem → Ptr → Bool → Option Mem
  | 0, _, _, _ => none
  | fuel + 1, m, pt, children =>
    let m1 : Option Mem :=
      if children then
        match play_tree_free_children fuel m (m.heap pt).child with
        | none => none
        | some m2 => some { m2 with heap := upd m2.heap pt (fun e => { e with child := none }) }
      else some m
    match m1 with
    | none => none
    | some m2 =>
      match play_tree_remove_links m2.heap pt with
      | none => none
      | some h3 =>
        match set_parent_next none fuel h3 (h3 pt).child with
        | none => none
        | some h4 => some { heap := h4, freed := pt :: m2.freed }
/-- The loop `for(iter = pt->child ; iter != NULL ; )` of `play_tree_free`, which
frees `iter` after reading `iter->next`. -/
def play_tree_free_children : Nat → Mem → Option Ptr → Option Mem
  | 0, _, _ => none
  | _ + 1, m, none => some m
  | fuel + 1, m, some iter =>
    let nxt := (m.heap iter).next
    match play_tree_free fuel m iter true with
    | none => none
    | some m1 => play_tree_free_children fuel m1 nxt
end

/-- The function `play_tree_remove`. -/
def play_tree_remove (fuel : Nat) (m : Mem) (pt : Ptr) (free_it with_children : Bool) :
    Option Mem :=
  match play_tree_remove_links m.heap pt with
  | none => none
  | some h1 =>
    if free_it then play_tree_free fuel { m with heap := h1 } pt with_children
    else some { m with heap := h1 }

/-- The function `play_tree_add_file`. -/
def play_tree_add_file (h : Heap) (pt : Ptr) (file : String) : Option Heap :=
  if (h pt).child ≠ none then none
  else if (h pt).entry_type ≠ EntryType.node ∧ (h pt).entry_type ≠ EntryType.file then some h
  else
    let old : List String := match (h pt).files with
      | none => []
      | some fs => fs
    let h1 := upd h pt (fun e => { e with files := some (old ++ [file]) })
    some (upd h1 pt (fun e => { e with entry_type := EntryType.file }))

/-- The loop `for(n=0 ; pt->files[n] != NULL ; n++) if(strcmp(file,pt->files[n]) == 0) f = n;`
started at index `n` with the value `f` found so far. -/
def find_last_file (file : String) : List String → Nat → Int → Int
  | [], _, f => f
  | x :: xs, n, f => find_last_file file xs (n + 1) (if file = x then (n : Int) else f)

/-- The function `play_tree_remove_file`: the returned `int` and the heap. -/
def play_tree_remove_file (h : Heap) (pt : Ptr) (file : String) : Option (Int × Heap) :=
  if (h pt).entry_type = EntryType.node then none
  else
    match (h pt).files with
    | none => none
    | some fs =>
      let n := fs.length
      let f := find_last_file file fs 0 (-1)
      if f < 0 then some (0, h)
      else if n > 1 then
        some (1, upd h pt (fun e => { e with files := some (fs.eraseIdx f.toNat) }))
      else
        some (1, upd h pt (fun e => { e with files := none }))

mutual
/-- The function `play_tree_is_valid`. -/
def play_tree_is_valid (h : Heap) : Nat → Ptr → Option Bool
  | 0, _ => none
  | fuel + 1, pt =>
    if (h pt).entry_type ≠ EntryType.node then
      if (h pt).child = none then some true else none
    else play_tree_is_valid_loop h fuel (h pt).child
/-- The loop `for(iter = pt->child ; iter != NULL ; iter = iter->next)` of
`play_tree_is_valid`. -/
def play_tree_is_valid_loop (h : Heap) : Nat → Option Ptr → Option Bool
  | 0, _ => none
  | _ + 1, none => some false
  | fuel + 1, some iter =>
    match play_tree_is_valid h fuel iter with
    | none => none
    | some true => some true
    | some false => play_tree_is_valid_loop h fuel (h iter).next
end

mutual
/-- The function `play_tree_cleanup`: the returned pointer and the memory. -/
def play_tree_cleanup : Nat → Mem → Ptr → Option (Option Ptr × Mem)
  | 0, _, _ => none
  | fuel + 1, m, pt =>
    match play_tree_is_valid m.heap fuel pt with
    | none => none
    | some false =>
      match play_tree_remove fuel m pt true true with
      | none => none
      | some m1 => some (none, m1)
    | some true =>
      match play_tree_cleanup_prune fuel m (m.heap pt).child (m.heap pt).child with
      | none => none
      | some (first, m1) =>
        match play_tree_cleanup_children fuel m1 first with
        | none => none
        | some m2 => some (some pt, m2)
/-- The first loop of `play_tree_cleanup`, `for(iter = pt->child ; iter != NULL ; )`,
which removes the invalid children; the state is `iter` and `first`. -/
def play_tree_cleanup_prune : Nat → Mem → Option Ptr → Option Ptr → Option (Option Ptr × Mem)
  | 0, _, _, _ => none
  | _ + 1, m, none, first => some (first, m)
  | fuel + 1, m, some tmp, first =>
    let iter := (m.heap tmp).next
    match play_tree_is_valid m.heap fuel tmp with
    | none => none
    | some true => play_tree_cleanup_prune fuel m iter first
    | some false =>
      match play_tree_remove fuel m tmp true true with
      | none => none
      | some m1 =>
        play_tree_cleanup_prune fuel m1 iter (if some tmp = first then iter else first)
/-- The second loop of `play_tree_cleanup`, `for(iter = first ; iter != NULL ; )`,
which cleans up the remaining children. -/
def play_tree_cleanup_children : Nat → Mem → Option Ptr → Option Mem
  | 0, _, _ => none
  | _ + 1, m, none => some m
  | fuel + 1, m, some tmp =>
    let iter := (m.heap tmp).next
    match play_tree_cleanup fuel m tmp with
    | none => none
    | some (_, m1) => play_tree_cleanup_children fuel m1 iter
end

mutual
/-- The function `play_tree_unset_flag`. -/
def play_tree_unset_flag (flags : Flags) : Nat → Heap → Ptr → Int → Option Heap
  | 0, _, _, _ => none
  | fuel + 1, h, pt, deep =>
    let h1 := upd h pt (fun e => { e with flags := e.flags.clear flags })
    if deep ≠ 0 ∧ (h1 pt).child ≠ none then
      let deep1 := if deep > 0 then deep - 1 else deep
      play_tree_unset_flag_loop flags fuel h1 (h1 pt).child deep1
    else some h1
/-- The loop `for(i = pt->child ; i ; i = i->next)` of `play_tree_unset_flag`. -/
def play_tree_unset_flag_loop (flags : Flags) : Nat → Heap → Option Ptr → Int → Option Heap
  | 0, _, _, _ => none
  | _ + 1, h, none, _ => some h
  | fuel + 1, h, some i, deep =>
    match play_tree_unset_flag flags fuel h i deep with
    | none => none
    | some h1 => play_tree_unset_flag_loop flags fuel h1 (h1 i).next deep
end

/-! ## Shuffle -/

/-- A `play_tree_t**`: the address of the `child` field or of the `next` field
of an entry. -/
inductive Loc where
  | child (p : Ptr)
  | next (p : Ptr)
  deriving DecidableEq, Repr

/-- The read `*loc`. -/
def Loc.get (h : Heap) : Loc → Option Ptr
  | Loc.child p => (h p).child
  | Loc.next p => (h p).next

/-- The write `*loc = v`. -/
def Loc.set (h : Heap) : Loc → Option Ptr → Heap
  | Loc.child p, v => upd h p (fun e => { e with child := v })
  | Loc.next p, v => upd h p (fun e => { e with next := v })

/-- The loop `while (n > 0) { before_move = &move->next; move = *before_move; n--; }`. -/
def shuffle_seek (h : Heap) : Nat → Loc → Option Ptr → Option (Loc × Option Ptr)
  | 0, before_move, move => some (before_move, move)
  | _ + 1, _, none => none
  | n + 1, _, some mv => shuffle_seek h n (Loc.next mv) (h mv).next

/-- The loop `while (count > 1)` of `shuffle_tree`: `k` counts the calls of
`rand()` made so far. -/
def shuffle_move (draw : Nat → Nat → Nat) : Nat → Heap → Nat → Loc → Option (Heap × Nat)
  | 0, h, k, _ => some (h, k)
  | 1, h, k, _ => some (h, k)
  | count + 2, h, k, prev =>
    let n := draw k (count + 2)
    match shuffle_seek h n prev (prev.get h) with
    | none => none
    | some (_, none) => none
    | some (before_move, some move) =>
      -- unlink from old list
      let h1 := before_move.set h (h move).next
      -- insert between prev and the following element
      let h2 := upd h1 move (fun e =>
        { e with next := if prev.get h1 = some move then (h1 move).next else prev.get h1 })
      let h3 := prev.set h2 (some move)
      shuffle_move draw (count + 1) h3 (k + 1) (Loc.next move)

/-- The loop `while (child) { child->prev = prev_child; ... }` of `shuffle_tree`. -/
def shuffle_relink : Nat → Heap → Option Ptr → Option Ptr → Option Heap
  | 0, _, _, _ => none
  | _ + 1, h, none, _ => some h
  | fuel + 1, h, some child, prev_child =>
    let h1 := upd h child (fun e => { e with prev := prev_child })
    shuffle_relink fuel h1 (h1 child).next (some child)

mutual
/-- The function `shuffle_tree`: the heap and the number of calls of `rand()`. -/
def shuffle_tree (draw : Nat → Nat → Nat) : Nat → Heap → Nat → Option Ptr → Option (Heap × Nat)
  | 0, _, _, _ => none
  | _ + 1, h, k, none => some (h, k)
  | fuel + 1, h, k, some pt =>
    match shuffle_tree_children draw fuel h k (h pt).child 0 with
    | none => none
    | some (h1, k1, count) =>
      if (h1 pt).flags.rnd then
        match shuffle_move draw count h1 k1 (Loc.child pt) with
        | none => none
        | some (h2, k2) =>
          match shuffle_relink fuel h2 (h2 pt).child none with
          | none => none
          | some h3 =>
            some (upd h3 pt (fun e => { e with flags := e.flags.clear PLAY_TREE_RND }), k2)
      else some (h1, k1)
/-- The loop `while (child)` of `shuffle_tree`, which shuffles below every
child and counts the children. -/
def shuffle_tree_children (draw : Nat → Nat → Nat) :
    Nat → Heap → Nat → Option Ptr → Nat → Option (Heap × Nat × Nat)
  | 0, _, _, _, _ => none
  | _ + 1, h, k, none, count => some (h, k, count)
  | fuel + 1, h, k, some child, count =>
    match shuffle_tree draw fuel h k (some child) with
    | none => none
    | some (h1, k1) => shuffle_tree_children draw fuel h1 k1 (h1 child).next (count + 1)
end

/-! ## Iterator -/

/-- Modelled from the spec: the result constants `PLAY_TREE_ITER_ERROR`,
`PLAY_TREE_ITER_ENTRY`, `PLAY_TREE_ITER_NODE` and `PLAY_TREE_ITER_END` are
declared in `playtree.h`, which is not part of the sources. -/
inductive IterResult where
  | error
  | entry
  | node
  | end_
  deriving DecidableEq, Repr

/-- Modelled from the spec: the mode constants `PLAY_TREE_ITER_NORMAL` and
`PLAY_TREE_ITER_RND` are declared in `playtree.h`, which is not part of the
sources. -/
inductive IterMode where
  | normal
  | rnd
  deriving DecidableEq, Repr

/-- The struct `play_tree_iter_t`.  `config` tells whether `iter->config` is
not `NULL`; `status_stack` holds `stack_size` values, the head of the list
being `status_stack[stack_size-1]`. -/
structure play_tree_iter where
  root : Option Ptr := none
  tree : Option Ptr := none
  config : Bool := false
  loop : Int := 0
  file : Int := 0
  num_files : Int := 0
  entry_pushed : Int := 0
  mode : IterMode := IterMode.normal
  status_stack : List Int := []
  deriving DecidableEq, Repr

/-- Modelled from the spec: the configuration-scope provider (`m_config.h`,
not part of the sources) seen as counters of the `m_config_push` and
`m_config_pop` calls and the list of the options handed to
`m_config_set_option0`, the latest first. -/
structure m_config where
  pushed : Nat := 0
  popped : Nat := 0
  options : List (String × String) := []
  deriving DecidableEq, Repr

/-- What a step of the iterator reads and writes: the heap, the iterator,
the configuration object and the number of calls of `rand()`. -/
structure State where
  heap : Heap
  iter : play_tree_iter
  cfg : m_config := {}
  rand_calls : Nat := 0

/-- The function `play_tree_iter_push_params`. -/
def play_tree_iter_push_params (s : State) : Option State :=
  if s.iter.config = false then none
  else
    match s.iter.tree with
    | none => none
    | some pt =>
      let s1 : State := { s with cfg := { s.cfg with pushed := s.cfg.pushed + 1 } }
      match (s1.heap pt).params with
      | none => some s1
      | some ps =>
        let s2 : State := { s1 with cfg := { s1.cfg with options := ps.reverse ++ s1.cfg.options } }
        if (s2.heap pt).child = none then
          some { s2 with iter := { s2.iter with entry_pushed := 1 } }
        else some s2

/-- The function `play_tree_iter_new`: the returned iterator (`none` is
`NULL`), the heap and the number of calls of `rand()`. -/
def play_tree_iter_new (draw : Nat → Nat → Nat) (fuel : Nat) (h : Heap) (k : Nat) (pt : Ptr)
    (config : Bool) : Option (Option play_tree_iter × Heap × Nat) :=
  if config = false then none
  else
    match play_tree_is_valid h fuel pt with
    | none => none
    | some false => some (none, h, k)
    | some true =>
      let iter : play_tree_iter := { root := some pt, tree := none, config := config }
      match shuffle_tree draw fuel h k (some pt) with
      | none => none
      | some (h1, k1) =>
        match (h1 pt).parent with
        | some par => some (some { iter with loop := (h1 par).loop }, h1, k1)
        | none => some (some iter, h1, k1)

/-- The first loop of `play_tree_rnd_step`,
`for(i = pt ; i->prev ; i = i->prev)`: the head of the chain and the count. -/
def rnd_count_prev (h : Heap) : Nat → Ptr → Nat → Option (Ptr × Nat)
  | 0, _, _ => none
  | fuel + 1, i, count =>
    match (h i).prev with
    | none => some (i, count)
    | some pv =>
      rnd_count_prev h fuel pv (if (h i).flags.rnd_played then count else count + 1)

/-- The second loop of `play_tree_rnd_step`, `for(i = pt->next ; i ; i = i->next)`. -/
def rnd_count_next (h : Heap) : Nat → Option Ptr → Nat → Option Nat
  | 0, _, _ => none
  | _ + 1, none, count => some count
  | fuel + 1, some i, count =>
    rnd_count_next h fuel (h i).next (if (h i).flags.rnd_played then count else count + 1)

/-- The last loop of `play_tree_rnd_step`, `for(i = head ; i ; i=i->next)`;
falling out of the loop returns `NULL`. -/
def rnd_pick (h : Heap) : Nat → Option Ptr → Int → Option (Option Ptr)
  | 0, _, _ => none
  | _ + 1, none, _ => some none
  | fuel + 1, some i, r =>
    let r1 := if (h i).flags.rnd_played then r else r - 1
    if r1 < 0 then some (some i) else rnd_pick h fuel (h i).next r1

/-- The function `play_tree_rnd_step`: the returned pointer and the number of
calls of `rand()`. -/
def play_tree_rnd_step (draw : Nat → Nat → Nat) (fuel : Nat) (h : Heap) (k : Nat) (pt : Ptr) :
    Option (Option Ptr × Nat) :=
  match rnd_count_prev h fuel pt 0 with
  | none => none
  | some (head, c1) =>
    let c2 := if (h head).flags.rnd_played then c1 else c1 + 1
    match rnd_count_next h fuel (h pt).next c2 with
    | none => none
    | some count =>
      if count = 0 then some (none, k)
      else
        let r : Int := draw k count
        match rnd_pick h fuel (some head) r with
        | none => none
        | some res => some (res, k + 1)

/-- The loop `for(i = d ; i > 0 && pt ; i--) pt = pt->next;`: the final `i` and `pt`. -/
def seek_next (h : Heap) : Nat → Option Ptr → Nat × Option Ptr
  | 0, pt => (0, pt)
  | i + 1, none => (i + 1, none)
  | i + 1, some p => seek_next h i (h p).next

/-- The loop `for(i = d ; i < 0 && pt ; i++) pt = pt->prev;`: the final `-i` and `pt`. -/
def seek_prev (h : Heap) : Nat → Option Ptr → Nat × Option Ptr
  | 0, pt => (0, pt)
  | i + 1, none => (i + 1, none)
  | i + 1, some p => seek_prev h i (h p).prev

/-- The start of `play_tree_iter_step` once `iter->tree` is known to be `tree`:
pop the entry scope, set `iter->mode`, reset `iter->file`. -/
def iter_step_begin (s : State) (tree : Ptr) : State :=
  let s1 : State :=
    if s.iter.config = true ∧ s.iter.entry_pushed > 0 then
      { s with iter := { s.iter with entry_pushed := 0 },
               cfg := { s.cfg with popped := s.cfg.popped + 1 } }
    else s
  let mode : IterMode :=
    match (s1.heap tree).parent with
    | some par => if (s1.heap par).flags.rnd then IterMode.rnd else IterMode.normal
    | none => IterMode.normal
  { s1 with iter := { s1.iter with mode := mode, file := -1 } }

/-- The choice of the candidate `pt` in `play_tree_iter_step`: the candidate,
the new value of `d` and the state. -/
def iter_step_candidate (draw : Nat → Nat → Nat) (fuel : Nat) (s : State) (tree : Ptr) (d : Int) :
    Option (Option Ptr × Int × State) :=
  if s.iter.mode = IterMode.rnd then
    match play_tree_rnd_step draw fuel s.heap s.rand_calls tree with
    | none => none
    | some (pt, k) => some (pt, d, { s with rand_calls := k })
  else if d > 0 then
    let r := seek_next s.heap d.toNat (some tree)
    some (r.2, if r.1 ≠ 0 then (r.1 : Int) else 1, s)
  else if d < 0 then
    let r := seek_prev s.heap (-d).toNat (some tree)
    some (r.2, if r.1 ≠ 0 then -(r.1 : Int) else -1, s)
  else some (some tree, d, s)

/-- The end of `play_tree_iter_step` on a valid entry `pt`: from
`assert(pt->files != NULL)` to `return PLAY_TREE_ITER_ENTRY`. -/
def iter_step_entry (s : State) (pt : Ptr) : Option (IterResult × State) :=
  match (s.heap pt).files with
  | none => none
  | some fs =>
    let s1 : State := { s with iter := { s.iter with tree := some pt } }
    let s2 : State := { s1 with iter := { s1.iter with num_files := (fs.length : Int) } }
    if s2.iter.config = true then
      match play_tree_iter_push_params s2 with
      | none => none
      | some s3 =>
        let s4 : State := { s3 with iter := { s3.iter with entry_pushed := 1 } }
        if s4.iter.mode = IterMode.rnd then
          some (IterResult.entry, { s4 with heap := upd s4.heap pt (fun e =>
            { e with flags := { e.flags with rnd_played := true } }) })
        else some (IterResult.entry, s4)
    else some (IterResult.entry, s2)

/-- The function `play_tree_iter_up_step`; `step` is `play_tree_iter_step`. -/
def play_tree_iter_up_step (step : State → Int → Bool → Option (IterResult × State))
    (s : State) (d : Int) (with_nodes : Bool) : Option (IterResult × State) :=
  match s.iter.tree, s.iter.root with
  | some tree, some root =>
    let s1 : State := { s with iter := { s.iter with file := -1 } }
    if (s1.heap tree).parent = (s1.heap root).parent then some (IterResult.end_, s1)
    else
      match (s1.heap tree).parent, s1.iter.status_stack with
      | some par, top :: rest =>
        let s2 : State := { s1 with iter := { s1.iter with status_stack := rest, loop := top } }
        let s3 : State := { s2 with iter := { s2.iter with tree := some par } }
        -- Pop subtree params
        let s4 : State :=
          if s3.iter.config = true then
            let s5 : State := { s3 with cfg := { s3.cfg with popped := s3.cfg.popped + 1 } }
            if s5.iter.mode = IterMode.rnd then
              { s5 with heap := upd s5.heap par (fun e =>
                { e with flags := { e.flags with rnd_played := true } }) }
            else s5
          else s3
        step s4 d with_nodes
      | _, _ => none
  | _, _ => none

/-- The function `play_tree_iter_down_step`; `step` is `play_tree_iter_step`. -/
def play_tree_iter_down_step (step : State → Int → Bool → Option (IterResult × State))
    (fuel : Nat) (s : State) (d : Int) (with_nodes : Bool) : Option (IterResult × State) :=
  match s.iter.tree with
  | none => none
  | some tree =>
    match (s.heap tree).child with
    | none => none
    | some child =>
      if (s.heap tree).files ≠ none ∨ (s.heap child).parent ≠ some tree then none
      else
        let s1 : State := { s with iter := { s.iter with file := -1 } }
        --  Push subtree params
        let s2 : Option State :=
          if s1.iter.config = true then play_tree_iter_push_params s1 else some s1
        match s2 with
        | none => none
        | some s3 =>
          let s4 : State :=
            { s3 with iter := { s3.iter with status_stack := s3.iter.loop :: s3.iter.status_stack } }
          -- Set new status
          let s5 : State :=
            { s4 with iter := { s4.iter with loop := wrap_int ((s4.heap tree).loop - 1) } }
          if d ≥ 0 then
            step { s5 with iter := { s5.iter with tree := (s5.heap tree).child } } 0 with_nodes
          else
            match last_entry s5.heap fuel child with
            | none => none
            | some pt => step { s5 with iter := { s5.iter with tree := some pt } } 0 with_nodes

/-- The function `play_tree_iter_step`. -/
def play_tree_iter_step (draw : Nat → Nat → Nat) :
    Nat → State → Int → Bool → Option (IterResult × State)
  | 0, _, _, _ => none
  | fuel + 1, s, d, with_nodes =>
    match s.iter.root with
    | none => some (IterResult.entry, s)
    | some root =>
      match s.iter.tree with
      | none =>
        play_tree_iter_step draw fuel { s with iter := { s.iter with tree := some root } } 0
          with_nodes
      | some tree =>
        match iter_step_candidate draw fuel (iter_step_begin s tree) tree d with
        | none => none
        | some (none, d1, s1) =>
          -- No next
          if s1.iter.mode = IterMode.rnd then
            if (s1.heap root).loop = 0 then some (IterResult.end_, s1)
            else
              match play_tree_unset_flag PLAY_TREE_RND_PLAYED fuel s1.heap root (-1) with
              | none => none
              | some h2 =>
                let h3 : Heap :=
                  if (h2 root).loop > 0 then upd h2 root (fun e => { e with loop := e.loop - 1 })
                  else h2
                -- try again
                play_tree_iter_step draw fuel { s1 with heap := h3 } 0 with_nodes
          else
            match (s1.heap tree).parent with
            | none => play_tree_iter_up_step (play_tree_iter_step draw fuel) s1 d1 with_nodes
            | some par =>
              if (s1.heap par).loop ≠ 0 ∧
                  ((d1 > 0 ∧ s1.iter.loop ≠ 0) ∨
                   (d1 < 0 ∧ (s1.iter.loop < 0 ∨ s1.iter.loop < (s1.heap par).loop))) then
                if d1 > 0 then
                  -- Go back to the first one
                  match first_entry s1.heap fuel tree with
                  | none => none
                  | some pt =>
                    let s2 : State :=
                      if s1.iter.loop > 0 then
                        { s1 with iter := { s1.iter with loop := s1.iter.loop - 1 } }
                      else s1
                    play_tree_iter_step draw fuel { s2 with iter := { s2.iter with tree := some pt } }
                      0 with_nodes
                else
                  -- Or the last one
                  match last_entry s1.heap fuel tree with
                  | none => none
                  | some pt =>
                    let s2 : State :=
                      if s1.iter.loop ≥ 0 ∧ s1.iter.loop < (s1.heap par).loop then
                        { s1 with iter := { s1.iter with loop := s1.iter.loop + 1 } }
                      else s1
                    play_tree_iter_step draw fuel { s2 with iter := { s2.iter with tree := some pt } }
                      0 with_nodes
              else
                -- Go up one level
                play_tree_iter_up_step (play_tree_iter_step draw fuel) s1 d1 with_nodes
        | some (some pt, d1, s1) =>
          -- Is there any valid child?
          let has_valid_child : Option Bool :=
            match (s1.heap pt).child with
            | none => some false
            | some c => play_tree_is_valid s1.heap fuel c
          match has_valid_child with
          | none => none
          | some true =>
            let s2 : State := { s1 with iter := { s1.iter with tree := some pt } }
            if with_nodes then some (IterResult.node, s2)
            else
              play_tree_iter_down_step (play_tree_iter_step draw fuel) fuel s2 d1 with_nodes
          | some false =>
            -- Is it a valid entry?
            match play_tree_is_valid s1.heap fuel pt with
            | none => none
            | some false =>
              if d1 = 0 then some (IterResult.error, s1)
              else play_tree_iter_step draw fuel s1 d1 with_nodes
            | some true => iter_step_entry s1 pt

/-- The function `play_tree_iter_up_step` called on its own. -/
def play_tree_iter_up_step_run (draw : Nat → Nat → Nat) (fuel : Nat) (s : State) (d : Int)
    (with_nodes : Bool) : Option (IterResult × State) :=
  play_tree_iter_up_step (play_tree_iter_step draw fuel) s d with_nodes

/-- The function `play_tree_iter_down_step` called on its own. -/
def play_tree_iter_down_step_run (draw : Nat → Nat → Nat) (fuel : Nat) (s : State) (d : Int)
    (with_nodes : Bool) : Option (IterResult × State) :=
  play_tree_iter_down_step (play_tree_iter_step draw fuel) fuel s d with_nodes

/-- A caller that steps the iterator once for every `d` of the list and
records the result of each call with the entry `iter->tree` it left. -/
def iter_run (draw : Nat → Nat → Nat) (fuel : Nat) :
    State → List Int → Option (List (IterResult × Option Ptr) × State)
  | s, [] => some ([], s)
  | s, d :: ds =>
    match play_tree_iter_step draw fuel s d false with
    | none => none
    | some (r, s1) =>
      match iter_run draw fuel s1 ds with
      | none => none
      | some (rs, s2) => some ((r, s1.iter.tree) :: rs, s2)

/-! ## Sibling chains -/

/-- The first entry of `l`, or `nxt` when `l` is empty. -/
def headOr : List Ptr → Option Ptr → Option Ptr
  | [], nxt => nxt
  | b :: _, _ => some b

/-- The last entry of `l`, or `prev` when `l` is empty. -/
def lastOr : List Ptr → Option Ptr → Option Ptr
  | [], prev => prev
  | a :: l, _ => lastOr l (some a)

/-- The entries of `l` are linked in this order by `next` and `prev`: the first
has `prev` before it, the last has `nxt` after it. -/
def Chain (h : Heap) : Option Ptr → List Ptr → Option Ptr → Prop
  | _, [], _ => True
  | prev, a :: l, nxt =>
    (h a).prev = prev ∧ (h a).next = headOr l nxt ∧ Chain h (some a) l nxt

/-- The list of the entries met by following `next` from `p`. -/
def walk_next (h : Heap) : Nat → Option Ptr → Option (List Ptr)
  | 0, _ => none
  | _ + 1, none => some []
  | fuel + 1, some p =>
    match walk_next h fuel (h p).next with
    | none => none
    | some l => some (p :: l)

/-- The list of the entries met by following `prev` from `p`. -/
def walk_prev (h : Heap) : Nat → Option Ptr → Option (List Ptr)
  | 0, _ => none
  | _ + 1, none => some []
  | fuel + 1, some p =>
    match walk_prev h fuel (h p).prev with
    | none => none
    | some l => some (p :: l)


/-- The entries of `l` that do not have `PLAY_TREE_RND_PLAYED` set. -/
def unplayed (h : Heap) (l : List Ptr) : List Ptr :=
  l.filter (fun a => !(h a).flags.rnd_played)


/-- A Container at address 0 with the three Leaves 1, 2 and 3, the first of
which has `PLAY_TREE_RND_PLAYED` set; the entry at address 4 is detached. -/
def heap_chain3 : Heap := fun p =>
  if p = 0 then { child := some 1 }
  else if p = 1 then
    { parent := some 0, next := some 2, files := some ["a"], entry_type := EntryType.file,
      flags := { rnd_played := true } }
  else if p = 2 then
    { parent := some 0, prev := some 1, next := some 3, files := some ["b"],
      entry_type := EntryType.file }
  else if p = 3 then
    { parent := some 0, prev := some 2, files := some ["c"], entry_type := EntryType.file }
  else {}

/-- A source of random numbers that always yields 0. -/
def draw_zero : Nat → Nat → Nat := fun _ _ => 0

/-- A heap of cells as `play_tree_new` returns them. -/
def heap_new : Heap := fun _ => play_tree_new

/-- A Container at address 0 whose only child is the Leaf 1 with the one file `a`. -/
def heap_one_file : Heap := fun p =>
  if p = 0 then { child := some 1 }
  else if p = 1 then { parent := some 0, files := some ["a"], entry_type := EntryType.file }
  else {}

/-! ## Positions of the iterator -/

/-- The fields of the state that a step in normal mode depends on: the heap is
`h`, the iterator has root `r`, stands on `t`, has a configuration handle,
the loop stack `stk` and the loop counter `lp`. -/
structure Pos (s : State) (h : Heap) (r t : Ptr) (stk : List Int) (lp : Int) : Prop where
  heap : s.heap = h
  root : s.iter.root = some r
  tree : s.iter.tree = some t
  config : s.iter.config = true
  stack : s.iter.status_stack = stk
  loop : s.iter.loop = lp

/-- The parent of `t`, if any, does not have `PLAY_TREE_RND` set. -/
def NormalAt (h : Heap) (t : Ptr) : Prop :=
  ∀ par, (h t).parent = some par → (h par).flags.rnd = false

/-- The entry `p` is a valid Leaf: no child, not of type node, a file array. -/
def IsLeaf (h : Heap) (p : Ptr) : Prop :=
  (h p).child = none ∧ (h p).entry_type ≠ EntryType.node ∧ (h p).files ≠ none

/-- The condition under which `play_tree_iter_step` starts another pass over
the chain below `par` instead of going up. -/
def Wraps (h : Heap) (par : Ptr) (d1 lp : Int) : Prop :=
  (h par).loop ≠ 0 ∧ ((d1 > 0 ∧ lp ≠ 0) ∨ (d1 < 0 ∧ (lp < 0 ∨ lp < (h par).loop)))

/-- A detached root Container `r` without `PLAY_TREE_RND` whose children are
exactly the Leaves `l`, in this order, none of them with `PLAY_TREE_RND`. -/
structure Flat (h : Heap) (r : Ptr) (l : List Ptr) : Prop where
  parent : (h r).parent = none
  next : (h r).next = none
  prev : (h r).prev = none
  type : (h r).entry_type = EntryType.node
  files : (h r).files = none
  rnd : (h r).flags.rnd = false
  child : (h r).child = headOr l none
  chain : Chain h none l none
  leaf : ∀ a ∈ l, (h a).parent = some r ∧ IsLeaf h a ∧ (h a).flags.rnd = false

/-- The state of a caller that holds the iterator `it` over the heap `h` after
`k` calls of `rand()`, no configuration scope being open yet. -/
def iter_start (h : Heap) (k : Nat) (it : play_tree_iter) : State :=
  { heap := h, iter := it, cfg := {}, rand_calls := k }

/-- The iterator that `play_tree_iter_new` returns for a detached root `r`. -/
def iter_fresh (r : Ptr) : play_tree_iter := { root := some r, tree := none, config := true }

/-- A Container at address 0 with `loop = 2` and the two Leaves 1 and 2. -/
def heap_loop2 : Heap := fun p =>
  if p = 0 then { child := some 1, loop := 2 }
  else if p = 1 then
    { parent := some 0, next := some 2, files := some ["a"], entry_type := EntryType.file }
  else if p = 2 then
    { parent := some 0, prev := some 1, files := some ["b"], entry_type := EntryType.file }
  else {}

/-- A Container at address 0 with `loop = INT_MIN` and the Leaf 1. -/
def heap_int_min1 : Heap := fun p =>
  if p = 0 then { child := some 1, loop := -2147483648 }
  else if p = 1 then { parent := some 0, files := some ["a"], entry_type := EntryType.file }
  else {}

/-- A Container at address 0 with `loop = INT_MIN` and the two Leaves 1 and 2. -/
def heap_int_min2 : Heap := fun p =>
  if p = 0 then { child := some 1, loop := -2147483648 }
  else if p = 1 then
    { parent := some 0, next := some 2, files := some ["a"], entry_type := EntryType.file }
  else if p = 2 then
    { parent := some 0, prev := some 1, files := some ["b"], entry_type := EntryType.file }
  else {}

/-! ## Trees -/

/-- A finite forest of entries: a list of siblings, each with its address,
the forest of its children and the rest of the list. -/
inductive Forest where
  | nil : Forest
  | cons (a : Ptr) (kids : Forest) (rest : Forest) : Forest
  deriving DecidableEq, Repr

/-- The addresses of the siblings at the top of a forest, in order. -/
def Forest.roots : Forest → List Ptr
  | Forest.nil => []
  | Forest.cons a _ r => a :: r.roots

/-- The addresses of all entries of a forest, parents before children. -/
def Forest.addrs : Forest → List Ptr
  | Forest.nil => []
  | Forest.cons a k r => a :: (k.addrs ++ r.addrs)

/-- The entries without children of a forest, depth first and left to right. -/
def Forest.leaves : Forest → List Ptr
  | Forest.nil => []
  | Forest.cons a k r =>
    (match k with
      | Forest.nil => [a]
      | Forest.cons _ _ _ => k.leaves) ++ r.leaves

/-- The heap holds the forest: the siblings have the parent `par`, the first one
has `prev` before it, each is linked to the next one and to the first of its
children, and so on below. -/
def Rep (h : Heap) : Option Ptr → Option Ptr → Forest → Prop
  | _, _, Forest.nil => True
  | par, prev, Forest.cons a k r =>
    (h a).parent = par ∧ (h a).prev = prev ∧ (h a).next = headOr r.roots none ∧
      (h a).child = headOr k.roots none ∧ Rep h (some a) none k ∧ Rep h par (some a) r

/-- What the claim on plain traversal asks of the entry `a` with the children
`k`: no `PLAY_TREE_RND`, and either a valid Leaf or a Container of type node
without files, with `loop = 0` and at least one child. -/
def PlayableEntry (h : Heap) (a : Ptr) (k : Forest) : Prop :=
  (h a).flags.rnd = false ∧
    (match k with
      | Forest.nil => IsLeaf h a
      | Forest.cons _ _ _ =>
        (h a).entry_type = EntryType.node ∧ (h a).files = none ∧ (h a).loop = 0)

/-- Every entry of the forest is playable in the sense of `PlayableEntry`. -/
def Playable (h : Heap) : Forest → Prop
  | Forest.nil => True
  | Forest.cons a k r => PlayableEntry h a k ∧ Playable h k ∧ Playable h r

/-- The path from the current entry up to the root `r`: each entry of the path
with the siblings to its right; the last one is the root, which has none. -/
def Frames (h : Heap) (r : Ptr) : List (Ptr × Forest) → Prop
  | [] => False
  | (a, R) :: rest =>
    match rest with
    | [] => a = r ∧ R = Forest.nil
    | (p, _) :: _ =>
      (h a).parent = some p ∧ (h p).loop = 0 ∧ (h p).flags.rnd = false ∧
        (h a).next = headOr R.roots none ∧ Rep h (some p) (some a) R ∧ Playable h R ∧
        Frames h r rest

/-- The leaves still to come to the right of the path, nearest first. -/
def remaining : List (Ptr × Forest) → List Ptr
  | [] => []
  | (_, R) :: rest => R.leaves ++ remaining rest

/-- The current entry followed by the leaves still to come. -/
def todo : List (Ptr × Forest) → List Ptr
  | [] => []
  | (a, R) :: rest => a :: (R.leaves ++ remaining rest)

/-- The path of the first leaf below the entry `b` with the children `k`,
`b` having the siblings `R` to its right and the path `rest` above it. -/
def descendFrames : Ptr → Forest → Forest → List (Ptr × Forest) → List (Ptr × Forest)
  | b, Forest.nil, R, rest => (b, R) :: rest
  | b, Forest.cons c k r', R, rest => descendFrames c k r' ((b, R) :: rest)

/-- The path of the next leaf after the current one, if there is one. -/
def nextFrames : List (Ptr × Forest) → Option (List (Ptr × Forest))
  | [] => none
  | (_, Forest.cons b k R) :: rest => some (descendFrames b k R rest)
  | (_, Forest.nil) :: rest => nextFrames rest

/-- The children of the root of `forest_nested`: the Leaf 1, the Container 2
with the Leaves 3 and 4, and the Leaf 5. -/
def forest_nested_kids : Forest :=
  Forest.cons 1 Forest.nil
    (Forest.cons 2 (Forest.cons 3 Forest.nil (Forest.cons 4 Forest.nil Forest.nil))
      (Forest.cons 5 Forest.nil Forest.nil))

/-- A tree with the Container 0 at the root and `forest_nested_kids` below it. -/
def forest_nested : Forest := Forest.cons 0 forest_nested_kids Forest.nil

/-- The heap that holds `forest_nested`. -/
def heap_nested : Heap := fun p =>
  if p = 0 then { child := some 1 }
  else if p = 1 then
    { parent := some 0, next := some 2, files := some ["a"], entry_type := EntryType.file }
  else if p = 2 then { parent := some 0, prev := some 1, next := some 5, child := some 3 }
  else if p = 3 then
    { parent := some 2, next := some 4, files := some ["b"], entry_type := EntryType.file }
  else if p = 4 then
    { parent := some 2, prev := some 3, files := some ["c"], entry_type := EntryType.file }
  else if p = 5 then
    { parent := some 0, prev := some 2, files := some ["d"], entry_type := EntryType.file }
  else {}

/-! ## Shuffled trees -/

/-- The number of entries of a forest. -/
def Forest.size : Forest → Nat
  | Forest.nil => 0
  | Forest.cons _ k r => k.size + r.size + 1

/-- The siblings at the top of a forest, each with the forest of its children. -/
def Forest.toList : Forest → List (Ptr × Forest)
  | Forest.nil => []
  | Forest.cons a k r => (a, k) :: r.toList

/-- The forest made of the given siblings. -/
def Forest.ofList : List (Ptr × Forest) → Forest
  | [] => Forest.nil
  | (a, k) :: l => Forest.cons a k (Forest.ofList l)

/-- The second forest is the first one with the siblings permuted at any
level: every entry keeps its children, in some order. -/
inductive Shuffled : Forest → Forest → Prop where
  | nil : Shuffled Forest.nil Forest.nil
  | cons (a : Ptr) {k k' r r' : Forest} :
      Shuffled k k' → Shuffled r r' → Shuffled (Forest.cons a k r) (Forest.cons a k' r')
  | swap (a b : Ptr) (k k2 r : Forest) :
      Shuffled (Forest.cons a k (Forest.cons b k2 r)) (Forest.cons b k2 (Forest.cons a k r))
  | trans {F G H : Forest} : Shuffled F G → Shuffled G H → Shuffled F H

/-- The entries of `l` are linked in this order by `next` alone, the last one
having `nxt` after it. -/
def NextChain (h : Heap) : List Ptr → Option Ptr → Prop
  | [], _ => True
  | a :: l, nxt => (h a).next = headOr l nxt ∧ NextChain h l nxt

/-- The entry whose field a `play_tree_t**` points into. -/
def Loc.cell : Loc → Ptr
  | Loc.child p => p
  | Loc.next p => p

/-- The location that holds the pointer to the entry after `pre`, the list
`pre` starting at the location `loc`. -/
def lastLoc (loc : Loc) : List Ptr → Loc
  | [] => loc
  | a :: l => lastLoc (Loc.next a) l

/-- The two cells differ at most in the fields `next` and `child`. -/
def SameButLinks (c c' : play_tree) : Prop :=
  c'.parent = c.parent ∧ c'.prev = c.prev ∧ c'.params = c.params ∧ c'.loop = c.loop ∧
    c'.files = c.files ∧ c'.entry_type = c.entry_type ∧ c'.flags = c.flags

/-- One round of the loop `while (count > 1)` of `shuffle_tree`: the entry
`move` found behind the location `before_move` is unlinked and put in front
of the entries that start at the location `prev`. -/
def shuffle_move_once (h : Heap) (prev before_move : Loc) (move : Ptr) : Heap :=
  let h1 := before_move.set h (h move).next
  let h2 := upd h1 move (fun e =>
    { e with next := if prev.get h1 = some move then (h1 move).next else prev.get h1 })
  prev.set h2 (some move)

/-- What the loop `while (child)` of `shuffle_tree` does on the siblings `F`:
with enough fuel it returns, the siblings keep their order, the forest below
them is shuffled, and nothing outside the forest changes. -/
def ShuffleChildrenSpec (draw : Nat → Nat → Nat) (F : Forest) : Prop :=
  ∀ (par prev : Option Ptr) (h : Heap) (kk c f : Nat),
    Rep h par prev F → F.addrs.Nodup → 2 * F.size + 1 ≤ f →
    ∃ h' kk' F', shuffle_tree_children draw f h kk (headOr F.roots none) c
        = some (h', kk', c + F.roots.length) ∧
      Rep h' par prev F' ∧ F'.roots = F.roots ∧ Shuffled F F' ∧
      (∀ x, x ∉ F.addrs → h' x = h x) ∧ (∀ x, (h' x).parent = (h x).parent)

/-- The forest of the children of the entry at address `c`, if the forest has
an entry at that address. -/
def Forest.find : Forest → Ptr → Option Forest
  | Forest.nil, _ => none
  | Forest.cons a k r, c =>
    if a = c then some k
    else
      match k.find c with
      | some k0 => some k0
      | none => r.find c

/-- A source of random numbers that always yields the last index. -/
def draw_last : Nat → Nat → Nat := fun _ c => c - 1

/-- The three Leaves 1, 2 and 3 as a forest. -/
def forest_three : Forest :=
  Forest.cons 1 Forest.nil (Forest.cons 2 Forest.nil (Forest.cons 3 Forest.nil Forest.nil))

/-- A Container at address 0 with `PLAY_TREE_RND` set and the three Leaves 1, 2
and 3 as its children. -/
def heap_rnd3 : Heap := fun p =>
  if p = 0 then { child := some 1, flags := { rnd := true } }
  else if p = 1 then
    { parent := some 0, next := some 2, files := some ["a"], entry_type := EntryType.file }
  else if p = 2 then
    { parent := some 0, prev := some 1, next := some 3, files := some ["b"],
      entry_type := EntryType.file }
  else if p = 3 then
    { parent := some 0, prev := some 2, files := some ["c"], entry_type := EntryType.file }
  else {}

/-! ## More of the tree store and of the iterator -/

/-- The function `play_tree_prepend_entry`. -/
def play_tree_prepend_entry (fuel : Nat) (h : Heap) (pt entry : Ptr) : Option Heap :=
  match first_entry h fuel pt with
  | none => none
  | some iter =>
    let h1 := upd h entry (fun e => { e with prev := none })
    let h2 := upd h1 entry (fun e => { e with next := some iter })
    let h3 := upd h2 entry (fun e => { e with parent := (h2 iter).parent })
    let h4 := upd h3 iter (fun e => { e with prev := some entry })
    match (h4 entry).parent with
    | none => some h4
    | some par =>
      if (h4 par).child = some iter then
        some (upd h4 par (fun e => { e with child := some entry }))
      else none

/-- The function `play_tree_set_child` for `pt` and `child` not `NULL`. -/
def play_tree_set_child (fuel : Nat) (h : Heap) (pt child : Ptr) : Option Heap :=
  if (h pt).entry_type ≠ EntryType.node then none
  else
    match set_parent_next none fuel h (h pt).child with
    | none => none
    | some h1 =>
      -- Go back to first one
      match first_entry h1 fuel child with
      | none => none
      | some iter =>
        let h2 := upd h1 pt (fun e => { e with child := some iter })
        set_parent_next (some pt) fuel h2 (some iter)

/-- The function `play_tree_set_param`: the array `pt->params`, which ends
with an entry whose name is `NULL`, is the list of its entries. -/
def play_tree_set_param (h : Heap) (pt : Ptr) (name val : String) : Heap :=
  let old : List (String × String) :=
    match (h pt).params with
    | none => []
    | some ps => ps
  upd h pt (fun e => { e with params := some (old ++ [(name, val)]) })

/-- The loop `for(i = 0; src->params[i].name != NULL ; i++)` of
`play_tree_set_params_from`, from the index `i` on. -/
def set_params_loop (dest src : Ptr) : Nat → Heap → Nat → Option Heap
  | 0, _, _ => none
  | fuel + 1, h, i =>
    match (h src).params with
    | none => none
    | some ps =>
      match ps[i]? with
      | none => some h
      | some (name, val) =>
        set_params_loop dest src fuel (play_tree_set_param h dest name val) (i + 1)

/-- The function `play_tree_set_params_from`. -/
def play_tree_set_params_from (fuel : Nat) (h : Heap) (dest src : Ptr) : Option Heap :=
  if (h src).params = none then some h
  else
    match set_params_loop dest src fuel h 0 with
    | none => none
    | some h1 =>
      -- pass the random flag too
      if (h1 src).flags.rnd then
        some (upd h1 dest (fun e => { e with flags := { e.flags with rnd := true } }))
      else some h1

/-- The function `play_tree_iter_get_file`: the returned string (`none` is
`NULL`) and the iterator.  The read `files[iter->file]` yields the `NULL`
that ends the array when the index is the number of files, and is outside
the array for every other index that is not the index of a file. -/
def play_tree_iter_get_file (h : Heap) (iter : play_tree_iter) (d : Int) :
    Option (Option String × play_tree_iter) :=
  match iter.tree with
  | none => none
  | some tree =>
    if (h tree).child ≠ none then none
    else
      match (h tree).files with
      | none => some (none, iter)
      | some fs =>
        if ¬ iter.num_files > 0 then none
        else if iter.file ≥ iter.num_files - 1 ∨ iter.file < -1 then some (none, iter)
        else
          let iter1 : play_tree_iter :=
            if d > 0 then
              if iter.file ≥ iter.num_files - 1 then { iter with file := 0 }
              else { iter with file := iter.file + 1 }
            else if d < 0 then
              if iter.file ≤ 0 then { iter with file := iter.num_files - 1 }
              else { iter with file := iter.file - 1 }
            else iter
          if iter1.file < 0 then none
          else
            match fs[iter1.file.toNat]? with
            | some f => some (some f, iter1)
            | none => if iter1.file.toNat = fs.length then some (none, iter1) else none

/-- The function `play_tree_iter_new_copy`: `memcpy` copies every field, the
loop stack is copied into an array of its own, and `iter->config = NULL`. -/
def play_tree_iter_new_copy (old : play_tree_iter) : play_tree_iter :=
  let iter : play_tree_iter := old
  let iter1 : play_tree_iter := { iter with status_stack := old.status_stack }
  { iter1 with config := false }

/-- A caller that steps the iterator once for every pair of `d` and
`with_nodes` of the list and records the result of each call with the state
it left. -/
def iter_calls (draw : Nat → Nat → Nat) (fuel : Nat) :
    State → List (Int × Bool) → Option (List (IterResult × State))
  | _, [] => some []
  | s, (d, w) :: ds =>
    match play_tree_iter_step draw fuel s d w with
    | none => none
    | some (r, s1) =>
      match iter_calls draw fuel s1 ds with
      | none => none
      | some rs => some ((r, s1) :: rs)

/-- The function `pt_iter_goto_head`, which returns nothing: the state it
leaves.  The value of its call of `play_tree_iter_step` is dropped. -/
def pt_iter_goto_head (draw : Nat → Nat → Nat) (fuel : Nat) (s : State) : Option State :=
  let s1 : State := { s with iter := { s.iter with tree := s.iter.root } }
  match play_tree_iter_step draw fuel s1 0 false with
  | none => none
  | some (_, s2) => some s2

/-! ## More inputs and predicates -/

/-- A Container at address 0 with the children 1 and 2, and the detached
chain of the Leaves 3, 4 and 5. -/
def heap_two_chains : Heap := fun p =>
  if p = 0 then { child := some 1 }
  else if p = 1 then
    { parent := some 0, next := some 2, files := some ["a"], entry_type := EntryType.file }
  else if p = 2 then
    { parent := some 0, prev := some 1, files := some ["b"], entry_type := EntryType.file }
  else if p = 3 then { next := some 4, files := some ["c"], entry_type := EntryType.file }
  else if p = 4 then
    { prev := some 3, next := some 5, files := some ["d"], entry_type := EntryType.file }
  else if p = 5 then { prev := some 4, files := some ["e"], entry_type := EntryType.file }
  else {}

/-- A detached Leaf at address 0 with the two files `a` and `b`. -/
def heap_files2 : Heap := fun p =>
  if p = 0 then { files := some ["a", "b"], entry_type := EntryType.file } else {}

/-- The cursor that the first step leaves on the Leaf of `heap_files2`. -/
def cursor_files2 : play_tree_iter :=
  { root := some 0, tree := some 0, config := true, file := -1, num_files := 2, entry_pushed := 1 }

/-- The entry 0 has no parameters and has `PLAY_TREE_RND` set; the entry 1
is as `play_tree_new` returns it. -/
def heap_rnd_src : Heap := fun p =>
  if p = 0 then { flags := { rnd := true } } else {}

/-- A Leaf at address 0 with the files `a`, `b`, `a`, `c`. -/
def heap_files4 : Heap := fun p =>
  if p = 0 then { files := some ["a", "b", "a", "c"], entry_type := EntryType.file } else {}

/-- A Container at address 0 with two children: the Leaf 1 with the file `a`
and the Container 2, which has no child and so is not valid. -/
def heap_skip : Heap := fun p =>
  if p = 0 then { child := some 1 }
  else if p = 1 then
    { parent := some 0, next := some 2, files := some ["a"], entry_type := EntryType.file }
  else if p = 2 then { parent := some 0, prev := some 1 }
  else {}

/-- The state that the first step of a new cursor leaves on `heap_skip`: the
cursor stands on the Leaf 1. -/
def state_skip : State :=
  { heap := heap_skip,
    iter := { root := some 0, tree := some 1, config := true, loop := -1, file := -1,
              num_files := 1, entry_pushed := 1, status_stack := [0] },
    cfg := { pushed := 2 }, rand_calls := 0 }

/-- The number of levels between an entry and the level of the root of a
cursor: `Depth h rp n t` says that `t` lies `n` levels below the entries whose
parent is `rp`, the parent of the root. -/
def Depth (h : Heap) (rp : Option Ptr) : Nat → Ptr → Prop
  | 0, t => (h t).parent = rp
  | n + 1, t => (h t).parent ≠ rp ∧ ∃ p, (h t).parent = some p ∧ Depth h rp n p

/-- The two heaps have the same links: `parent`, `next`, `prev` and `child`
of every entry. -/
def SameLinks (h h' : Heap) : Prop :=
  ∀ x, (h' x).parent = (h x).parent ∧ (h' x).next = (h x).next ∧ (h' x).prev = (h x).prev ∧
    (h' x).child = (h x).child

/-- Siblings have the same parent: every entry reached by `next` or `prev`
has the parent of the entry it is reached from. -/
def SiblingsShareParent (h : Heap) : Prop :=
  ∀ a b, (h a).next = some b ∨ (h a).prev = some b → (h b).parent = (h a).parent

/-- The invariant of a cursor with a configuration handle over a tree whose
links are those of `h0`: the loop stack has one value for every level
between the current entry and the level of the root `r`, and the scopes
pushed and not yet popped are one for every value of the loop stack and one
more if `entry_pushed` is set. -/
structure CursorInv (h0 : Heap) (r : Ptr) (s : State) : Prop where
  links : SameLinks h0 s.heap
  root : s.iter.root = some r
  config : s.iter.config = true
  depth : ∀ t, s.iter.tree = some t → Depth h0 (h0 r).parent s.iter.status_stack.length t
  fresh : s.iter.tree = none → s.iter.status_stack = []
  scopes : s.cfg.pushed
    = s.cfg.popped + s.iter.status_stack.length + (if s.iter.entry_pushed > 0 then 1 else 0)

/-- A Container at address 0 with `PLAY_TREE_RND` set and two children: the
Leaf 1 and the Container 2, which has `PLAY_TREE_RND` set too and the one
child 3, a Leaf. -/
def heap_rnd_nested : Heap := fun p =>
  if p = 0 then { child := some 1, flags := { rnd := true } }
  else if p = 1 then
    { parent := some 0, next := some 2, files := some ["a"], entry_type := EntryType.file }
  else if p = 2 then
    { parent := some 0, prev := some 1, child := some 3, flags := { rnd := true } }
  else if p = 3 then { parent := some 2, files := some ["b"], entry_type := EntryType.file }
  else {}

/-- A cursor with a configuration handle that stands on the Leaf 1 of
`heap_one_file`, one level below the root 0, with the scope of the entry
pushed. -/
def cursor_one_file : play_tree_iter :=
  { root := some 0, tree := some 1, config := true, loop := -1, file := -1, num_files := 1,
    entry_pushed := 1, status_stack := [0] }

/-- A detached root Container 0 with two children: the Container 1, whose
only child is the Container 2 with the Leaves 3 and 4, and the Leaf 5. -/
def heap_deep : Heap := fun p =>
  if p = 0 then { child := some 1 }
  else if p = 1 then { parent := some 0, next := some 5, child := some 2 }
  else if p = 2 then { parent := some 1, child := some 3 }
  else if p = 3 then
    { parent := some 2, next := some 4, files := some ["a"], entry_type := EntryType.file }
  else if p = 4 then
    { parent := some 2, prev := some 3, files := some ["b"], entry_type := EntryType.file }
  else if p = 5 then
    { parent := some 0, prev := some 1, files := some ["c"], entry_type := EntryType.file }
  else {}

/-- The state that the first step of a new cursor leaves on `heap_one_file`:
the cursor `cursor_one_file` on the Leaf 1, two scopes pushed. -/
def state_one_file : State :=
  { heap := heap_one_file, iter := cursor_one_file, cfg := { pushed := 2 }, rand_calls := 0 }

/-- What one pass through `play_tree_iter_step` ends with: the value it
returns, or the state and the `d` of the call of `play_tree_iter_step` that
is its last statement. -/
abbrev Pass := Sum (IterResult × State) (State × Int)

/-- The value of a pass, `step` being the function that its last call calls. -/
def resume (step : State → Int → Bool → Option (IterResult × State)) (with_nodes : Bool) :
    Option Pass → Option (IterResult × State)
  | none => none
  | some (Sum.inl r) => some r
  | some (Sum.inr (s, d)) => step s d with_nodes

/-- The state that a pass ends with. -/
def Pass.state : Pass → State
  | Sum.inl (_, s) => s
  | Sum.inr (s, _) => s

/-- The body of `play_tree_iter_up_step` up to its call of `play_tree_iter_step`. -/
def iter_up_once (s : State) (d : Int) : Option Pass :=
  match s.iter.tree, s.iter.root with
  | some tree, some root =>
    let s1 : State := { s with iter := { s.iter with file := -1 } }
    if (s1.heap tree).parent = (s1.heap root).parent then some (Sum.inl (IterResult.end_, s1))
    else
      match (s1.heap tree).parent, s1.iter.status_stack with
      | some par, top :: rest =>
        let s2 : State := { s1 with iter := { s1.iter with status_stack := rest, loop := top } }
        let s3 : State := { s2 with iter := { s2.iter with tree := some par } }
        let s4 : State :=
          if s3.iter.config = true then
            let s5 : State := { s3 with cfg := { s3.cfg with popped := s3.cfg.popped + 1 } }
            if s5.iter.mode = IterMode.rnd then
              { s5 with heap := upd s5.heap par (fun e =>
                { e with flags := { e.flags with rnd_played := true } }) }
            else s5
          else s3
        some (Sum.inr (s4, d))
      | _, _ => none
  | _, _ => none

/-- The body of `play_tree_iter_down_step` up to its call of `play_tree_iter_step`. -/
def iter_down_once (fuel : Nat) (s : State) (d : Int) : Option Pass :=
  match s.iter.tree with
  | none => none
  | some tree =>
    match (s.heap tree).child with
    | none => none
    | some child =>
      if (s.heap tree).files ≠ none ∨ (s.heap child).parent ≠ some tree then none
      else
        let s1 : State := { s with iter := { s.iter with file := -1 } }
        let s2 : Option State :=
          if s1.iter.config = true then play_tree_iter_push_params s1 else some s1
        match s2 with
        | none => none
        | some s3 =>
          let s4 : State :=
            { s3 with iter := { s3.iter with status_stack := s3.iter.loop :: s3.iter.status_stack } }
          let s5 : State :=
            { s4 with iter := { s4.iter with loop := wrap_int ((s4.heap tree).loop - 1) } }
          if d ≥ 0 then
            some (Sum.inr ({ s5 with iter := { s5.iter with tree := (s5.heap tree).child } }, 0))
          else
            match last_entry s5.heap fuel child with
            | none => none
            | some pt => some (Sum.inr ({ s5 with iter := { s5.iter with tree := some pt } }, 0))

/-- The body of `play_tree_iter_step` up to the call of itself that it ends
with, the bodies of `play_tree_iter_up_step` and `play_tree_iter_down_step`
standing in the places of their calls. -/
def iter_step_once (draw : Nat → Nat → Nat) (fuel : Nat) (s : State) (d : Int)
    (with_nodes : Bool) : Option Pass :=
  match s.iter.root with
  | none => some (Sum.inl (IterResult.entry, s))
  | some root =>
    match s.iter.tree with
    | none => some (Sum.inr ({ s with iter := { s.iter with tree := some root } }, 0))
    | some tree =>
      match iter_step_candidate draw fuel (iter_step_begin s tree) tree d with
      | none => none
      | some (none, d1, s1) =>
        if s1.iter.mode = IterMode.rnd then
          if (s1.heap root).loop = 0 then some (Sum.inl (IterResult.end_, s1))
          else
            match play_tree_unset_flag PLAY_TREE_RND_PLAYED fuel s1.heap root (-1) with
            | none => none
            | some h2 =>
              let h3 : Heap :=
                if (h2 root).loop > 0 then upd h2 root (fun e => { e with loop := e.loop - 1 })
                else h2
              some (Sum.inr ({ s1 with heap := h3 }, 0))
        else
          match (s1.heap tree).parent with
          | none => iter_up_once s1 d1
          | some par =>
            if (s1.heap par).loop ≠ 0 ∧
                ((d1 > 0 ∧ s1.iter.loop ≠ 0) ∨
                 (d1 < 0 ∧ (s1.iter.loop < 0 ∨ s1.iter.loop < (s1.heap par).loop))) then
              if d1 > 0 then
                match first_entry s1.heap fuel tree with
                | none => none
                | some pt =>
                  let s2 : State :=
                    if s1.iter.loop > 0 then
                      { s1 with iter := { s1.iter with loop := s1.iter.loop - 1 } }
                    else s1
                  some (Sum.inr ({ s2 with iter := { s2.iter with tree := some pt } }, 0))
              else
                match last_entry s1.heap fuel tree with
                | none => none
                | some pt =>
                  let s2 : State :=
                    if s1.iter.loop ≥ 0 ∧ s1.iter.loop < (s1.heap par).loop then
                      { s1 with iter := { s1.iter with loop := s1.iter.loop + 1 } }
                    else s1
                  some (Sum.inr ({ s2 with iter := { s2.iter with tree := some pt } }, 0))
            else iter_up_once s1 d1
      | some (some pt, d1, s1) =>
        let has_valid_child : Option Bool :=
          match (s1.heap pt).child with
          | none => some false
          | some c => play_tree_is_valid s1.heap fuel c
        match has_valid_child with
        | none => none
        | some true =>
          let s2 : State := { s1 with iter := { s1.iter with tree := some pt } }
          if with_nodes then some (Sum.inl (IterResult.node, s2))
          else iter_down_once fuel s2 d1
        | some false =>
          match play_tree_is_valid s1.heap fuel pt with
          | none => none
          | some false =>
            if d1 = 0 then some (Sum.inl (IterResult.error, s1))
            else some (Sum.inr (s1, d1))
          | some true =>
            match iter_step_entry s1 pt with
            | none => none
            | some r => some (Sum.inl r)

/-! ## Lemmas on sibling chains -/

@[simp] theorem upd_same (h : Heap) (p : Ptr) (f : play_tree → play_tree) :
    upd h p f p = f (h p) := by simp [upd]

theorem upd_other (h : Heap) (p q : Ptr) (f : play_tree → play_tree) (hne : q ≠ p) :
    upd h p f q = h q := by simp [upd, hne]

@[simp] theorem headOr_nil (n : Option Ptr) : headOr [] n = n := rfl
@[simp] theorem headOr_cons (a : Ptr) (l : List Ptr) (n : Option Ptr) :
    headOr (a :: l) n = some a := rfl
@[simp] theorem lastOr_nil (n : Option Ptr) : lastOr [] n = n := rfl
@[simp] theorem lastOr_cons (a : Ptr) (l : List Ptr) (n : Option Ptr) :
    lastOr (a :: l) n = lastOr l (some a) := rfl

theorem lastOr_append_singleton (l : List Ptr) (a : Ptr) (n : Option Ptr) :
    lastOr (l ++ [a]) n = some a := by
  induction l generalizing n with
  | nil => simp
  | cons b l ih => simp [ih]

theorem headOr_append (l1 l2 : List Ptr) (n : Option Ptr) :
    headOr (l1 ++ l2) n = headOr l1 (headOr l2 n) := by
  cases l1 <;> simp

theorem Chain_congr {h h' : Heap} {l : List Ptr} (prev nxt : Option Ptr)
    (hl : ∀ a ∈ l, (h' a).prev = (h a).prev ∧ (h' a).next = (h a).next) :
    Chain h prev l nxt → Chain h' prev l nxt := by
  induction l generalizing prev with
  | nil => intro _; trivial
  | cons a l ih =>
    intro hc
    obtain ⟨h1, h2, h3⟩ := hc
    have ha := hl a (List.mem_cons_self _ _)
    refine ⟨by rw [ha.1, h1], by rw [ha.2, h2], ih _ (fun b hb => hl b (List.mem_cons_of_mem _ hb)) h3⟩

theorem Chain_append {h : Heap} {l1 l2 : List Ptr} {prev nxt : Option Ptr} :
    Chain h prev (l1 ++ l2) nxt ↔
      Chain h prev l1 (headOr l2 nxt) ∧ Chain h (lastOr l1 prev) l2 nxt := by
  induction l1 generalizing prev with
  | nil => simp [Chain]
  | cons a l1 ih =>
    rw [List.cons_append]
    simp only [Chain, lastOr_cons, headOr_append]
    rw [ih]
    tauto

theorem last_entry_chain {h : Heap} {prev : Option Ptr} {a : Ptr} {l : List Ptr} {fuel : Nat}
    (hc : Chain h prev (a :: l) none) (hf : l.length < fuel) :
    last_entry h fuel a = lastOr l (some a) := by
  induction l generalizing a prev fuel with
  | nil =>
    obtain ⟨_, h2, _⟩ := hc
    cases fuel with
    | zero => omega
    | succ f => simp [last_entry, h2] at *
  | cons b l ih =>
    obtain ⟨_, h2, h3⟩ := hc
    cases fuel with
    | zero => omega
    | succ f =>
      simp only [List.length_cons] at hf
      simp [last_entry, h2]
      exact ih h3 (by omega)

theorem first_entry_chain {h : Heap} {nxt : Option Ptr} {a : Ptr} {l : List Ptr} {fuel : Nat}
    (hc : Chain h none (l ++ [a]) nxt) (hf : l.length < fuel) :
    first_entry h fuel a = headOr l (some a) := by
  induction l using List.reverseRecOn generalizing a fuel nxt with
  | nil =>
    obtain ⟨h1, _, _⟩ := hc
    cases fuel with
    | zero => omega
    | succ f => simp [first_entry, h1] at *
  | append_singleton l b ih =>
    rw [Chain_append] at hc
    obtain ⟨hc1, hc2⟩ := hc
    rw [lastOr_append_singleton] at hc2
    cases fuel with
    | zero => omega
    | succ f =>
      simp only [List.length_append, List.length_singleton] at hf
      simp only [first_entry, hc2.1]
      rw [ih hc1 (by omega)]
      cases l <;> simp

theorem walk_next_chain {h : Heap} {prev : Option Ptr} {l : List Ptr} {fuel : Nat}
    (hc : Chain h prev l none) (hf : l.length < fuel) :
    walk_next h fuel (headOr l none) = some l := by
  induction l generalizing prev fuel with
  | nil =>
    cases fuel with
    | zero => omega
    | succ f => rfl
  | cons b l ih =>
    obtain ⟨_, h2, h3⟩ := hc
    cases fuel with
    | zero => omega
    | succ f =>
      simp only [List.length_cons] at hf
      have := @ih _ f h3 (by omega)
      simp [walk_next, h2, this]

theorem walk_prev_chain {h : Heap} {nxt : Option Ptr} {l : List Ptr} {fuel : Nat}
    (hc : Chain h none l nxt) (hf : l.length < fuel) :
    walk_prev h fuel (lastOr l none) = some l.reverse := by
  induction l using List.reverseRecOn generalizing nxt fuel with
  | nil =>
    cases fuel with
    | zero => omega
    | succ f => rfl
  | append_singleton l b ih =>
    rw [Chain_append] at hc
    obtain ⟨hc1, hc2⟩ := hc
    cases fuel with
    | zero => omega
    | succ f =>
      simp only [List.length_append, List.length_singleton] at hf
      rw [lastOr_append_singleton]
      simp only [walk_prev, hc2.1]
      rw [ih hc1 (by omega)]
      simp

theorem lastOr_append (l1 l2 : List Ptr) (p : Option Ptr) :
    lastOr (l1 ++ l2) p = lastOr l2 (lastOr l1 p) := by
  induction l1 generalizing p with
  | nil => rfl
  | cons a l1 ih => simp [ih]

theorem lastOr_mem {l : List Ptr} {p : Option Ptr} {t : Ptr} (hl : l ≠ []) :
    lastOr l p = some t → t ∈ l ∧ ∃ init, l = init ++ [t] := by
  induction l using List.reverseRecOn with
  | nil => exact absurd rfl hl
  | append_singleton l b _ =>
    rw [lastOr_append_singleton]
    intro hb
    cases hb
    exact ⟨by simp, l, rfl⟩


theorem Chain_frame {h h' : Heap} {l : List Ptr} (prev nxt : Option Ptr)
    (hl : ∀ a ∈ l, h' a = h a) : Chain h prev l nxt → Chain h' prev l nxt :=
  Chain_congr prev nxt (fun a ha => by rw [hl a ha]; exact ⟨rfl, rfl⟩)


theorem chain_heap_chain3 : Chain heap_chain3 none [1, 2, 3] none := by
  simp [Chain, heap_chain3, headOr]

/-! ## Single calls of `play_tree_iter_step` in normal mode -/

theorem begin_pos {s : State} {h : Heap} {r t : Ptr} {stk : List Int} {lp : Int}
    (hp : Pos s h r t stk lp) (hn : NormalAt h t) :
    Pos (iter_step_begin s t) h r t stk lp ∧
      (iter_step_begin s t).iter.mode = IterMode.normal := by
  obtain ⟨h1, h2, h3, h4, h5, h6⟩ := hp
  have hmode : ∀ par, (h t).parent = some par → (h par).flags.rnd = false := hn
  by_cases hc : s.iter.entry_pushed > 0
  · constructor
    · constructor <;> simp [iter_step_begin, *]
    · simp only [iter_step_begin, h1, h4, hc, and_self, if_true]
      cases hpar : (h t).parent with
      | none => rfl
      | some par => simp [hmode par hpar]
  · constructor
    · constructor <;> simp [iter_step_begin, *]
    · simp only [iter_step_begin, h1, h4, hc, and_false, if_false]
      cases hpar : (h t).parent with
      | none => rfl
      | some par => simp [hmode par hpar]

theorem candidate_zero {draw : Nat → Nat → Nat} {s : State} {f : Nat} {t : Ptr}
    (hm : s.iter.mode = IterMode.normal) :
    iter_step_candidate draw f s t 0 = some (some t, 0, s) := by
  simp [iter_step_candidate, hm]

theorem candidate_next {draw : Nat → Nat → Nat} {s : State} {f : Nat} {t : Ptr}
    (hm : s.iter.mode = IterMode.normal) :
    iter_step_candidate draw f s t 1 = some ((s.heap t).next, 1, s) := by
  simp [iter_step_candidate, hm, seek_next]

theorem candidate_prev {draw : Nat → Nat → Nat} {s : State} {f : Nat} {t : Ptr}
    (hm : s.iter.mode = IterMode.normal) :
    iter_step_candidate draw f s t (-1) = some ((s.heap t).prev, -1, s) := by
  simp [iter_step_candidate, hm, seek_prev]

theorem is_valid_leaf {h : Heap} {p : Ptr} (f : Nat) (hl : IsLeaf h p) :
    play_tree_is_valid h (f + 1) p = some true := by
  simp [play_tree_is_valid, hl.1, hl.2.1]

theorem step_init {draw : Nat → Nat → Nat} {s : State} {r : Ptr} (f : Nat) (d : Int) (w : Bool)
    (hr : s.iter.root = some r) (ht : s.iter.tree = none) :
    play_tree_iter_step draw (f + 1) s d w =
      play_tree_iter_step draw f { s with iter := { s.iter with tree := some r } } 0 w := by
  simp [play_tree_iter_step, hr, ht]

theorem step_resolve_leaf {draw : Nat → Nat → Nat} {s : State} {h : Heap} {r t p : Ptr}
    {stk : List Int} {lp : Int} {d d1 : Int} (f : Nat) (w : Bool)
    (hp : Pos s h r t stk lp) (hn : NormalAt h t)
    (hcand : iter_step_candidate draw (f + 1) (iter_step_begin s t) t d =
      some (some p, d1, iter_step_begin s t))
    (hl : IsLeaf h p) :
    ∃ s', play_tree_iter_step draw (f + 2) s d w = some (IterResult.entry, s') ∧
      Pos s' h r p stk lp := by
  obtain ⟨hb, hm⟩ := begin_pos hp hn
  obtain ⟨b1, b2, b3, b4, b5, b6⟩ := hb
  obtain ⟨fs, hfs⟩ : ∃ fs, (h p).files = some fs := by
    cases hh : (h p).files with
    | none => exact absurd hh hl.2.2
    | some fs => exact ⟨fs, rfl⟩
  rw [play_tree_iter_step]
  simp only [hp.root, hp.tree, hcand, b1, hl.1, is_valid_leaf f hl]
  cases hpar : (h p).params with
  | none =>
    refine ⟨_, by simp [iter_step_entry, b1, hfs, b4, play_tree_iter_push_params, hpar, hm]; rfl, ?_⟩
    constructor <;> simp [*]
  | some ps =>
    refine ⟨_, by simp [iter_step_entry, b1, hfs, b4, play_tree_iter_push_params, hpar, hm, hl.1]; rfl, ?_⟩
    constructor <;> simp [*]

theorem step_resolve_down {draw : Nat → Nat → Nat} {s : State} {h : Heap} {r t p c : Ptr}
    {stk : List Int} {lp : Int} {d d1 : Int} (f : Nat)
    (hp : Pos s h r t stk lp) (hn : NormalAt h t)
    (hcand : iter_step_candidate draw (f + 1) (iter_step_begin s t) t d =
      some (some p, d1, iter_step_begin s t))
    (hc : (h p).child = some c) (hv : play_tree_is_valid h (f + 1) c = some true)
    (hfiles : (h p).files = none) (hcp : (h c).parent = some p) (hd : 0 ≤ d1) :
    ∃ s', play_tree_iter_step draw (f + 2) s d false = play_tree_iter_step draw (f + 1) s' 0 false ∧
      Pos s' h r c (lp :: stk) (wrap_int ((h p).loop - 1)) := by
  obtain ⟨hb, hm⟩ := begin_pos hp hn
  obtain ⟨b1, b2, b3, b4, b5, b6⟩ := hb
  rw [play_tree_iter_step]
  simp only [hp.root, hp.tree, hcand, b1, hc, hv]
  cases hpar : (h p).params with
  | none =>
    refine ⟨_, by simp [play_tree_iter_down_step, b1, hc, hfiles, hcp, b4,
      play_tree_iter_push_params, hpar, hd]; rfl, ?_⟩
    constructor <;> simp [*]
  | some ps =>
    refine ⟨_, by simp [play_tree_iter_down_step, b1, hc, hfiles, hcp, b4,
      play_tree_iter_push_params, hpar, hd]; rfl, ?_⟩
    constructor <;> simp [*]

theorem step_resolve_down_last {draw : Nat → Nat → Nat} {s : State} {h : Heap} {r t p c q : Ptr}
    {stk : List Int} {lp : Int} {d d1 : Int} (f : Nat)
    (hp : Pos s h r t stk lp) (hn : NormalAt h t)
    (hcand : iter_step_candidate draw (f + 1) (iter_step_begin s t) t d =
      some (some p, d1, iter_step_begin s t))
    (hc : (h p).child = some c) (hv : play_tree_is_valid h (f + 1) c = some true)
    (hfiles : (h p).files = none) (hcp : (h c).parent = some p) (hd : d1 < 0)
    (hlast : last_entry h (f + 1) c = some q) :
    ∃ s', play_tree_iter_step draw (f + 2) s d false = play_tree_iter_step draw (f + 1) s' 0 false ∧
      Pos s' h r q (lp :: stk) (wrap_int ((h p).loop - 1)) := by
  obtain ⟨hb, hm⟩ := begin_pos hp hn
  obtain ⟨b1, b2, b3, b4, b5, b6⟩ := hb
  have hd' : ¬ (0 ≤ d1) := by omega
  rw [play_tree_iter_step]
  simp only [hp.root, hp.tree, hcand, b1, hc, hv]
  cases hpar : (h p).params with
  | none =>
    refine ⟨_, by simp [play_tree_iter_down_step, b1, hc, hfiles, hcp, b4,
      play_tree_iter_push_params, hpar, hd', hlast]; rfl, ?_⟩
    constructor <;> simp [*]
  | some ps =>
    refine ⟨_, by simp [play_tree_iter_down_step, b1, hc, hfiles, hcp, b4,
      play_tree_iter_push_params, hpar, hd', hlast]; rfl, ?_⟩
    constructor <;> simp [*]

theorem step_none_end {draw : Nat → Nat → Nat} {s : State} {h : Heap} {r t : Ptr}
    {stk : List Int} {lp : Int} {d d1 : Int} (f : Nat) (w : Bool)
    (hp : Pos s h r t stk lp) (hn : NormalAt h t)
    (hcand : iter_step_candidate draw f (iter_step_begin s t) t d =
      some (none, d1, iter_step_begin s t))
    (hnw : ∀ par, (h t).parent = some par → ¬ Wraps h par d1 lp)
    (hend : (h t).parent = (h r).parent) :
    ∃ s', play_tree_iter_step draw (f + 1) s d w = some (IterResult.end_, s') ∧
      Pos s' h r t stk lp := by
  obtain ⟨hb, hm⟩ := begin_pos hp hn
  obtain ⟨b1, b2, b3, b4, b5, b6⟩ := hb
  rw [play_tree_iter_step]
  simp only [hp.root, hp.tree, hcand, b1, hm]
  cases hpar : (h t).parent with
  | none =>
    refine ⟨_, by simp [play_tree_iter_up_step, b1, b2, b3, ← hend, hpar]; rfl, ?_⟩
    constructor <;> simp [*]
  | some par =>
    have := hnw par hpar
    unfold Wraps at this
    rw [← b6] at this
    refine ⟨_, by simp [this, play_tree_iter_up_step, b1, b2, b3, ← hend, hpar]; rfl, ?_⟩
    constructor <;> simp [*]

theorem step_none_up {draw : Nat → Nat → Nat} {s : State} {h : Heap} {r t par : Ptr}
    {rest : List Int} {top lp : Int} {d d1 : Int} (f : Nat) (w : Bool)
    (hp : Pos s h r t (top :: rest) lp) (hn : NormalAt h t)
    (hcand : iter_step_candidate draw f (iter_step_begin s t) t d =
      some (none, d1, iter_step_begin s t))
    (hpar : (h t).parent = some par) (hnw : ¬ Wraps h par d1 lp)
    (hend : (h r).parent ≠ some par) :
    ∃ s', play_tree_iter_step draw (f + 1) s d w = play_tree_iter_step draw f s' d1 w ∧
      Pos s' h r par rest top := by
  obtain ⟨hb, hm⟩ := begin_pos hp hn
  obtain ⟨b1, b2, b3, b4, b5, b6⟩ := hb
  unfold Wraps at hnw
  rw [← b6] at hnw
  have hend' : ¬ (some par = (h r).parent) := fun hh => hend hh.symm
  rw [play_tree_iter_step]
  simp only [hp.root, hp.tree, hcand, b1, hm, hpar]
  refine ⟨_, by simp [hnw, play_tree_iter_up_step, b1, b2, b3, b4, b5, hpar, hend', hm]; rfl, ?_⟩
  constructor <;> simp [*]

theorem step_wrap_next {draw : Nat → Nat → Nat} {s : State} {h : Heap} {r t par q : Ptr}
    {stk : List Int} {lp : Int} {d d1 : Int} (f : Nat) (w : Bool)
    (hp : Pos s h r t stk lp) (hn : NormalAt h t)
    (hcand : iter_step_candidate draw f (iter_step_begin s t) t d =
      some (none, d1, iter_step_begin s t))
    (hpar : (h t).parent = some par) (hloop : (h par).loop ≠ 0) (hd : d1 > 0) (hlp : lp ≠ 0)
    (hfirst : first_entry h f t = some q) :
    ∃ s', play_tree_iter_step draw (f + 1) s d w = play_tree_iter_step draw f s' 0 w ∧
      Pos s' h r q stk (if lp > 0 then lp - 1 else lp) := by
  obtain ⟨hb, hm⟩ := begin_pos hp hn
  obtain ⟨b1, b2, b3, b4, b5, b6⟩ := hb
  rw [play_tree_iter_step]
  simp only [hp.root, hp.tree, hcand, b1, hm, hpar]
  by_cases hpos : lp > 0
  · refine ⟨_, by simp [hloop, hd, b6, hlp, hfirst, hpos]; rfl, ?_⟩
    constructor <;> simp [*]
  · refine ⟨_, by simp [hloop, hd, b6, hlp, hfirst, hpos]; rfl, ?_⟩
    constructor <;> simp [*]

theorem step_wrap_prev {draw : Nat → Nat → Nat} {s : State} {h : Heap} {r t par q : Ptr}
    {stk : List Int} {lp : Int} {d d1 : Int} (f : Nat) (w : Bool)
    (hp : Pos s h r t stk lp) (hn : NormalAt h t)
    (hcand : iter_step_candidate draw f (iter_step_begin s t) t d =
      some (none, d1, iter_step_begin s t))
    (hpar : (h t).parent = some par) (hloop : (h par).loop ≠ 0) (hd : d1 < 0)
    (hlp : lp < 0 ∨ lp < (h par).loop)
    (hlast : last_entry h f t = some q) :
    ∃ s', play_tree_iter_step draw (f + 1) s d w = play_tree_iter_step draw f s' 0 w ∧
      Pos s' h r q stk (if lp ≥ 0 ∧ lp < (h par).loop then lp + 1 else lp) := by
  obtain ⟨hb, hm⟩ := begin_pos hp hn
  obtain ⟨b1, b2, b3, b4, b5, b6⟩ := hb
  have hd' : ¬ (d1 > 0) := by omega
  rw [play_tree_iter_step]
  simp only [hp.root, hp.tree, hcand, b1, hm, hpar]
  by_cases hpos : lp ≥ 0 ∧ lp < (h par).loop
  · refine ⟨_, by simp [hloop, hd, hd', b6, hlp, hlast, hpos]; rfl, ?_⟩
    constructor <;> simp [*]
  · refine ⟨_, by simp [hloop, hd, hd', b6, hlp, hlast, hpos]; rfl, ?_⟩
    constructor <;> simp [*]

/-! ## A Container of Leaves -/

theorem Flat.normal_leaf {h : Heap} {r : Ptr} {l : List Ptr} (hf : Flat h r l) {a : Ptr}
    (ha : a ∈ l) : NormalAt h a := by
  intro par hpar
  rw [(hf.leaf a ha).1] at hpar
  cases hpar
  exact hf.rnd

theorem Flat.normal_root {h : Heap} {r : Ptr} {l : List Ptr} (hf : Flat h r l) :
    NormalAt h r := by
  intro par hpar
  rw [hf.parent] at hpar
  cases hpar

theorem flat_valid {h : Heap} {r a : Ptr} {l : List Ptr} (hf : Flat h r (a :: l)) (f : Nat) :
    play_tree_is_valid h (f + 3) r = some true := by
  have hl := (hf.leaf a (List.mem_cons_self _ _)).2.1
  simp [play_tree_is_valid, play_tree_is_valid_loop, hf.type, hf.child, hl.1, hl.2.1]

theorem shuffle_leaves (draw : Nat → Nat → Nat) {h : Heap} {prev : Option Ptr} {l : List Ptr}
    (hc : Chain h prev l none)
    (hl : ∀ a ∈ l, (h a).child = none ∧ (h a).flags.rnd = false) (f k c : Nat)
    (hfuel : l.length + 3 ≤ f) :
    shuffle_tree_children draw f h k (headOr l none) c = some (h, k, c + l.length) := by
  induction l generalizing prev f c with
  | nil =>
    obtain ⟨f, rfl⟩ : ∃ f', f = f' + 1 := ⟨f - 1, by omega⟩
    simp [shuffle_tree_children]
  | cons a l ih =>
    obtain ⟨f, rfl⟩ : ∃ f', f = f' + 3 := ⟨f - 3, by simp at hfuel; omega⟩
    obtain ⟨_, h2, h3⟩ := hc
    have ha := hl a (List.mem_cons_self _ _)
    have := ih h3 (fun b hb => hl b (List.mem_cons_of_mem _ hb)) (f + 2) (c + 1)
      (by simp at hfuel ⊢; omega)
    simp only [headOr_cons, shuffle_tree_children, shuffle_tree, ha.1, ha.2, h2]
    simp [h2, this]
    omega

theorem flat_new {draw : Nat → Nat → Nat} {h : Heap} {r a : Ptr} {l : List Ptr}
    (hf : Flat h r (a :: l)) (f k : Nat) (hfuel : l.length + 5 ≤ f) :
    play_tree_iter_new draw f h k r true =
      some (some { root := some r, tree := none, config := true }, h, k) := by
  obtain ⟨f, rfl⟩ : ∃ f', f = f' + 3 := ⟨f - 3, by omega⟩
  have hs := shuffle_leaves draw hf.chain
    (fun b hb => ⟨(hf.leaf b hb).2.1.1, (hf.leaf b hb).2.2⟩) (f + 2) k 0 (by simp; omega)
  simp only [play_tree_iter_new, flat_valid hf f]
  rw [shuffle_tree]
  rw [← hf.child] at hs
  simp [hs, hf.rnd, hf.parent]

/-- The iterator that `play_tree_iter_new` returns for the root `r`. -/
theorem fresh_pos {h : Heap} {r : Ptr} {k : Nat} :
    Pos { iter_start h k { root := some r, tree := none, config := true } with
      iter := { root := some r, tree := some r, config := true } } h r r [] 0 := by
  constructor <;> rfl

theorem flat_first {draw : Nat → Nat → Nat} {h : Heap} {r a : Ptr} {l : List Ptr}
    (hf : Flat h r (a :: l)) (f k : Nat) (d : Int) :
    ∃ s', play_tree_iter_step draw (f + 5)
        (iter_start h k { root := some r, tree := none, config := true }) d false
        = some (IterResult.entry, s') ∧
      Pos s' h r a [0] (wrap_int ((h r).loop - 1)) := by
  have ha := hf.leaf a (List.mem_cons_self _ _)
  rw [step_init (r := r) _ _ _ rfl rfl]
  have hp := @fresh_pos h r k
  obtain ⟨hb, hm⟩ := begin_pos hp hf.normal_root
  obtain ⟨s1, e1, hp1⟩ := step_resolve_down (f + 2) hp hf.normal_root
    (candidate_zero hm) hf.child (is_valid_leaf _ ha.2.1) hf.files ha.1 (le_refl 0)
  obtain ⟨hb1, hm1⟩ := begin_pos hp1 (hf.normal_leaf (List.mem_cons_self _ _))
  obtain ⟨s2, e2, hp2⟩ := step_resolve_leaf (f + 1) false hp1
    (hf.normal_leaf (List.mem_cons_self _ _)) (candidate_zero hm1) ha.2.1
  exact ⟨s2, by rw [← e2, ← e1]; rfl, hp2⟩

theorem flat_next {draw : Nat → Nat → Nat} {h : Heap} {r a b : Ptr} {l1 l2 : List Ptr} {s : State}
    {stk : List Int} {lp : Int}
    (hf : Flat h r (l1 ++ a :: b :: l2)) (hp : Pos s h r a stk lp) (f : Nat) :
    ∃ s', play_tree_iter_step draw (f + 2) s 1 false = some (IterResult.entry, s') ∧
      Pos s' h r b stk lp := by
  have hna := hf.normal_leaf (show a ∈ l1 ++ a :: b :: l2 by simp)
  have hb := hf.leaf b (by simp)
  obtain ⟨hbp, hm⟩ := begin_pos hp hna
  have hnext : (h a).next = some b := (Chain_append.1 hf.chain).2.2.1
  have hcand := @candidate_next draw _ (f + 1) a hm
  rw [hbp.heap, hnext] at hcand
  exact step_resolve_leaf f false hp hna hcand hb.2.1

theorem flat_wrap_next {draw : Nat → Nat → Nat} {h : Heap} {r a c : Ptr} {l1 l : List Ptr}
    {s : State} {stk : List Int} {lp : Int}
    (hf : Flat h r (c :: l)) (hl : c :: l = l1 ++ [a]) (hp : Pos s h r a stk lp)
    (hloop : (h r).loop ≠ 0) (hlp : lp ≠ 0) (f : Nat) :
    ∃ s', play_tree_iter_step draw (f + l.length + 4) s 1 false = some (IterResult.entry, s') ∧
      Pos s' h r c stk (if lp > 0 then lp - 1 else lp) := by
  have hmem : a ∈ c :: l := by rw [hl]; simp
  have hna := hf.normal_leaf hmem
  have hnc := hf.normal_leaf (List.mem_cons_self c l)
  have hc := hf.leaf c (List.mem_cons_self _ _)
  obtain ⟨hbp, hm⟩ := begin_pos hp hna
  have hch := hf.chain
  rw [hl] at hch
  have hnext : (h a).next = none := (Chain_append.1 hch).2.2.1
  have hlen : l1.length = l.length := by
    have := congrArg List.length hl
    simp at this
    omega
  have hfirst : first_entry h (f + l.length + 3) a = some c := by
    rw [first_entry_chain hch (by omega)]
    have : headOr (l1 ++ [a]) none = some c := by rw [← hl]; rfl
    rw [headOr_append] at this
    cases l1 <;> simpa using this
  have hcand := @candidate_next draw _ (f + l.length + 3) a hm
  rw [hbp.heap, hnext] at hcand
  obtain ⟨s1, e1, hp1⟩ := step_wrap_next (f + l.length + 3) false hp hna hcand
    (hf.leaf a hmem).1 hloop (by decide) hlp hfirst
  obtain ⟨_, hm1⟩ := begin_pos hp1 hnc
  obtain ⟨s2, e2, hp2⟩ := step_resolve_leaf (f + l.length + 1) false hp1 hnc
    (@candidate_zero draw _ (f + l.length + 1 + 1) c hm1) hc.2.1
  exact ⟨s2, by rw [e1]; exact e2, hp2⟩

theorem flat_end_any {draw : Nat → Nat → Nat} {h : Heap} {r a : Ptr} {l : List Ptr}
    {s : State} {lp top : Int} {d : Int}
    (hf : Flat h r l) (ha : a ∈ l) (hp : Pos s h r a [top] lp)
    (hcand : ∀ f s1, s1.iter.mode = IterMode.normal → s1.heap = h →
      iter_step_candidate draw f s1 a d = some (none, d, s1))
    (hcandr : ∀ f s1, s1.iter.mode = IterMode.normal → s1.heap = h →
      iter_step_candidate draw f s1 r d = some (none, d, s1))
    (hnw : ¬ Wraps h r d lp) (f : Nat) :
    ∃ s', play_tree_iter_step draw (f + 2) s d false = some (IterResult.end_, s') ∧
      Pos s' h r r [] top := by
  have hna := hf.normal_leaf ha
  obtain ⟨hbp, hm⟩ := begin_pos hp hna
  obtain ⟨s1, e1, hp1⟩ := step_none_up (f + 1) false hp hna (hcand _ _ hm hbp.heap)
    (hf.leaf a ha).1 hnw (by rw [hf.parent]; simp)
  obtain ⟨hbp1, hm1⟩ := begin_pos hp1 hf.normal_root
  obtain ⟨s2, e2, hp2⟩ := step_none_end f false hp1 hf.normal_root (hcandr _ _ hm1 hbp1.heap)
    (by intro par hpar; rw [hf.parent] at hpar; cases hpar) rfl
  exact ⟨s2, by rw [e1]; exact e2, hp2⟩

theorem flat_end_next {draw : Nat → Nat → Nat} {h : Heap} {r a : Ptr} {l1 : List Ptr}
    {s : State} {lp top : Int}
    (hf : Flat h r (l1 ++ [a])) (hp : Pos s h r a [top] lp)
    (hnw : ¬ ((h r).loop ≠ 0 ∧ lp ≠ 0)) (f : Nat) :
    ∃ s', play_tree_iter_step draw (f + 2) s 1 false = some (IterResult.end_, s') ∧
      Pos s' h r r [] top := by
  have hnext : (h a).next = none := (Chain_append.1 hf.chain).2.2.1
  refine flat_end_any hf (by simp) hp ?_ ?_ ?_ f
  · intro f s1 hm hh
    rw [candidate_next hm, hh, hnext]
  · intro f s1 hm hh
    rw [candidate_next hm, hh, hf.next]
  · unfold Wraps
    intro hw
    apply hnw
    refine ⟨hw.1, ?_⟩
    rcases hw.2 with hw2 | hw2
    · exact hw2.2
    · omega

theorem flat_end_prev {draw : Nat → Nat → Nat} {h : Heap} {r a : Ptr} {l2 : List Ptr}
    {s : State} {lp top : Int}
    (hf : Flat h r (a :: l2)) (hp : Pos s h r a [top] lp)
    (hnw : ¬ ((h r).loop ≠ 0 ∧ (lp < 0 ∨ lp < (h r).loop))) (f : Nat) :
    ∃ s', play_tree_iter_step draw (f + 2) s (-1) false = some (IterResult.end_, s') ∧
      Pos s' h r r [] top := by
  have hprev : (h a).prev = none := hf.chain.1
  refine flat_end_any hf (by simp) hp ?_ ?_ ?_ f
  · intro f s1 hm hh
    rw [candidate_prev hm, hh, hprev]
  · intro f s1 hm hh
    rw [candidate_prev hm, hh, hf.prev]
  · unfold Wraps
    intro hw
    apply hnw
    refine ⟨hw.1, ?_⟩
    rcases hw.2 with hw2 | hw2
    · omega
    · exact hw2.2

theorem flat_end_again {draw : Nat → Nat → Nat} {h : Heap} {r : Ptr} {l : List Ptr}
    {s : State} {stk : List Int} {lp : Int}
    (hf : Flat h r l) (hp : Pos s h r r stk lp) (f : Nat) :
    ∃ s', play_tree_iter_step draw (f + 1) s 1 false = some (IterResult.end_, s') ∧
      Pos s' h r r stk lp := by
  obtain ⟨hbp, hm⟩ := begin_pos hp hf.normal_root
  have hcand := @candidate_next draw _ f r hm
  rw [hbp.heap, hf.next] at hcand
  exact step_none_end f false hp hf.normal_root hcand
    (by intro par hpar; rw [hf.parent] at hpar; cases hpar) rfl

theorem flat_wrap_prev {draw : Nat → Nat → Nat} {h : Heap} {r a q : Ptr} {l2 : List Ptr}
    {s : State} {stk : List Int} {lp : Int}
    (hf : Flat h r (a :: l2)) (hq : lastOr l2 (some a) = some q) (hp : Pos s h r a stk lp)
    (hloop : (h r).loop ≠ 0) (hlp : lp < 0 ∨ lp < (h r).loop) (f : Nat) :
    ∃ s', play_tree_iter_step draw (f + l2.length + 4) s (-1) false
        = some (IterResult.entry, s') ∧
      Pos s' h r q stk (if lp ≥ 0 ∧ lp < (h r).loop then lp + 1 else lp) := by
  have hmem : a ∈ a :: l2 := List.mem_cons_self _ _
  have hna := hf.normal_leaf hmem
  have hqm : q ∈ a :: l2 := by
    have : lastOr (a :: l2) none = some q := hq
    exact (lastOr_mem (by simp) this).1
  have hnq := hf.normal_leaf hqm
  have hql := hf.leaf q hqm
  obtain ⟨hbp, hm⟩ := begin_pos hp hna
  have hprev : (h a).prev = none := hf.chain.1
  have hlast : last_entry h (f + l2.length + 3) a = some q := by
    rw [last_entry_chain hf.chain (by omega), hq]
  have hcand := @candidate_prev draw _ (f + l2.length + 3) a hm
  rw [hbp.heap, hprev] at hcand
  obtain ⟨s1, e1, hp1⟩ := step_wrap_prev (f + l2.length + 3) false hp hna hcand
    (hf.leaf a hmem).1 hloop (by decide) hlp hlast
  obtain ⟨_, hm1⟩ := begin_pos hp1 hnq
  obtain ⟨s2, e2, hp2⟩ := step_resolve_leaf (f + l2.length + 1) false hp1 hnq
    (@candidate_zero draw _ (f + l2.length + 1 + 1) q hm1) hql.2.1
  exact ⟨s2, by rw [e1]; exact e2, hp2⟩

/-! ## Runs over a Container of Leaves -/

theorem iter_run_cons {draw : Nat → Nat → Nat} {fuel : Nat} {s s1 s2 : State} {d : Int}
    {ds : List Int} {r : IterResult} {rs : List (IterResult × Option Ptr)}
    (h1 : play_tree_iter_step draw fuel s d false = some (r, s1))
    (h2 : iter_run draw fuel s1 ds = some (rs, s2)) :
    iter_run draw fuel s (d :: ds) = some ((r, s1.iter.tree) :: rs, s2) := by
  simp [iter_run, h1, h2]

theorem flat_end_run {draw : Nat → Nat → Nat} {h : Heap} {r : Ptr} {l : List Ptr}
    (hf : Flat h r l) (f n : Nat) {s : State} {stk : List Int} {lp : Int}
    (hp : Pos s h r r stk lp) :
    ∃ s', iter_run draw (f + 1) s (List.replicate n 1)
        = some (List.replicate n (IterResult.end_, some r), s') ∧ Pos s' h r r stk lp := by
  induction n generalizing s with
  | zero => exact ⟨s, rfl, hp⟩
  | succ n ih =>
    obtain ⟨s1, e1, hp1⟩ := @flat_end_again draw _ _ _ _ _ _ hf hp f
    obtain ⟨s2, e2, hp2⟩ := ih hp1
    refine ⟨s2, ?_, hp2⟩
    rw [List.replicate_succ, iter_run_cons e1 e2, hp1.tree]
    rfl

/-- The run of a fresh iterator over a Container with `loop = 2` and two
Leaves: two passes, then `End` for ever. -/
theorem flat_two_run (draw : Nat → Nat → Nat) {h : Heap} {r a b : Ptr}
    (hf : Flat h r [a, b]) (hloop : (h r).loop = 2) (k f n : Nat) (d0 : Int) :
    ∃ s', iter_run draw (f + 6) (iter_start h k (iter_fresh r)) (d0 :: List.replicate (n + 4) 1)
      = some ([(IterResult.entry, some a), (IterResult.entry, some b),
          (IterResult.entry, some a), (IterResult.entry, some b)]
          ++ List.replicate (n + 1) (IterResult.end_, some r), s') := by
  obtain ⟨s1, e1, p1⟩ := @flat_first draw _ _ _ _ hf (f + 1) k d0
  have hw : wrap_int ((h r).loop - 1) = 1 := by rw [hloop]; decide
  rw [hw] at p1
  have hf' : Flat h r ([] ++ a :: b :: []) := hf
  obtain ⟨s2, e2, p2⟩ := @flat_next draw _ _ _ _ _ _ _ _ _ hf' p1 (f + 4)
  obtain ⟨s3, e3, p3⟩ := @flat_wrap_next draw _ _ _ _ [a] _ _ _ _ hf rfl p2
    (by rw [hloop]; decide) (by decide) (f + 1)
  obtain ⟨s4, e4, p4⟩ := @flat_next draw _ _ _ _ _ _ _ _ _ hf' p3 (f + 4)
  have hf'' : Flat h r ([a] ++ [b]) := hf
  obtain ⟨s5, e5, p5⟩ := @flat_end_next draw _ _ _ _ _ _ _ hf'' p4 (by simp) (f + 4)
  obtain ⟨s6, e6, p6⟩ := @flat_end_run draw _ _ _ hf (f + 5) n _ _ _ p5
  refine ⟨s6, ?_⟩
  have e5' := iter_run_cons e5 e6
  have e4' := iter_run_cons e4 e5'
  have e3' := iter_run_cons e3 e4'
  have e2' := iter_run_cons e2 e3'
  have e1' := iter_run_cons e1 e2'
  rw [p1.tree, p2.tree, p3.tree, p4.tree, p5.tree] at e1'
  exact e1'

theorem flat_loop2 : Flat heap_loop2 0 [1, 2] := by
  constructor <;> simp [heap_loop2, headOr, Chain, IsLeaf]

theorem flat_int_min1 : Flat heap_int_min1 0 [1] := by
  constructor <;> simp [heap_int_min1, headOr, Chain, IsLeaf]

theorem flat_int_min2 : Flat heap_int_min2 0 [1, 2] := by
  constructor <;> simp [heap_int_min2, headOr, Chain, IsLeaf]

/-- A Container with one Leaf, a loop field other than 0 and the loop counter
`n ≥ 0`: `n` more passes, then `End`. -/
theorem flat_one_countdown {draw : Nat → Nat → Nat} {h : Heap} {r a : Ptr}
    (hf : Flat h r [a]) (hloop : (h r).loop ≠ 0) (f n : Nat) {s : State} {top : Int}
    (hp : Pos s h r a [top] (n : Int)) :
    ∃ s', iter_run draw (f + 4) s (List.replicate (n + 1) 1)
      = some (List.replicate n (IterResult.entry, some a) ++ [(IterResult.end_, some r)], s') := by
  induction n generalizing s with
  | zero =>
    have hf' : Flat h r ([] ++ [a]) := hf
    obtain ⟨s1, e1, p1⟩ := @flat_end_next draw _ _ _ _ _ _ _ hf' hp (by simp) (f + 2)
    refine ⟨s1, ?_⟩
    have := @iter_run_cons _ _ _ _ _ _ [] _ _ e1 rfl
    rw [p1.tree] at this
    exact this
  | succ n ih =>
    have hne : ((n + 1 : Nat) : Int) ≠ 0 := by omega
    obtain ⟨s1, e1, p1⟩ := @flat_wrap_next draw _ _ _ _ [] _ _ _ _ hf rfl hp hloop hne f
    have hlp : (if ((n + 1 : Nat) : Int) > 0 then ((n + 1 : Nat) : Int) - 1 else ((n + 1 : Nat) : Int))
        = (n : Int) := by
      rw [if_pos (by omega)]; push_cast; ring
    rw [hlp] at p1
    obtain ⟨s2, e2⟩ := ih p1
    refine ⟨s2, ?_⟩
    have := iter_run_cons e1 e2
    rw [p1.tree] at this
    have this' : iter_run draw (f + 4) s (1 :: List.replicate (n + 1) 1) = _ := this
    rw [List.replicate_succ, this', List.replicate_succ]
    rfl

/-- The run of a fresh iterator over `heap_int_min1`. -/
theorem int_min1_run (f : Nat) :
    ∃ s', iter_run draw_zero (f + 5) (iter_start heap_int_min1 0 (iter_fresh 0))
        (0 :: List.replicate (2147483647 + 1) 1)
      = some ((IterResult.entry, some 1) :: (List.replicate 2147483647 (IterResult.entry, some 1)
          ++ [(IterResult.end_, some 0)]), s') := by
  obtain ⟨s1, e1, p1⟩ := @flat_first draw_zero _ _ _ _ flat_int_min1 f 0 0
  have hw : wrap_int ((heap_int_min1 0).loop - 1) = ((2147483647 : Nat) : Int) := by decide
  rw [hw] at p1
  obtain ⟨s2, e2⟩ := @flat_one_countdown draw_zero _ _ _ flat_int_min1 (by decide) (f + 1)
    2147483647 _ _ p1
  refine ⟨s2, ?_⟩
  have := iter_run_cons e1 e2
  rw [p1.tree] at this
  exact this

/-- The run of a fresh iterator over `heap_int_min2`: first step, then one step back. -/
theorem int_min2_run (f : Nat) :
    ∃ s', iter_run draw_zero (f + 5) (iter_start heap_int_min2 0 (iter_fresh 0)) [0, -1]
      = some ([(IterResult.entry, some 1), (IterResult.end_, some 0)], s') := by
  obtain ⟨s1, e1, p1⟩ := @flat_first draw_zero _ _ _ _ flat_int_min2 f 0 0
  have hw : wrap_int ((heap_int_min2 0).loop - 1) = 2147483647 := by decide
  rw [hw] at p1
  obtain ⟨s2, e2, p2⟩ := @flat_end_prev draw_zero _ _ _ _ _ _ _ flat_int_min2 p1
    (by decide) (f + 3)
  refine ⟨s2, ?_⟩
  have := iter_run_cons e1 (@iter_run_cons _ _ _ _ _ _ [] _ _ e2 rfl)
  rw [p1.tree, p2.tree] at this
  exact this

theorem wrap_int_pred_neg {L : Int} (h1 : -2147483648 < L) (h2 : L < 0) :
    wrap_int (L - 1) = L - 1 := by
  unfold wrap_int
  omega

/-- A Container of Leaves with a negative loop counter: every forward step
returns Entry, from any Leaf. -/
theorem flat_negative_run (draw : Nat → Nat → Nat) {h : Heap} {r c : Ptr} {l : List Ptr}
    (hf : Flat h r (c :: l)) (hloop : (h r).loop ≠ 0) (f n : Nat) {lp : Int} (hlp : lp < 0)
    (l1 l2 : List Ptr) (a : Ptr) (hl : c :: l = l1 ++ a :: l2) {s : State} {stk : List Int}
    (hp : Pos s h r a stk lp) :
    ∃ rs s', iter_run draw (f + l.length + 4) s (List.replicate n 1) = some (rs, s') ∧
      rs.length = n ∧ ∀ x ∈ rs, x.1 = IterResult.entry := by
  induction n generalizing s l1 l2 a with
  | zero => exact ⟨[], s, rfl, rfl, by simp⟩
  | succ n ih =>
    cases l2 with
    | nil =>
      obtain ⟨s1, e1, p1⟩ := @flat_wrap_next draw _ _ _ _ l1 _ _ _ _ hf hl hp hloop
        (by omega) f
      rw [if_neg (by omega)] at p1
      obtain ⟨rs, s2, e2, e3, e4⟩ := ih [] l c rfl p1
      refine ⟨(IterResult.entry, s1.iter.tree) :: rs, s2, ?_, by simp [e3], ?_⟩
      · rw [List.replicate_succ]
        exact iter_run_cons e1 e2
      · intro x hx
        rcases List.mem_cons.1 hx with hx | hx
        · rw [hx]
        · exact e4 x hx
    | cons b l2 =>
      have hf' : Flat h r (l1 ++ a :: b :: l2) := by rw [← hl]; exact hf
      obtain ⟨s1, e1, p1⟩ := @flat_next draw _ _ _ _ _ _ _ _ _ hf' hp (f + l.length + 2)
      obtain ⟨rs, s2, e2, e3, e4⟩ := ih (l1 ++ [a]) l2 b (by rw [hl]; simp) p1
      refine ⟨(IterResult.entry, s1.iter.tree) :: rs, s2, ?_, by simp [e3], ?_⟩
      · rw [List.replicate_succ]
        exact iter_run_cons e1 e2
      · intro x hx
        rcases List.mem_cons.1 hx with hx | hx
        · rw [hx]
        · exact e4 x hx

/-- Negative loop counts other than `INT_MIN` are infinite: for a detached root Container whose children are
valid Leaves (at least one) and whose loop field is negative but not `INT_MIN`,
the first `n + 1` forward steps of a fresh cursor all return Entry, for every
`n`. -/
theorem negative_loop_never_ends (draw : Nat → Nat → Nat) (h : Heap) (r c : Ptr) (l : List Ptr)
    (hf : Flat h r (c :: l)) (h1 : -2147483648 < (h r).loop) (h2 : (h r).loop < 0)
    (k f n : Nat) (d0 : Int) :
    ∃ rs s', iter_run draw (f + l.length + 5) (iter_start h k (iter_fresh r))
        (d0 :: List.replicate n 1) = some (rs, s') ∧
      rs.length = n + 1 ∧ ∀ x ∈ rs, x.1 = IterResult.entry := by
  obtain ⟨s1, e1, p1⟩ := @flat_first draw _ _ _ _ hf (f + l.length) k d0
  rw [wrap_int_pred_neg h1 h2] at p1
  obtain ⟨rs, s2, e2, e3, e4⟩ := flat_negative_run draw hf (by omega) (f + 1) n
    (show (h r).loop - 1 < 0 by omega) [] l c rfl p1
  have e2' : iter_run draw (f + l.length + 5) s1 (List.replicate n 1) = some (rs, s2) := by
    have : f + 1 + l.length + 4 = f + l.length + 5 := by omega
    rw [← this]; exact e2
  refine ⟨(IterResult.entry, s1.iter.tree) :: rs, s2, iter_run_cons e1 e2', by simp [e3], ?_⟩
  intro x hx
  rcases List.mem_cons.1 hx with hx | hx
  · rw [hx]
  · exact e4 x hx

/-- Stepping back from the first Leaf: for a cursor positioned by its first step on the
first Leaf of a detached root Container of valid Leaves, `play_tree_iter_step`
with `d = -1` returns End if the loop field is 0, and Entry on the last Leaf if
the loop field is negative but not `INT_MIN`. -/
theorem step_back_from_first (draw : Nat → Nat → Nat) (h : Heap) (r a q : Ptr) (l : List Ptr)
    (hf : Flat h r (a :: l)) (hq : lastOr l (some a) = some q) (k f : Nat) (d0 : Int) :
    ((h r).loop = 0 →
      ∃ s', iter_run draw (f + l.length + 5) (iter_start h k (iter_fresh r)) [d0, -1]
        = some ([(IterResult.entry, some a), (IterResult.end_, some r)], s')) ∧
    (-2147483648 < (h r).loop → (h r).loop < 0 →
      ∃ s', iter_run draw (f + l.length + 5) (iter_start h k (iter_fresh r)) [d0, -1]
        = some ([(IterResult.entry, some a), (IterResult.entry, some q)], s')) := by
  obtain ⟨s1, e1, p1⟩ := @flat_first draw _ _ _ _ hf (f + l.length) k d0
  constructor
  · intro h0
    obtain ⟨s2, e2, p2⟩ := @flat_end_prev draw _ _ _ _ _ _ _ hf p1 (by simp [h0])
      (f + l.length + 3)
    refine ⟨s2, ?_⟩
    have := iter_run_cons e1 (@iter_run_cons _ _ _ _ _ _ [] _ _ e2 rfl)
    rw [p1.tree, p2.tree] at this
    exact this
  · intro h1 h2
    rw [wrap_int_pred_neg h1 h2] at p1
    obtain ⟨s2, e2, p2⟩ := @flat_wrap_prev draw _ _ _ _ _ _ _ _ hf hq p1 (by omega)
      (Or.inl (by omega)) (f + 1)
    have e2' : play_tree_iter_step draw (f + l.length + 5) s1 (-1) false
        = some (IterResult.entry, s2) := by
      have : f + 1 + l.length + 4 = f + l.length + 5 := by omega
      rw [← this]; exact e2
    refine ⟨s2, ?_⟩
    have := iter_run_cons e1 (@iter_run_cons _ _ _ _ _ _ [] _ _ e2' rfl)
    rw [p1.tree, p2.tree] at this
    exact this

/-! ## Lemmas on trees -/

theorem leaves_cons_ne_nil (a : Ptr) (k r : Forest) : (Forest.cons a k r).leaves ≠ [] := by
  induction k generalizing a r with
  | nil => simp [Forest.leaves]
  | cons c k' r' ih1 _ =>
    simp only [Forest.leaves]
    intro hh
    have := List.append_eq_nil.1 hh
    exact ih1 c r' this.1

theorem leaves_cons (a : Ptr) (k r : Forest) :
    (Forest.cons a k r).leaves = (Forest.cons a k Forest.nil).leaves ++ r.leaves := by
  simp [Forest.leaves]

theorem todo_descend (b : Ptr) (k R : Forest) (rest : List (Ptr × Forest)) :
    todo (descendFrames b k R rest) = (Forest.cons b k R).leaves ++ remaining rest := by
  induction k generalizing b R rest with
  | nil => simp [descendFrames, todo, Forest.leaves]
  | cons c k' r' ih1 _ =>
    simp only [descendFrames]
    rw [ih1]
    simp [remaining, Forest.leaves]

theorem descendFrames_ne_nil (b : Ptr) (k R : Forest) (rest : List (Ptr × Forest)) :
    descendFrames b k R rest ≠ [] := by
  induction k generalizing b R rest with
  | nil => simp [descendFrames]
  | cons c k' r' ih1 _ => simp only [descendFrames]; exact ih1 _ _ _

theorem nextFrames_none {frames : List (Ptr × Forest)} (hn : nextFrames frames = none) :
    remaining frames = [] := by
  induction frames with
  | nil => rfl
  | cons fr rest ih =>
    obtain ⟨a, R⟩ := fr
    cases R with
    | nil => simp only [nextFrames] at hn; simp [remaining, Forest.leaves, ih hn]
    | cons b k R' => simp [nextFrames] at hn

theorem nextFrames_some {frames frames' : List (Ptr × Forest)}
    (hn : nextFrames frames = some frames') : todo frames' = remaining frames := by
  induction frames with
  | nil => simp [nextFrames] at hn
  | cons fr rest ih =>
    obtain ⟨a, R⟩ := fr
    cases R with
    | nil => simp only [nextFrames] at hn; simp [remaining, Forest.leaves, ih hn]
    | cons b k R' =>
      simp only [nextFrames, Option.some.injEq] at hn
      rw [← hn, todo_descend]
      rfl

theorem leaves_sublist (F : Forest) : List.Sublist F.leaves F.addrs := by
  induction F with
  | nil => exact List.Sublist.slnil
  | cons a k r ih1 ih2 =>
    cases k with
    | nil =>
      simp only [Forest.leaves, Forest.addrs, List.nil_append, List.singleton_append]
      exact List.Sublist.cons₂ _ ih2
    | cons c k' r' =>
      simp only [Forest.leaves, Forest.addrs] at ih1 ⊢
      exact List.Sublist.cons _ (List.Sublist.append ih1 ih2)

/-! ## Plain traversal (claim C1) -/

theorem valid_playable {h : Heap} (k : Forest) (a : Ptr)
    (hrep : Rep h (some a) none k) (hchild : (h a).child = headOr k.roots none)
    (he : PlayableEntry h a k) (hk : Playable h k) :
    ∃ N, ∀ f, N ≤ f → play_tree_is_valid h f a = some true := by
  induction k generalizing a with
  | nil =>
    refine ⟨1, fun f hf => ?_⟩
    obtain ⟨f, rfl⟩ : ∃ f', f = f' + 1 := ⟨f - 1, by omega⟩
    exact is_valid_leaf f he.2
  | cons c k' r' ih1 _ =>
    obtain ⟨_, _, _, hcc, hrk, _⟩ := hrep
    obtain ⟨hec, hkk, _⟩ := hk
    obtain ⟨N, hN⟩ := ih1 c hrk hcc hec hkk
    refine ⟨N + 2, fun f hf => ?_⟩
    obtain ⟨f, rfl⟩ : ∃ f', f = f' + 2 := ⟨f - 2, by omega⟩
    have htype : (h a).entry_type = EntryType.node := he.2.1
    simp only [Forest.roots, headOr_cons] at hchild
    simp [play_tree_is_valid, play_tree_is_valid_loop, htype, hchild, hN f (by omega)]

theorem shuffle_playable (draw : Nat → Nat → Nat) {h : Heap} (F : Forest)
    (par prev : Option Ptr) (hrep : Rep h par prev F) (hp : Playable h F) :
    ∃ N, ∀ f, N ≤ f → ∀ k c,
      shuffle_tree_children draw f h k (headOr F.roots none) c
        = some (h, k, c + F.roots.length) := by
  induction F generalizing par prev with
  | nil =>
    refine ⟨1, fun f hf k c => ?_⟩
    obtain ⟨f, rfl⟩ : ∃ f', f = f' + 1 := ⟨f - 1, by omega⟩
    simp [shuffle_tree_children, Forest.roots]
  | cons a ks r ih1 ih2 =>
    obtain ⟨_, _, hnext, hchild, hrk, hrr⟩ := hrep
    obtain ⟨he, hpk, hpr⟩ := hp
    obtain ⟨N1, hN1⟩ := ih1 _ _ hrk hpk
    obtain ⟨N2, hN2⟩ := ih2 _ _ hrr hpr
    refine ⟨N1 + N2 + 2, fun f hf k c => ?_⟩
    obtain ⟨f, rfl⟩ : ∃ f', f = f' + 2 := ⟨f - 2, by omega⟩
    have e1 := hN1 f (by omega) k 0
    have e2 := hN2 (f + 1) (by omega) k (c + 1)
    rw [← hchild] at e1
    rw [← hnext] at e2
    simp only [Forest.roots, headOr_cons, shuffle_tree_children, shuffle_tree, e1, he.1]
    simp [e2]
    omega

theorem iter_new_playable (draw : Nat → Nat → Nat) {h : Heap} {r : Ptr} {K : Forest}
    (hrep : Rep h none none (Forest.cons r K Forest.nil))
    (hp : Playable h (Forest.cons r K Forest.nil)) :
    ∃ N, ∀ f, N ≤ f → ∀ k,
      play_tree_iter_new draw f h k r true = some (some (iter_fresh r), h, k) := by
  obtain ⟨hpar, _, _, hchild, hrk, _⟩ := hrep
  obtain ⟨N1, hN1⟩ := valid_playable K r hrk hchild hp.1 hp.2.1
  obtain ⟨N2, hN2⟩ := shuffle_playable draw K _ _ hrk hp.2.1
  refine ⟨N1 + N2 + 1, fun f hf k => ?_⟩
  obtain ⟨f, rfl⟩ : ∃ f', f = f' + 1 := ⟨f - 1, by omega⟩
  have e2 := hN2 f (by omega) k 0
  rw [← hchild] at e2
  simp [play_tree_iter_new, hN1 (f + 1) (by omega), shuffle_tree, e2, hp.1.1, hpar, iter_fresh]

theorem descend_step (draw : Nat → Nat → Nat) {h : Heap} {r : Ptr} (k : Forest) (b : Ptr)
    (R : Forest) (rest : List (Ptr × Forest))
    (hfr : Frames h r ((b, R) :: rest)) (hchild : (h b).child = headOr k.roots none)
    (hrep : Rep h (some b) none k) (he : PlayableEntry h b k) (hk : Playable h k) :
    ∃ N, ∀ f, N ≤ f → ∀ (s : State) (t : Ptr) (stk : List Int) (lp d d1 : Int),
      Pos s h r t stk lp → NormalAt h t → stk.length = rest.length →
      (∀ f', iter_step_candidate draw f' (iter_step_begin s t) t d
        = some (some b, d1, iter_step_begin s t)) → 0 ≤ d1 →
      ∃ s' stk' lp' lf Rl rest', descendFrames b k R rest = (lf, Rl) :: rest' ∧
        play_tree_iter_step draw f s d false = some (IterResult.entry, s') ∧
        Pos s' h r lf stk' lp' ∧ stk'.length = rest'.length ∧
        Frames h r (descendFrames b k R rest) := by
  induction k generalizing b R rest with
  | nil =>
    refine ⟨2, fun f hf s t stk lp d d1 hp hn hlen hcand _ => ?_⟩
    obtain ⟨f, rfl⟩ : ∃ f', f = f' + 2 := ⟨f - 2, by omega⟩
    obtain ⟨s', e1, p1⟩ := step_resolve_leaf f false hp hn (hcand (f + 1)) he.2
    exact ⟨s', stk, lp, b, R, rest, rfl, e1, p1, hlen, hfr⟩
  | cons c k' r' ih1 _ =>
    obtain ⟨hcp, _, hcn, hcc, hrk, hrr⟩ := hrep
    obtain ⟨hec, hkk, hkr⟩ := hk
    obtain ⟨hbrnd, hbtype, hbfiles, hbloop⟩ := he
    simp only [Forest.roots, headOr_cons] at hchild
    have hfr' : Frames h r ((c, r') :: (b, R) :: rest) :=
      ⟨hcp, hbloop, hbrnd, hcn, hrr, hkr, hfr⟩
    obtain ⟨N1, hN1⟩ := ih1 c r' ((b, R) :: rest) hfr' hcc hrk hec hkk
    obtain ⟨N2, hN2⟩ := valid_playable k' c hrk hcc hec hkk
    refine ⟨N1 + N2 + 2, fun f hf s t stk lp d d1 hp hn hlen hcand hd1 => ?_⟩
    obtain ⟨f, rfl⟩ : ∃ f', f = f' + 2 := ⟨f - 2, by omega⟩
    obtain ⟨s1, e1, p1⟩ := step_resolve_down f hp hn (hcand (f + 1)) hchild
      (hN2 (f + 1) (by omega)) hbfiles hcp hd1
    have hnc : NormalAt h c := by
      intro par hpar
      rw [hcp] at hpar
      cases hpar
      exact hbrnd
    obtain ⟨_, hm1⟩ := begin_pos p1 hnc
    obtain ⟨s', stk', lp', lf, Rl, rest', e2, e3, p2, hlen', hfr''⟩ :=
      hN1 (f + 1) (by omega) s1 c (lp :: stk) _ 0 0 p1 hnc (by simp [hlen])
        (fun f' => candidate_zero hm1) (le_refl 0)
    exact ⟨s', stk', lp', lf, Rl, rest', e2, by rw [e1]; exact e3, p2, hlen', hfr''⟩

theorem forward_step (draw : Nat → Nat → Nat) {h : Heap} {r : Ptr}
    (hrp : (h r).parent = none) (hrn : (h r).next = none)
    (frames : List (Ptr × Forest)) (hfr : Frames h r frames) :
    ∃ N, ∀ f, N ≤ f → ∀ (s : State) (stk : List Int) (lp : Int) (a : Ptr) (R : Forest)
      (rest : List (Ptr × Forest)),
      frames = (a, R) :: rest → Pos s h r a stk lp → stk.length = rest.length →
      (nextFrames frames = none →
        ∃ s' lp', play_tree_iter_step draw f s 1 false = some (IterResult.end_, s') ∧
          Pos s' h r r [] lp') ∧
      (∀ frames', nextFrames frames = some frames' →
        ∃ s' stk' lp' lf Rl rest', frames' = (lf, Rl) :: rest' ∧
          play_tree_iter_step draw f s 1 false = some (IterResult.entry, s') ∧
          Pos s' h r lf stk' lp' ∧ stk'.length = rest'.length ∧ Frames h r frames') := by
  induction frames with
  | nil => exact absurd hfr (by simp [Frames])
  | cons fr rest0 ih =>
    obtain ⟨a0, R0⟩ := fr
    cases rest0 with
    | nil =>
      obtain ⟨ha, hR⟩ := hfr
      subst ha hR
      refine ⟨1, fun f hf s stk lp a R rest heq hp hlen => ?_⟩
      obtain ⟨f, rfl⟩ : ∃ f', f = f' + 1 := ⟨f - 1, by omega⟩
      simp only [List.cons.injEq, Prod.mk.injEq] at heq
      obtain ⟨⟨rfl, rfl⟩, rfl⟩ := heq
      have hn : NormalAt h a0 := by
        intro par hpar; rw [hrp] at hpar; cases hpar
      obtain ⟨hb, hm⟩ := begin_pos hp hn
      have hcand := @candidate_next draw _ f a0 hm
      rw [hb.heap, hrn] at hcand
      refine ⟨fun _ => ?_, fun frames' hh => by simp [nextFrames] at hh⟩
      obtain ⟨s', e1, p1⟩ := step_none_end f false hp hn hcand
        (by intro par hpar; rw [hrp] at hpar; cases hpar) rfl
      have : stk = [] := List.length_eq_zero.1 (by simpa using hlen)
      subst this
      exact ⟨s', lp, e1, p1⟩
    | cons fr1 rest1 =>
      obtain ⟨p, Rp⟩ := fr1
      obtain ⟨hap, hploop, hprnd, hanext, hrepR, hplR, hfr1⟩ := hfr
      have hn : NormalAt h a0 := by
        intro par hpar; rw [hap] at hpar; cases hpar; exact hprnd
      cases R0 with
      | nil =>
        obtain ⟨N, hN⟩ := ih hfr1
        refine ⟨N + 1, fun f hf s stk lp a R rest heq hp hlen => ?_⟩
        obtain ⟨f, rfl⟩ : ∃ f', f = f' + 1 := ⟨f - 1, by omega⟩
        simp only [List.cons.injEq, Prod.mk.injEq] at heq
        obtain ⟨⟨rfl, rfl⟩, rfl⟩ := heq
        obtain ⟨hb, hm⟩ := begin_pos hp hn
        have hcand := @candidate_next draw _ f a0 hm
        simp only [Forest.roots, headOr_nil] at hanext
        rw [hb.heap, hanext] at hcand
        obtain ⟨top, stk', rfl⟩ : ∃ top stk', stk = top :: stk' := by
          cases stk with
          | nil => simp at hlen
          | cons top stk' => exact ⟨top, stk', rfl⟩
        have hnw : ¬ Wraps h p 1 lp := by
          unfold Wraps; rw [hploop]; simp
        obtain ⟨s1, e1, p1⟩ := step_none_up f false hp hn hcand hap hnw
          (by rw [hrp]; simp)
        have := hN f (by omega) s1 stk' top p Rp rest1 rfl p1 (by simpa using hlen)
        simp only [nextFrames]
        rw [e1]
        exact this
      | cons b k R' =>
        obtain ⟨hbp, _, hbn, hbc, hrk, hrr⟩ := hrepR
        obtain ⟨heb, hkk, hkr⟩ := hplR
        have hfrb : Frames h r ((b, R') :: (p, Rp) :: rest1) :=
          ⟨hbp, hploop, hprnd, hbn, hrr, hkr, hfr1⟩
        obtain ⟨N, hN⟩ := descend_step draw k b R' ((p, Rp) :: rest1) hfrb hbc hrk heb hkk
        refine ⟨N, fun f hf s stk lp a R rest heq hp hlen => ?_⟩
        simp only [List.cons.injEq, Prod.mk.injEq] at heq
        obtain ⟨⟨rfl, rfl⟩, rfl⟩ := heq
        obtain ⟨hb, hm⟩ := begin_pos hp hn
        simp only [Forest.roots, headOr_cons] at hanext
        have hcand : ∀ f', iter_step_candidate draw f' (iter_step_begin s a0) a0 1
            = some (some b, 1, iter_step_begin s a0) := by
          intro f'
          rw [candidate_next hm, hb.heap, hanext]
        refine ⟨fun hh => by simp [nextFrames] at hh, fun frames' hh => ?_⟩
        simp only [nextFrames, Option.some.injEq] at hh
        subst hh
        obtain ⟨s', stk', lp', lf, Rl, rest', e2, e3, p2, hlen', hfr''⟩ :=
          hN f hf s a0 stk lp 1 1 hp hn hlen hcand (by decide)
        exact ⟨s', stk', lp', lf, Rl, rest', e2, e3, p2, hlen', hfr''⟩

theorem todo_cons (lf : Ptr) (Rl : Forest) (rest : List (Ptr × Forest)) :
    todo ((lf, Rl) :: rest) = lf :: remaining ((lf, Rl) :: rest) := rfl

theorem frames_descend {h : Heap} {r : Ptr} (k : Forest) (b : Ptr) (R : Forest)
    (rest : List (Ptr × Forest)) (hfr : Frames h r ((b, R) :: rest))
    (hrep : Rep h (some b) none k) (he : PlayableEntry h b k) (hk : Playable h k) :
    Frames h r (descendFrames b k R rest) := by
  induction k generalizing b R rest with
  | nil => exact hfr
  | cons c k' r' ih1 _ =>
    obtain ⟨hcp, _, hcn, hcc, hrk, hrr⟩ := hrep
    obtain ⟨hec, hkk, hkr⟩ := hk
    obtain ⟨hbrnd, hbtype, hbfiles, hbloop⟩ := he
    exact ih1 c r' ((b, R) :: rest) ⟨hcp, hbloop, hbrnd, hcn, hrr, hkr, hfr⟩ hrk hec hkk

theorem frames_next {h : Heap} {r : Ptr} (frames frames' : List (Ptr × Forest))
    (hfr : Frames h r frames) (hn : nextFrames frames = some frames') : Frames h r frames' := by
  induction frames with
  | nil => exact absurd hfr (by simp [Frames])
  | cons fr rest0 ih =>
    obtain ⟨a0, R0⟩ := fr
    cases rest0 with
    | nil =>
      obtain ⟨_, hR⟩ := hfr
      subst hR
      simp [nextFrames] at hn
    | cons fr1 rest1 =>
      obtain ⟨p, Rp⟩ := fr1
      obtain ⟨hap, hploop, hprnd, hanext, hrepR, hplR, hfr1⟩ := hfr
      cases R0 with
      | nil => exact ih hfr1 hn
      | cons b k R' =>
        obtain ⟨hbp, _, hbn, hbc, hrk, hrr⟩ := hrepR
        obtain ⟨heb, hkk, hkr⟩ := hplR
        simp only [nextFrames, Option.some.injEq] at hn
        subst hn
        exact frames_descend k b R' ((p, Rp) :: rest1)
          ⟨hbp, hploop, hprnd, hbn, hrr, hkr, hfr1⟩ hrk heb hkk

theorem run_forward (draw : Nat → Nat → Nat) {h : Heap} {r : Ptr}
    (hrp : (h r).parent = none) (hrn : (h r).next = none) (n : Nat)
    (frames : List (Ptr × Forest)) (hfr : Frames h r frames)
    (hlen : (remaining frames).length = n) :
    ∃ N, ∀ f, N ≤ f → ∀ (s : State) (stk : List Int) (lp : Int) (a : Ptr) (R : Forest)
      (rest : List (Ptr × Forest)),
      frames = (a, R) :: rest → Pos s h r a stk lp → stk.length = rest.length →
      ∃ s', iter_run draw f s (List.replicate (n + 1) 1)
        = some ((remaining frames).map (fun l => (IterResult.entry, some l))
            ++ [(IterResult.end_, some r)], s') := by
  induction n generalizing frames with
  | zero =>
    obtain ⟨N, hN⟩ := forward_step draw hrp hrn frames hfr
    refine ⟨N, fun f hf s stk lp a R rest heq hp hl => ?_⟩
    have hrem : remaining frames = [] := List.length_eq_zero.1 hlen
    obtain ⟨h1, h2⟩ := hN f hf s stk lp a R rest heq hp hl
    cases hn : nextFrames frames with
    | none =>
      obtain ⟨s', lp', e1, p1⟩ := h1 hn
      refine ⟨s', ?_⟩
      have := @iter_run_cons draw f s s' s' 1 [] _ [] e1 rfl
      rw [p1.tree] at this
      rw [hrem]
      exact this
    | some frames' =>
      obtain ⟨s', stk', lp', lf, Rl, rest', e2, _⟩ := h2 frames' hn
      have := nextFrames_some hn
      rw [e2, todo_cons, hrem] at this
      cases this
  | succ n ih =>
    obtain ⟨N1, hN1⟩ := forward_step draw hrp hrn frames hfr
    cases hn : nextFrames frames with
    | none =>
      have := nextFrames_none hn
      rw [this] at hlen
      simp at hlen
    | some frames' =>
      have htodo := nextFrames_some hn
      obtain ⟨lf, Rl, rest', e2⟩ : ∃ lf Rl rest', frames' = (lf, Rl) :: rest' := by
        cases frames' with
        | nil => rw [← htodo] at hlen; simp [todo] at hlen
        | cons fr rest' => exact ⟨fr.1, fr.2, rest', rfl⟩
      rw [e2, todo_cons] at htodo
      have hfr' : Frames h r frames' := frames_next frames frames' hfr hn
      have hlen' : (remaining frames').length = n := by
        rw [← htodo] at hlen
        rw [e2]
        simpa using hlen
      obtain ⟨N2, hN2⟩ := ih frames' hfr' hlen'
      refine ⟨N1 + N2, fun f hf s stk lp a R rest heq hp hl => ?_⟩
      obtain ⟨_, h2⟩ := hN1 f (by omega) s stk lp a R rest heq hp hl
      obtain ⟨s1, stk1, lp1, lf1, Rl1, rest1, e3, e4, p1, hl1, _⟩ := h2 frames' hn
      obtain ⟨s2, e5⟩ := hN2 f (by omega) s1 stk1 lp1 lf1 Rl1 rest1 e3 p1 hl1
      refine ⟨s2, ?_⟩
      have := iter_run_cons e4 e5
      rw [p1.tree] at this
      rw [List.replicate_succ, this, ← htodo]
      rw [e2] at e3
      simp only [List.cons.injEq, Prod.mk.injEq] at e3
      rw [e3.1.1, e2]
      rfl

/-- The traversal of a playable tree by a fresh cursor. -/
theorem traverse_playable (draw : Nat → Nat → Nat) {h : Heap} {r : Ptr} {K : Forest}
    (hrep : Rep h none none (Forest.cons r K Forest.nil))
    (hp : Playable h (Forest.cons r K Forest.nil)) :
    ∃ N, ∀ f, N ≤ f → ∀ k,
      play_tree_iter_new draw f h k r true = some (some (iter_fresh r), h, k) ∧
      ∃ s', iter_run draw f (iter_start h k (iter_fresh r))
          (0 :: List.replicate (Forest.cons r K Forest.nil).leaves.length 1)
        = some ((Forest.cons r K Forest.nil).leaves.map (fun l => (IterResult.entry, some l))
            ++ [(IterResult.end_, some r)], s') := by
  obtain ⟨N0, hN0⟩ := iter_new_playable draw hrep hp
  obtain ⟨hrp, _, hrn, hchild, hrk, _⟩ := hrep
  simp only [Forest.roots, headOr_nil] at hrn
  have hfr0 : Frames h r [(r, Forest.nil)] := ⟨rfl, rfl⟩
  obtain ⟨N1, hN1⟩ := descend_step draw K r Forest.nil [] hfr0 hchild hrk hp.1 hp.2.1
  have hn : NormalAt h r := by
    intro par hpar; rw [hrp] at hpar; cases hpar
  -- the path of the first leaf
  have htodo := todo_descend r K Forest.nil []
  obtain ⟨lf, Rl, rest', e2⟩ : ∃ lf Rl rest', descendFrames r K Forest.nil [] = (lf, Rl) :: rest' := by
    cases hd : descendFrames r K Forest.nil [] with
    | nil => exact absurd hd (descendFrames_ne_nil _ _ _ _)
    | cons fr rest' => exact ⟨fr.1, fr.2, rest', rfl⟩
  have hfr1 : Frames h r (descendFrames r K Forest.nil []) :=
    frames_descend K r Forest.nil [] hfr0 hrk hp.1 hp.2.1
  simp only [remaining, List.append_nil] at htodo
  rw [e2, todo_cons] at htodo
  obtain ⟨N2, hN2⟩ := run_forward draw hrp hrn (remaining ((lf, Rl) :: rest')).length
    (descendFrames r K Forest.nil []) hfr1 (by rw [e2])
  refine ⟨N0 + N1 + N2 + 1, fun f hf k => ⟨hN0 f (by omega) k, ?_⟩⟩
  obtain ⟨f, rfl⟩ : ∃ f', f = f' + 1 := ⟨f - 1, by omega⟩
  have hp0 := @fresh_pos h r k
  obtain ⟨_, hm⟩ := begin_pos hp0 hn
  obtain ⟨s1, stk1, lp1, lf1, Rl1, rest1, e3, e4, p1, hl1, _⟩ :=
    hN1 f (by omega) _ r [] 0 0 0 hp0 hn rfl (fun f' => candidate_zero hm) (le_refl 0)
  have e4' : play_tree_iter_step draw (f + 1) (iter_start h k (iter_fresh r)) 0 false
      = some (IterResult.entry, s1) := by
    rw [@step_init draw _ r f 0 false rfl rfl]
    exact e4
  obtain ⟨s2, e5⟩ := hN2 (f + 1) (by omega) s1 stk1 lp1 lf1 Rl1 rest1 e3 p1 hl1
  refine ⟨s2, ?_⟩
  have := iter_run_cons e4' e5
  rw [p1.tree] at this
  rw [← htodo]
  rw [e2] at e3
  simp only [List.cons.injEq, Prod.mk.injEq] at e3
  rw [e2, ← e3.1.1] at this
  simpa using this

/-! ## Random stepping -/

theorem unplayed_cons (h : Heap) (a : Ptr) (l : List Ptr) :
    unplayed h (a :: l) = if (h a).flags.rnd_played then unplayed h l else a :: unplayed h l := by
  unfold unplayed
  cases hp : (h a).flags.rnd_played <;> simp [List.filter, hp]

theorem unplayed_append (h : Heap) (l1 l2 : List Ptr) :
    unplayed h (l1 ++ l2) = unplayed h l1 ++ unplayed h l2 := by
  simp [unplayed]

theorem rnd_count_prev_chain {h : Heap} {nxt : Option Ptr} {a : Ptr} {l : List Ptr} {fuel : Nat}
    (c : Nat) (hc : Chain h none (l ++ [a]) nxt) (hf : l.length < fuel) :
    ∃ hd, headOr l (some a) = some hd ∧
      rnd_count_prev h fuel a c = some (hd, c + (unplayed h (l ++ [a]).tail).length) := by
  induction l using List.reverseRecOn generalizing a fuel nxt c with
  | nil =>
    obtain ⟨h1, _, _⟩ := hc
    cases fuel with
    | zero => omega
    | succ f => exact ⟨a, rfl, by simp [rnd_count_prev, h1, unplayed]⟩
  | append_singleton l b ih =>
    rw [Chain_append] at hc
    obtain ⟨hc1, hc2⟩ := hc
    rw [lastOr_append_singleton] at hc2
    cases fuel with
    | zero => omega
    | succ f =>
      simp only [List.length_append, List.length_singleton] at hf
      obtain ⟨hd, e1, e2⟩ := @ih _ b f (if (h a).flags.rnd_played then c else c + 1) hc1 (by omega)
      refine ⟨hd, ?_, ?_⟩
      · rw [headOr_append, ← e1]; cases l <;> rfl
      · simp only [rnd_count_prev, hc2.1, e2]
        have : (l ++ [b] ++ [a]).tail = (l ++ [b]).tail ++ [a] := by cases l <;> rfl
        rw [this, unplayed_append, unplayed_cons]
        cases hp : (h a).flags.rnd_played <;> simp [unplayed] <;> omega

theorem rnd_count_next_chain {h : Heap} {prev : Option Ptr} {l : List Ptr} {fuel : Nat}
    (c : Nat) (hc : Chain h prev l none) (hf : l.length < fuel) :
    rnd_count_next h fuel (headOr l none) c = some (c + (unplayed h l).length) := by
  induction l generalizing prev fuel c with
  | nil =>
    cases fuel with
    | zero => omega
    | succ f => simp [rnd_count_next, unplayed]
  | cons b l ih =>
    obtain ⟨_, h2, h3⟩ := hc
    cases fuel with
    | zero => omega
    | succ f =>
      simp only [List.length_cons] at hf
      simp only [headOr_cons, rnd_count_next, h2]
      rw [@ih _ f _ h3 (by omega), unplayed_cons]
      cases hp : (h b).flags.rnd_played <;> simp <;> omega

theorem rnd_pick_chain {h : Heap} {prev : Option Ptr} {l : List Ptr} {fuel : Nat}
    (r : Nat) (hc : Chain h prev l none) (hf : l.length < fuel) :
    rnd_pick h fuel (headOr l none) (r : Int) = some ((unplayed h l)[r]?) := by
  induction l generalizing prev fuel r with
  | nil =>
    cases fuel with
    | zero => omega
    | succ f => simp [rnd_pick, unplayed]
  | cons b l ih =>
    obtain ⟨_, h2, h3⟩ := hc
    cases fuel with
    | zero => omega
    | succ f =>
      simp only [List.length_cons] at hf
      simp only [headOr_cons, rnd_pick, h2]
      rw [unplayed_cons]
      cases hp : (h b).flags.rnd_played
      · cases r with
        | zero => simp
        | succ r =>
          have : ((r + 1 : Nat) : Int) - 1 = (r : Int) := by push_cast; ring
          simp only [Bool.false_eq_true, if_false, this]
          rw [if_neg (by omega), @ih _ f r h3 (by omega)]
          simp
      · simp only [if_true]
        rw [if_neg (by omega), @ih _ f r h3 (by omega)]

theorem rnd_step_eq {draw : Nat → Nat → Nat} {h : Heap} {l1 l2 : List Ptr} {pt : Ptr} {fuel : Nat}
    (k : Nat) (hc : Chain h none (l1 ++ pt :: l2) none) (hf : (l1 ++ pt :: l2).length < fuel) :
    play_tree_rnd_step draw fuel h k pt =
      if (unplayed h (l1 ++ pt :: l2)).length = 0 then some (none, k)
      else some ((unplayed h (l1 ++ pt :: l2))[draw k (unplayed h (l1 ++ pt :: l2)).length]?,
        k + 1) := by
  have hsplit : l1 ++ pt :: l2 = (l1 ++ [pt]) ++ l2 := by simp
  have hc' := hc
  rw [hsplit, Chain_append] at hc'
  obtain ⟨hc1, hc2⟩ := hc'
  rw [lastOr_append_singleton] at hc2
  have hptn : (h pt).next = headOr l2 none := by
    rw [Chain_append] at hc1
    exact hc1.2.2.1
  simp only [List.length_append, List.length_cons] at hf
  obtain ⟨hd, e1, e2⟩ := rnd_count_prev_chain 0 hc1 (show l1.length < fuel by omega)
  have hhd : headOr (l1 ++ pt :: l2) none = some hd := by
    rw [headOr_append, ← e1]; cases l1 <;> rfl
  obtain ⟨tl, htl⟩ : ∃ tl, l1 ++ [pt] = hd :: tl := by
    cases l1 with
    | nil => simp at e1; exact ⟨[], by simp [e1]⟩
    | cons a l1 => simp at e1; exact ⟨l1 ++ [pt], by simp [e1]⟩
  have e3 := rnd_count_next_chain
    (if (h hd).flags.rnd_played = true then 0 + (unplayed h (l1 ++ [pt]).tail).length
      else 0 + (unplayed h (l1 ++ [pt]).tail).length + 1) hc2 (show l2.length < fuel by omega)
  have hcount : (if (h hd).flags.rnd_played = true then 0 + (unplayed h (l1 ++ [pt]).tail).length
      else 0 + (unplayed h (l1 ++ [pt]).tail).length + 1) + (unplayed h l2).length
      = (unplayed h (l1 ++ pt :: l2)).length := by
    rw [hsplit, unplayed_append, htl, unplayed_cons]
    cases hp : (h hd).flags.rnd_played <;> simp <;> omega
  rw [hcount] at e3
  have e4 := fun r => @rnd_pick_chain h none _ fuel r hc (by simp; omega)
  rw [hhd] at e4
  simp only [play_tree_rnd_step, e2, hptn, e3]
  split
  · rfl
  · simp [e4]

theorem unplayed_mem {h : Heap} {l : List Ptr} {m : Ptr} :
    m ∈ unplayed h l ↔ m ∈ l ∧ (h m).flags.rnd_played = false := by
  simp [unplayed]

/-- Claim C8: for every well-formed sibling chain `l`, every member `pt` of it and
every random index `draw k count` below the number `count` of members without
`PLAY_TREE_RND_PLAYED`, `play_tree_rnd_step(pt)` returns (with enough fuel) the
member of that index among the members of the whole chain that do not have
`PLAY_TREE_RND_PLAYED` set, so a member of the chain without the flag; it
returns `NULL` if and only if every member of the chain has the flag set. -/
theorem rnd_step_draws_unplayed (draw : Nat → Nat → Nat) (h : Heap) (l : List Ptr) (pt : Ptr)
    (k fuel : Nat) (hc : Chain h none l none) (hpt : pt ∈ l) (hf : l.length < fuel)
    (hdraw : 0 < (unplayed h l).length → draw k (unplayed h l).length < (unplayed h l).length) :
    ∃ res k', play_tree_rnd_step draw fuel h k pt = some (res, k') ∧
      (res = none ↔ ∀ a ∈ l, (h a).flags.rnd_played = true) ∧
      (∀ m, res = some m → m ∈ l ∧ (h m).flags.rnd_played = false) ∧
      (0 < (unplayed h l).length →
        res = (unplayed h l)[draw k (unplayed h l).length]? ∧ k' = k + 1) := by
  obtain ⟨l1, l2, rfl⟩ := List.append_of_mem hpt
  rw [rnd_step_eq k hc hf]
  by_cases hz : (unplayed h (l1 ++ pt :: l2)).length = 0
  · rw [if_pos hz]
    refine ⟨none, k, rfl, ?_, by simp, by omega⟩
    have hnil : unplayed h (l1 ++ pt :: l2) = [] := List.length_eq_zero.1 hz
    constructor
    · intro _ a ha
      by_contra hp
      have : a ∈ unplayed h (l1 ++ pt :: l2) := unplayed_mem.2 ⟨ha, by simpa using hp⟩
      rw [hnil] at this
      exact absurd this (List.not_mem_nil _)
    · intro _; rfl
  · rw [if_neg hz]
    have hlt := hdraw (by omega)
    refine ⟨_, _, rfl, ?_, ?_, fun _ => ⟨rfl, rfl⟩⟩
    · rw [List.getElem?_eq_getElem hlt]
      constructor
      · intro hh; cases hh
      · intro hall
        have hm := unplayed_mem.1 (List.getElem_mem hlt)
        rw [hall _ hm.1] at hm
        exact absurd hm.2 (by simp)
    · intro m hm
      rw [List.getElem?_eq_getElem hlt] at hm
      cases hm
      exact unplayed_mem.1 (List.getElem_mem hlt)

/-- Witness of `rnd_step_draws_unplayed` on `heap_chain3`, stepping from the
middle entry with the draw 0: the entries 2 and 3 are not played yet and the
first of them is returned. -/
theorem rnd_step_draws_unplayed_witness :
    ∃ res k', play_tree_rnd_step draw_zero 4 heap_chain3 0 2 = some (res, k') ∧
      (res = none ↔ ∀ a ∈ [1, 2, 3], (heap_chain3 a).flags.rnd_played = true) ∧
      (∀ m, res = some m → m ∈ [1, 2, 3] ∧ (heap_chain3 m).flags.rnd_played = false) ∧
      (0 < (unplayed heap_chain3 [1, 2, 3]).length →
        res = (unplayed heap_chain3 [1, 2, 3])[draw_zero 0
          (unplayed heap_chain3 [1, 2, 3]).length]? ∧ k' = 0 + 1) :=
  rnd_step_draws_unplayed draw_zero heap_chain3 [1, 2, 3] 2 0 4 chain_heap_chain3
    (by decide) (by decide) (by intro _; decide)

/-! ## Append and remove -/

/-- Claim C9: for every well-formed sibling chain `l` with parent `par`, every
member `pt` of it and every entry `e` that is not in the chain,
`play_tree_append_entry(pt, e)` returns (with enough fuel) and afterwards the
chain is `l` followed by `e`: walking `next` from the head visits the members of
`l` in their order and then `e` last, `e.next` is `NULL`, `e.prev` is the former
tail, and `e.parent` is the parent of the chain. -/
theorem append_entry_last (h : Heap) (l : List Ptr) (pt e : Ptr) (par : Option Ptr) (fuel : Nat)
    (hc : Chain h none l none) (hnd : l.Nodup) (hpar : ∀ a ∈ l, (h a).parent = par)
    (hpt : pt ∈ l) (he : e ∉ l) (hf : l.length ≤ fuel) :
    ∃ h', play_tree_append_entry fuel h pt e = some h' ∧
      Chain h' none (l ++ [e]) none ∧
      walk_next h' (fuel + 2) (headOr l none) = some (l ++ [e]) ∧
      (h' e).next = none ∧ (h' e).prev = lastOr l none ∧ (h' e).parent = par ∧
      ∀ a ∈ l, (h' a).parent = par := by
  obtain ⟨l1, l2, rfl⟩ := List.append_of_mem hpt
  have hne : pt ≠ e := fun hh => he (hh ▸ hpt)
  have hc2 := (Chain_append.1 hc).2
  have hlast : last_entry h fuel pt = lastOr l2 (some pt) :=
    last_entry_chain hc2 (by simp at hf; omega)
  have hlo : lastOr (l1 ++ pt :: l2) none = lastOr l2 (some pt) := by
    rw [lastOr_append]; rfl
  obtain ⟨t, ht⟩ : ∃ t, lastOr (l1 ++ pt :: l2) none = some t := by
    rw [hlo]
    cases l2 using List.reverseRecOn with
    | nil => exact ⟨pt, rfl⟩
    | append_singleton l b _ => exact ⟨b, lastOr_append_singleton _ _ _⟩
  obtain ⟨htm, init, hinit⟩ := lastOr_mem (by simp) ht
  have hte : t ≠ e := fun hh => he (hh ▸ htm)
  rw [hlo] at ht
  rw [ht] at hlast
  simp only [play_tree_append_entry, if_neg hne, hlast]
  refine ⟨_, rfl, ?_⟩
  rw [hinit] at hc hnd hpar he hf ⊢
  have hti : t ∉ init := by
    intro hh
    have := List.nodup_append.1 hnd
    exact this.2.2 hh (by simp) 
  have hei : e ∉ init := fun hh => he (by simp [hh])
  rw [Chain_append] at hc
  obtain ⟨hc1, hc3⟩ := hc
  have hchain : Chain (upd (upd (upd (upd h e fun e => { e with parent := (h t).parent }) e fun e =>
      { e with prev := some t }) e fun e => { e with next := none }) t fun e_1 =>
      { e_1 with next := some e }) none (init ++ [t] ++ [e]) none := by
    rw [Chain_append, Chain_append]
    refine ⟨⟨Chain_congr _ _ ?_ hc1, ?_⟩, ?_⟩
    · intro a ha
      have h1 : a ≠ t := fun hh => hti (hh ▸ ha)
      have h2 : a ≠ e := fun hh => hei (hh ▸ ha)
      simp [upd, h1, h2]
    · obtain ⟨h1, _, _⟩ := hc3
      simp [Chain, upd, hte, h1]
    · rw [lastOr_append_singleton]
      simp [Chain, upd, hte, Ne.symm hte]
  refine ⟨hchain, ?_, ?_, ?_, ?_, ?_⟩
  · have := @walk_next_chain _ none _ (fuel + 2) hchain (by simp at hf ⊢; omega)
    rw [← this, headOr_append, headOr_append]
    cases init <;> simp
  · simp [upd, hte, Ne.symm hte]
  · simp [upd, hte, Ne.symm hte, hlo, ht, lastOr_append_singleton]
  · simp [upd, hte, Ne.symm hte]
    exact hpar t (by simp)
  · intro a ha
    have h2 : a ≠ e := fun hh => he (hh ▸ ha)
    by_cases h1 : a = t
    · subst h1; simp [upd, h2]; exact hpar a ha
    · simp [upd, h1, h2]; exact hpar a ha

/-- Witness of `append_entry_last` on `heap_chain3`: the detached entry 4 is
appended through the middle entry 2. -/
theorem append_entry_last_witness :
    ∃ h', play_tree_append_entry 3 heap_chain3 2 4 = some h' ∧
      Chain h' none ([1, 2, 3] ++ [4]) none ∧
      walk_next h' (3 + 2) (headOr [1, 2, 3] none) = some ([1, 2, 3] ++ [4]) ∧
      (h' 4).next = none ∧ (h' 4).prev = lastOr [1, 2, 3] none ∧ (h' 4).parent = some 0 ∧
      ∀ a ∈ [1, 2, 3], (h' a).parent = some 0 :=
  append_entry_last heap_chain3 [1, 2, 3] 2 4 (some 0) 3 chain_heap_chain3 (by decide)
    (by simp [heap_chain3]) (by decide) (by decide) (by decide)

/-- Claim C10: for every well-formed sibling chain `l1 ++ x :: l2` (so `x` is the
head, in the middle, the tail or the only member) whose members have the parent
`par`, the child pointer of that parent being the head of the chain,
`play_tree_remove(x, 0, 0)` returns and afterwards the chain is `l1 ++ l2`: `x`
is not met when walking it from the head by `next` or from the tail by `prev`,
the remaining members keep their order, their links are consistent, the
child pointer of the parent is the head of the remaining chain (`NULL` if `x`
was the only member) and `x` has `prev`, `next` and `parent` all `NULL`. -/
theorem remove_unlinks (h : Heap) (freed : List Ptr) (l1 l2 : List Ptr) (x : Ptr)
    (par : Option Ptr) (fuel : Nat)
    (hc : Chain h none (l1 ++ x :: l2) none) (hnd : (l1 ++ x :: l2).Nodup)
    (hpar : ∀ a ∈ l1 ++ x :: l2, (h a).parent = par)
    (hchild : ∀ p, par = some p →
      (h p).child = headOr (l1 ++ x :: l2) none ∧ p ∉ l1 ++ x :: l2) :
    ∃ h', play_tree_remove fuel { heap := h, freed := freed } x false false
        = some { heap := h', freed := freed } ∧
      Chain h' none (l1 ++ l2) none ∧ x ∉ l1 ++ l2 ∧
      walk_next h' ((l1 ++ l2).length + 1) (headOr (l1 ++ l2) none) = some (l1 ++ l2) ∧
      walk_prev h' ((l1 ++ l2).length + 1) (lastOr (l1 ++ l2) none) = some (l1 ++ l2).reverse ∧
      (∀ p, par = some p → (h' p).child = headOr (l1 ++ l2) none) ∧
      (h' x).prev = none ∧ (h' x).next = none ∧ (h' x).parent = none ∧
      ∀ a ∈ l1 ++ l2, (h' a).parent = par := by
  have hx : x ∉ l1 ++ l2 := by
    have := List.nodup_middle.1 hnd
    exact (List.nodup_cons.1 this).1
  have hxpar := hpar x (by simp)
  obtain ⟨hc1, hxp, hxn, hc2⟩ := Chain_append.1 hc
  suffices hmain : ∃ h', play_tree_remove_links h x = some h' ∧
      Chain h' none (l1 ++ l2) none ∧
      (∀ p, par = some p → (h' p).child = headOr (l1 ++ l2) none) ∧
      (h' x).prev = none ∧ (h' x).next = none ∧ (h' x).parent = none ∧
      ∀ a ∈ l1 ++ l2, (h' a).parent = par by
    obtain ⟨h', e1, e2, e3, e4⟩ := hmain
    refine ⟨h', by simp [play_tree_remove, e1], e2, hx, ?_, ?_, e3, e4⟩
    · exact walk_next_chain e2 (Nat.lt_succ_self _)
    · exact walk_prev_chain e2 (Nat.lt_succ_self _)
  cases l2 with
  | nil =>
    simp only [headOr_nil] at hxn hc1
    cases l1 using List.reverseRecOn with
    | nil =>
      -- the only one
      simp only [lastOr_nil] at hxp
      cases par with
      | none =>
        refine ⟨_, by simp [play_tree_remove_links, hxp, hxn, hxpar]; rfl, ?_⟩
        simp [Chain, upd]
      | some p =>
        obtain ⟨hp1, hp2⟩ := hchild p rfl
        simp at hp1 hp2
        refine ⟨_, by simp [play_tree_remove_links, hxp, hxn, hxpar, hp1]; rfl, ?_⟩
        simp [Chain, upd, hp2]
    | append_singleton l1 p0 _ =>
      -- end of list
      rw [lastOr_append_singleton] at hxp
      rw [Chain_append] at hc1
      obtain ⟨hc3, hp0p, hp0n, _⟩ := hc1
      simp only [headOr_cons, headOr_nil] at hc3 hp0n
      have hp0x : p0 ≠ x := by
        intro hh; apply hx; simp [hh]
      have hp0l : p0 ∉ l1 := by
        intro hh
        have := List.nodup_append.1 hnd
        have := List.nodup_append.1 this.1
        exact this.2.2 hh (by simp)
      have hxl : x ∉ l1 := fun hh => hx (by simp [hh])
      refine ⟨_, by simp [play_tree_remove_links, hxp, hxn, hp0n]; rfl, ?_, ?_, ?_⟩
      · simp only [List.append_nil]
        rw [Chain_append]
        refine ⟨Chain_frame _ _ ?_ hc3, ?_⟩
        · intro a ha
          have h1 : a ≠ x := fun hh => hxl (hh ▸ ha)
          have h2 : a ≠ p0 := fun hh => hp0l (hh ▸ ha)
          simp [upd, h1, h2]
        · simp [Chain, upd, hp0x, hp0p]
      · intro p hp
        obtain ⟨hp1, hp2⟩ := hchild p hp
        have h1 : p ≠ x := fun hh => hp2 (by simp [hh])
        have h2 : p ≠ p0 := fun hh => hp2 (by simp [hh])
        simp [upd, h1, h2, hp1, headOr_append]
      · refine ⟨by simp [upd], by simp [upd], by simp [upd], ?_⟩
        intro a ha
        have h1 : a ≠ x := fun hh => hx (hh ▸ ha)
        have := hpar a (by simp at ha ⊢; tauto)
        by_cases h2 : a = p0
        · subst h2; simp [upd, h1, this]
        · simp [upd, h1, h2, this]
  | cons n l2 =>
    simp only [headOr_cons] at hxn hc1
    obtain ⟨hnp, hnn, hc4⟩ := hc2
    have hnx : n ≠ x := by
      intro hh; apply hx; simp [hh]
    have hxl2 : x ∉ l2 := fun hh => hx (by simp [hh])
    have hnl2 : n ∉ l2 := by
      have := (List.nodup_append.1 hnd).2.1
      exact (List.nodup_cons.1 (List.nodup_cons.1 this).2).1
    cases l1 using List.reverseRecOn with
    | nil =>
      -- beginning of list
      simp only [lastOr_nil] at hxp
      have hfr : ∀ (g : Heap), (∀ a ∈ l2, g a = h a) → Chain g (some n) l2 none :=
        fun g hg => Chain_frame _ _ hg hc4
      cases par with
      | none =>
        refine ⟨_, by simp [play_tree_remove_links, hxp, hxn, hnp, upd, Ne.symm hnx, hxpar]; rfl,
          ?_, by simp, by simp [upd], by simp [upd], by simp [upd], ?_⟩
        · refine ⟨by simp [upd, hnx], by simp [upd, hnx, hnn], hfr _ ?_⟩
          intro a ha
          have h1 : a ≠ x := fun hh => hxl2 (hh ▸ ha)
          have h2 : a ≠ n := fun hh => hnl2 (hh ▸ ha)
          simp [upd, h1, h2]
        · intro a ha
          have h1 : a ≠ x := fun hh => hx (hh ▸ ha)
          have := hpar a (by simp at ha ⊢; tauto)
          by_cases h2 : a = n
          · subst h2; simp [upd, h1, this]
          · simp [upd, h1, h2, this]
      | some p =>
        obtain ⟨hp1, hp2⟩ := hchild p rfl
        simp at hp1 hp2
        have hpn : p ≠ n := fun hh => hp2.2.1 hh
        have hpx : p ≠ x := fun hh => hp2.1 hh
        have hnx' := Ne.symm hnx
        refine ⟨_, by simp [play_tree_remove_links, hxp, hxn, hnp, upd, hnx', hxpar, hpn, hp1]; rfl,
          ?_, ?_, by simp [upd], by simp [upd], by simp [upd], ?_⟩
        · refine ⟨by simp [upd, hnx, Ne.symm hpn], by simp [upd, hnx, hnn, Ne.symm hpn], hfr _ ?_⟩
          intro a ha
          have h1 : a ≠ x := fun hh => hxl2 (hh ▸ ha)
          have h2 : a ≠ n := fun hh => hnl2 (hh ▸ ha)
          have h3 : a ≠ p := fun hh => hp2.2.2 (hh ▸ ha)
          simp [upd, h1, h2, h3]
        · intro q hq
          cases hq
          simp [upd, hpx]
        · intro a ha
          have h1 : a ≠ x := fun hh => hx (hh ▸ ha)
          have h3 : a ≠ p := by
            intro hh
            rw [hh] at ha
            simp at ha
            rcases ha with ha | ha
            · exact hp2.2.1 ha
            · exact hp2.2.2 ha
          have := hpar a (by simp at ha ⊢; tauto)
          by_cases h2 : a = n
          · subst h2; simp [upd, h1, this, h3]
          · simp [upd, h1, h2, this, h3]
    | append_singleton l1 p0 _ =>
      -- middle of list
      rw [lastOr_append_singleton] at hxp
      rw [Chain_append] at hc1
      obtain ⟨hc3, hp0p, hp0n, _⟩ := hc1
      simp only [headOr_cons, headOr_nil] at hc3 hp0n
      have hp0x : p0 ≠ x := by
        intro hh; apply hx; simp [hh]
      have hnd1 := List.nodup_append.1 hnd
      have hp0l : p0 ∉ l1 := by
        intro hh
        have := List.nodup_append.1 hnd1.1
        exact this.2.2 hh (by simp)
      have hxl : x ∉ l1 := fun hh => hx (by simp [hh])
      have hp0n' : p0 ≠ n := by
        intro hh
        have h1 : p0 ∈ l1 ++ [p0] := by simp
        have h2 : p0 ∈ x :: n :: l2 := by simp [hh]
        exact hnd1.2.2 h1 h2
      have hnl1 : n ∉ l1 := by
        intro hh
        have h1 : n ∈ l1 ++ [p0] := by simp [hh]
        have h2 : n ∈ x :: n :: l2 := by simp
        exact hnd1.2.2 h1 h2
      have hp0l2 : p0 ∉ l2 := by
        intro hh
        have h1 : p0 ∈ l1 ++ [p0] := by simp
        have h2 : p0 ∈ x :: n :: l2 := by simp [hh]
        exact hnd1.2.2 h1 h2
      have hp0x' := Ne.symm hp0x
      refine ⟨_, by simp [play_tree_remove_links, hxp, hxn, hnp, hp0n, upd, hp0x']; rfl,
        ?_, ?_, by simp [upd], by simp [upd], by simp [upd], ?_⟩
      · rw [Chain_append, Chain_append]
        refine ⟨⟨Chain_frame _ _ ?_ hc3, ?_⟩, ?_, ?_, Chain_frame _ _ ?_ hc4⟩
        · intro a ha
          have h1 : a ≠ x := fun hh => hxl (hh ▸ ha)
          have h2 : a ≠ p0 := fun hh => hp0l (hh ▸ ha)
          have h3 : a ≠ n := fun hh => hnl1 (hh ▸ ha)
          simp [upd, h1, h2, h3]
        · simp [Chain, upd, hp0x, hp0p, hp0n']
        · simp [upd, hnx, lastOr_append_singleton]
        · simp [upd, hnx, Ne.symm hp0n', hnn]
        · intro a ha
          have h1 : a ≠ x := fun hh => hxl2 (hh ▸ ha)
          have h2 : a ≠ p0 := fun hh => hp0l2 (hh ▸ ha)
          have h3 : a ≠ n := fun hh => hnl2 (hh ▸ ha)
          simp [upd, h1, h2, h3]
      · intro p hp
        obtain ⟨hp1, hp2⟩ := hchild p hp
        have h1 : p ≠ x := fun hh => hp2 (by simp [hh])
        have h2 : p ≠ p0 := fun hh => hp2 (by simp [hh])
        have h3 : p ≠ n := fun hh => hp2 (by simp [hh])
        simp [upd, h1, h2, h3, hp1, headOr_append]
      · intro a ha
        have h1 : a ≠ x := fun hh => hx (hh ▸ ha)
        have := hpar a (by simp at ha ⊢; tauto)
        by_cases h2 : a = p0
        · subst h2; simp [upd, h1, this, hp0n']
        · by_cases h3 : a = n
          · subst h3; simp [upd, h1, this, h2]
          · simp [upd, h1, h2, h3, this]

/-- Witness of `remove_unlinks` on `heap_chain3`: the middle entry 2 is removed. -/
theorem remove_unlinks_witness :
    ∃ h', play_tree_remove 0 { heap := heap_chain3, freed := [] } 2 false false
        = some { heap := h', freed := [] } ∧
      Chain h' none ([1] ++ [3]) none ∧ 2 ∉ [1] ++ [3] ∧
      walk_next h' (([1] ++ [3]).length + 1) (headOr ([1] ++ [3]) none) = some ([1] ++ [3]) ∧
      walk_prev h' (([1] ++ [3]).length + 1) (lastOr ([1] ++ [3]) none)
        = some ([1] ++ [3]).reverse ∧
      (∀ p, some 0 = some p → (h' p).child = headOr ([1] ++ [3]) none) ∧
      (h' 2).prev = none ∧ (h' 2).next = none ∧ (h' 2).parent = none ∧
      ∀ a ∈ [1] ++ [3], (h' a).parent = some 0 :=
  remove_unlinks heap_chain3 [] [1] [3] 2 (some 0) 0 chain_heap_chain3 (by decide)
    (by simp [heap_chain3])
    (by intro p hp; cases hp; exact ⟨by simp [heap_chain3, headOr], by decide⟩)

/-! ## Shuffle (claim C7) -/

theorem NextChain_append {h : Heap} {l1 l2 : List Ptr} {nxt : Option Ptr} :
    NextChain h (l1 ++ l2) nxt ↔ NextChain h l1 (headOr l2 nxt) ∧ NextChain h l2 nxt := by
  induction l1 with
  | nil => simp [NextChain]
  | cons a l1 ih =>
    rw [List.cons_append]
    simp only [NextChain, headOr_append]
    rw [ih]
    tauto

theorem NextChain_congr {h h' : Heap} {l : List Ptr} (nxt : Option Ptr)
    (hl : ∀ a ∈ l, (h' a).next = (h a).next) : NextChain h l nxt → NextChain h' l nxt := by
  induction l with
  | nil => intro _; trivial
  | cons a l ih =>
    intro hc
    exact ⟨by rw [hl a (List.mem_cons_self _ _)]; exact hc.1,
      ih (fun b hb => hl b (List.mem_cons_of_mem _ hb)) hc.2⟩

theorem Chain.nextChain {h : Heap} {prev nxt : Option Ptr} {l : List Ptr}
    (hc : Chain h prev l nxt) : NextChain h l nxt := by
  induction l generalizing prev with
  | nil => trivial
  | cons a l ih => exact ⟨hc.2.1, ih hc.2.2⟩

theorem lastLoc_append_singleton (loc : Loc) (l : List Ptr) (s : Ptr) :
    lastLoc loc (l ++ [s]) = Loc.next s := by
  induction l generalizing loc with
  | nil => rfl
  | cons a l ih => simp [lastLoc, ih]

theorem shuffle_seek_chain {h : Heap} (pre : List Ptr) (move : Ptr) (post : List Ptr)
    (loc : Loc) (hc : NextChain h (pre ++ move :: post) none)
    (hloc : loc.get h = headOr (pre ++ move :: post) none) :
    shuffle_seek h pre.length loc (loc.get h) = some (lastLoc loc pre, some move) := by
  induction pre generalizing loc with
  | nil =>
    simp only [List.nil_append, headOr_cons] at hloc
    simp [shuffle_seek, lastLoc, hloc]
  | cons a pre ih =>
    rw [List.cons_append] at hc hloc
    simp only [headOr_cons] at hloc
    rw [hloc]
    simp only [List.length_cons, shuffle_seek, lastLoc]
    have := ih (Loc.next a) hc.2 hc.1
    simp only [Loc.get] at this
    exact this

theorem shuffle_move_succ (draw : Nat → Nat → Nat) (count : Nat) (h : Heap) (k : Nat) (prev : Loc)
    (bm : Loc) (move : Ptr)
    (hseek : shuffle_seek h (draw k (count + 2)) prev (prev.get h) = some (bm, some move)) :
    shuffle_move draw (count + 2) h k prev =
      shuffle_move draw (count + 1) (shuffle_move_once h prev bm move) (k + 1) (Loc.next move) := by
  simp only [shuffle_move, hseek, shuffle_move_once]

theorem headOr_ne_of_not_mem {l : List Ptr} {x : Ptr} (hx : x ∉ l) : headOr l none ≠ some x := by
  cases l with
  | nil => simp
  | cons a l =>
    simp only [headOr_cons, ne_eq, Option.some.injEq]
    intro hh
    exact hx (hh ▸ List.mem_cons_self _ _)

theorem move_once_props {h : Heap} (prev : Loc) (pre : List Ptr) (move : Ptr) (post : List Ptr)
    (hc : NextChain h (pre ++ move :: post) none)
    (hloc : prev.get h = headOr (pre ++ move :: post) none)
    (hnd : (pre ++ move :: post).Nodup) (hprev : prev.cell ∉ pre ++ move :: post) :
    NextChain (shuffle_move_once h prev (lastLoc prev pre) move) (pre ++ post) none ∧
    ((shuffle_move_once h prev (lastLoc prev pre) move) move).next = headOr (pre ++ post) none ∧
    prev.get (shuffle_move_once h prev (lastLoc prev pre) move) = some move ∧
    (∀ x, SameButLinks (h x) ((shuffle_move_once h prev (lastLoc prev pre) move) x)) ∧
    (∀ x, prev ≠ Loc.child x →
      ((shuffle_move_once h prev (lastLoc prev pre) move) x).child = (h x).child) ∧
    (∀ x, x ∉ pre ++ move :: post → prev ≠ Loc.next x →
      ((shuffle_move_once h prev (lastLoc prev pre) move) x).next = (h x).next) := by
  have hmove_next : (h move).next = headOr post none := by
    have := (NextChain_append.1 hc).2
    exact this.1
  have hmpre : move ∉ pre := by
    intro hh
    have := (List.nodup_append.1 hnd).2.2
    exact this hh (List.mem_cons_self _ _)
  have hmpost : move ∉ post := by
    have := (List.nodup_append.1 hnd).2.1
    exact (List.nodup_cons.1 this).1
  have hpm : prev.cell ≠ move := fun hh => hprev (by simp [hh])
  have hcpost : NextChain h post none := (NextChain_append.1 hc).2.2
  have hpost_ne : headOr post none ≠ some move := headOr_ne_of_not_mem hmpost
  cases pre using List.reverseRecOn with
  | nil =>
    simp only [lastLoc, List.nil_append] at *
    cases prev with
    | child a =>
      simp only [Loc.cell] at hprev hpm
      have ham : a ≠ move := hpm
      have hma : move ≠ a := Ne.symm hpm
      simp only [shuffle_move_once, Loc.set, Loc.get, upd_same]
      refine ⟨?_, ?_, ?_, ?_, ?_, ?_⟩
      · refine NextChain_congr _ ?_ hcpost
        intro x hx
        have h1 : x ≠ move := fun hh => hmpost (hh ▸ hx)
        have h2 : x ≠ a := fun hh => hprev (by simp [← hh, hx])
        simp [upd, h1, h2]
      · simp [upd, hma, hpost_ne, hmove_next]
      · simp [upd]
      · intro x
        by_cases h1 : x = move <;> by_cases h2 : x = a <;> simp [upd, h1, h2, SameButLinks, hma, ham]
      · intro x hx
        have h2 : x ≠ a := fun hh => hx (by rw [hh])
        by_cases h1 : x = move <;> simp [upd, h1, h2, hma]
      · intro x hx _
        have h1 : x ≠ move := fun hh => hx (by simp [hh])
        by_cases h2 : x = a <;> simp [upd, h1, h2, ham]
    | next s =>
      simp only [Loc.cell] at hprev hpm
      have hsm : s ≠ move := hpm
      have hms : move ≠ s := Ne.symm hpm
      simp only [shuffle_move_once, Loc.set, Loc.get, upd_same]
      refine ⟨?_, ?_, ?_, ?_, ?_, ?_⟩
      · refine NextChain_congr _ ?_ hcpost
        intro x hx
        have h1 : x ≠ move := fun hh => hmpost (hh ▸ hx)
        have h2 : x ≠ s := fun hh => hprev (by simp [← hh, hx])
        simp [upd, h1, h2]
      · simp [upd, hms, hpost_ne, hmove_next]
      · simp [upd]
      · intro x
        by_cases h1 : x = move <;> by_cases h2 : x = s <;> simp [upd, h1, h2, SameButLinks, hms, hsm]
      · intro x _
        by_cases h1 : x = move <;> by_cases h2 : x = s <;> simp [upd, h1, h2, hms, hsm]
      · intro x hx hx2
        have h1 : x ≠ move := fun hh => hx (by simp [hh])
        have h2 : x ≠ s := fun hh => hx2 (by rw [hh])
        simp [upd, h1, h2]
  | append_singleton pre' t _ =>
    rw [lastLoc_append_singleton]
    have htm : t ≠ move := fun hh => hmpre (by simp [hh])
    have hmt : move ≠ t := Ne.symm htm
    have hpt : prev.cell ≠ t := fun hh => hprev (by simp [hh])
    have hhead : ∃ x0, headOr (pre' ++ [t] ++ move :: post) none = some x0 ∧ x0 ≠ move ∧
        headOr (pre' ++ [t] ++ post) none = some x0 := by
      cases pre' with
      | nil => exact ⟨t, rfl, htm, rfl⟩
      | cons x0 pre'' =>
        refine ⟨x0, rfl, ?_, rfl⟩
        intro hh
        exact hmpre (by simp [hh])
    obtain ⟨x0, hx0, hx0m, hx0'⟩ := hhead
    have hc1 : NextChain h pre' (some t) := by
      have := (NextChain_append.1 hc).1
      exact (NextChain_append.1 this).1
    have htpre : t ∉ pre' := by
      have := (List.nodup_append.1 hnd).1
      have := (List.nodup_append.1 this).2.2
      intro hh
      exact this hh (List.mem_singleton_self _)
    have htpost : t ∉ post := by
      intro hh
      have := (List.nodup_append.1 hnd).2.2
      exact this (show t ∈ pre' ++ [t] by simp) (List.mem_cons_of_mem _ hh)
    rw [hx0] at hloc
    cases prev with
    | child a =>
      simp only [Loc.cell] at hprev hpm hpt
      have ham : a ≠ move := hpm
      have hma : move ≠ a := Ne.symm hpm
      have hta : t ≠ a := Ne.symm hpt
      simp only [Loc.get] at hloc
      simp only [shuffle_move_once, Loc.set, Loc.get]
      have hif : (upd h t (fun e => { e with next := (h move).next }) a).child = some x0 := by
        simp [upd, hpt, hloc]
      simp only [hif, Option.some.injEq, hx0m, if_false]
      refine ⟨?_, ?_, ?_, ?_, ?_, ?_⟩
      · rw [NextChain_append, NextChain_append]
        refine ⟨⟨NextChain_congr _ ?_ hc1, ?_⟩, NextChain_congr _ ?_ hcpost⟩
        · intro x hx
          have h1 : x ≠ move := fun hh => hmpre (by simp [← hh, hx])
          have h2 : x ≠ a := fun hh => hprev (by simp [← hh, hx])
          have h3 : x ≠ t := fun hh => htpre (hh ▸ hx)
          simp [upd, h1, h2, h3]
        · simp [NextChain, upd, hta, htm, hmove_next]
        · intro x hx
          have h1 : x ≠ move := fun hh => hmpost (hh ▸ hx)
          have h2 : x ≠ a := fun hh => hprev (by simp [← hh, hx])
          have h3 : x ≠ t := fun hh => htpost (hh ▸ hx)
          simp [upd, h1, h2, h3]
      · have hx0'' : headOr (pre' ++ t :: post) none = some x0 := by simpa using hx0'
        simp [upd, hma, hx0'']
      · simp [upd]
      · intro x
        by_cases h1 : x = move <;> by_cases h2 : x = a <;> by_cases h3 : x = t <;>
          simp [upd, h1, h2, h3, SameButLinks, hma, ham, hta, htm, hmt, hpt]
      · intro x hx
        have h2 : x ≠ a := fun hh => hx (by rw [hh])
        by_cases h1 : x = move <;> by_cases h3 : x = t <;>
          simp [upd, h1, h2, h3, hma, hta, hmt, htm]
      · intro x hx _
        have h1 : x ≠ move := fun hh => hx (by simp [hh])
        have h3 : x ≠ t := fun hh => hx (by simp [hh])
        by_cases h2 : x = a <;> simp [upd, h1, h2, h3, ham, hpt]
    | next s =>
      simp only [Loc.cell] at hprev hpm hpt
      have hsm : s ≠ move := hpm
      have hms : move ≠ s := Ne.symm hpm
      have hts : t ≠ s := Ne.symm hpt
      simp only [Loc.get] at hloc
      simp only [shuffle_move_once, Loc.set, Loc.get]
      have hif : (upd h t (fun e => { e with next := (h move).next }) s).next = some x0 := by
        simp [upd, hpt, hloc]
      simp only [hif, Option.some.injEq, hx0m, if_false]
      refine ⟨?_, ?_, ?_, ?_, ?_, ?_⟩
      · rw [NextChain_append, NextChain_append]
        refine ⟨⟨NextChain_congr _ ?_ hc1, ?_⟩, NextChain_congr _ ?_ hcpost⟩
        · intro x hx
          have h1 : x ≠ move := fun hh => hmpre (by simp [← hh, hx])
          have h2 : x ≠ s := fun hh => hprev (by simp [← hh, hx])
          have h3 : x ≠ t := fun hh => htpre (hh ▸ hx)
          simp [upd, h1, h2, h3]
        · simp [NextChain, upd, hts, htm, hmove_next]
        · intro x hx
          have h1 : x ≠ move := fun hh => hmpost (hh ▸ hx)
          have h2 : x ≠ s := fun hh => hprev (by simp [← hh, hx])
          have h3 : x ≠ t := fun hh => htpost (hh ▸ hx)
          simp [upd, h1, h2, h3]
      · have hx0'' : headOr (pre' ++ t :: post) none = some x0 := by simpa using hx0'
        simp [upd, hms, hx0'']
      · simp [upd]
      · intro x
        by_cases h1 : x = move <;> by_cases h2 : x = s <;> by_cases h3 : x = t <;>
          simp [upd, h1, h2, h3, SameButLinks, hms, hsm, hts, htm, hmt, hpt]
      · intro x _
        by_cases h1 : x = move <;> by_cases h2 : x = s <;> by_cases h3 : x = t <;>
          simp [upd, h1, h2, h3, hms, hsm, hts, htm, hmt, hpt]
      · intro x hx hx2
        have h1 : x ≠ move := fun hh => hx (by simp [hh])
        have h3 : x ≠ t := fun hh => hx (by simp [hh])
        have h2 : x ≠ s := fun hh => hx2 (by rw [hh])
        simp [upd, h1, h2, h3]

theorem split_at_index (U : List Ptr) (n : Nat) (hn : n < U.length) :
    ∃ pre move post, U = pre ++ move :: post ∧ pre.length = n := by
  induction U generalizing n with
  | nil => simp at hn
  | cons a U ih =>
    cases n with
    | zero => exact ⟨[], a, U, rfl, rfl⟩
    | succ n =>
      obtain ⟨pre, move, post, e1, e2⟩ := ih n (by simpa using hn)
      exact ⟨a :: pre, move, post, by simp [e1], by simp [e2]⟩

theorem sameButLinks_trans {c1 c2 c3 : play_tree} (h12 : SameButLinks c1 c2)
    (h23 : SameButLinks c2 c3) : SameButLinks c1 c3 := by
  obtain ⟨a1, a2, a3, a4, a5, a6, a7⟩ := h12
  obtain ⟨b1, b2, b3, b4, b5, b6, b7⟩ := h23
  exact ⟨b1.trans a1, b2.trans a2, b3.trans a3, b4.trans a4, b5.trans a5, b6.trans a6,
    b7.trans a7⟩

theorem sameButLinks_refl (c : play_tree) : SameButLinks c c :=
  ⟨rfl, rfl, rfl, rfl, rfl, rfl, rfl⟩

theorem shuffle_move_small (draw : Nat → Nat → Nat) (h : Heap) (kk : Nat) (prev : Loc)
    (c : Nat) (hc1 : c ≤ 1) : shuffle_move draw c h kk prev = some (h, kk) := by
  cases c with
  | zero => rfl
  | succ c =>
    cases c with
    | zero => rfl
    | succ c => omega

theorem shuffle_move_perm (draw : Nat → Nat → Nat) (hdraw : ∀ k c, 0 < c → draw k c < c)
    (count : Nat) (U : List Ptr) (h : Heap) (kk : Nat) (prev : Loc)
    (hlen : U.length = count) (hc : NextChain h U none) (hloc : prev.get h = headOr U none)
    (hnd : U.Nodup) (hprev : prev.cell ∉ U) :
    ∃ h' kk' U', shuffle_move draw count h kk prev = some (h', kk') ∧ U'.Perm U ∧
      NextChain h' U' none ∧ prev.get h' = headOr U' none ∧
      (∀ x, SameButLinks (h x) (h' x)) ∧
      (∀ x, prev ≠ Loc.child x → (h' x).child = (h x).child) ∧
      (∀ x, x ∉ U → prev ≠ Loc.next x → (h' x).next = (h x).next) := by
  induction count generalizing U h kk prev with
  | zero =>
    exact ⟨h, kk, U, shuffle_move_small draw h kk prev 0 (by omega), List.Perm.refl _, hc, hloc,
      fun x => sameButLinks_refl _, fun _ _ => rfl, fun _ _ _ => rfl⟩
  | succ n ih =>
    cases n with
    | zero =>
      exact ⟨h, kk, U, shuffle_move_small draw h kk prev 1 (le_refl _), List.Perm.refl _, hc, hloc,
        fun x => sameButLinks_refl _, fun _ _ => rfl, fun _ _ _ => rfl⟩
    | succ m =>
      have hlt : draw kk (m + 2) < U.length := by rw [hlen]; exact hdraw kk (m + 2) (by omega)
      obtain ⟨pre, move, post, hU, hpre⟩ := split_at_index U _ hlt
      subst hU
      have hseek := shuffle_seek_chain pre move post prev hc hloc
      rw [hpre] at hseek
      rw [shuffle_move_succ draw m h kk prev _ move hseek]
      obtain ⟨p1, p2, p3, p4, p5, p6⟩ := move_once_props prev pre move post hc hloc hnd hprev
      have hmU1 : move ∉ pre ++ post := by
        have := List.nodup_middle.1 hnd
        exact (List.nodup_cons.1 this).1
      have hnd1 : (pre ++ post).Nodup := by
        have := List.nodup_middle.1 hnd
        exact (List.nodup_cons.1 this).2
      have hlen1 : (pre ++ post).length = m + 1 := by
        simp at hlen ⊢; omega
      obtain ⟨h', kk', U1', e1, e2, e3, e4, e5, e6, e7⟩ :=
        ih (pre ++ post) (shuffle_move_once h prev (lastLoc prev pre) move) (kk + 1)
          (Loc.next move) hlen1 p1 p2 hnd1 hmU1
      refine ⟨h', kk', move :: U1', e1, ?_, ?_, ?_, ?_, ?_, ?_⟩
      · exact (List.Perm.cons move e2).trans List.perm_middle.symm
      · exact ⟨e4, e3⟩
      · simp only [headOr_cons]
        rw [← p3]
        have hpm : prev.cell ≠ move := fun hh => hprev (by simp [hh])
        cases prev with
        | child a => exact e6 a (by simp)
        | next s =>
          simp only [Loc.cell] at hprev hpm
          exact e7 s (fun hh => hprev (by
            have := List.mem_append.1 hh
            rcases this with hh | hh
            · simp [hh]
            · simp [hh])) (by simp [Ne.symm hpm])
      · intro x
        exact sameButLinks_trans (p4 x) (e5 x)
      · intro x hx
        rw [e6 x (by simp), p5 x hx]
      · intro x hx hx2
        have hx1 : x ∉ pre ++ post := by
          intro hh
          apply hx
          have := List.mem_append.1 hh
          rcases this with hh | hh
          · simp [hh]
          · simp [hh]
        have hxm : x ≠ move := fun hh => hx (by simp [hh])
        rw [e7 x hx1 (by simp [Ne.symm hxm]), p6 x hx hx2]

theorem shuffle_relink_chain (l : List Ptr) (h : Heap) (pv : Option Ptr) (f : Nat)
    (hc : NextChain h l none) (hnd : l.Nodup) (hf : l.length < f) :
    ∃ h', shuffle_relink f h (headOr l none) pv = some h' ∧ Chain h' pv l none ∧
      (∀ x, x ∉ l → h' x = h x) ∧
      (∀ x, (h' x).parent = (h x).parent ∧ (h' x).child = (h x).child ∧
        (h' x).next = (h x).next ∧ (h' x).flags = (h x).flags) := by
  induction l generalizing h pv f with
  | nil =>
    obtain ⟨f, rfl⟩ : ∃ f', f = f' + 1 := ⟨f - 1, by omega⟩
    exact ⟨h, rfl, trivial, fun _ _ => rfl, fun _ => ⟨rfl, rfl, rfl, rfl⟩⟩
  | cons a l ih =>
    obtain ⟨f, rfl⟩ : ∃ f', f = f' + 1 := ⟨f - 1, by omega⟩
    have hal : a ∉ l := (List.nodup_cons.1 hnd).1
    have hc1 : NextChain (upd h a (fun e => { e with prev := pv })) l none := by
      refine NextChain_congr _ ?_ hc.2
      intro x hx
      have : x ≠ a := fun hh => hal (hh ▸ hx)
      simp [upd, this]
    obtain ⟨h', e1, e2, e3, e4⟩ := ih (upd h a (fun e => { e with prev := pv })) (some a) f hc1
      (List.nodup_cons.1 hnd).2 (by simpa using hf)
    refine ⟨h', ?_, ?_, ?_, ?_⟩
    · simp only [headOr_cons, shuffle_relink, upd_same]
      rw [hc.1]
      exact e1
    · refine ⟨?_, ?_, e2⟩
      · rw [e3 a hal]; simp
      · rw [e3 a hal]; simp [hc.1]
    · intro x hx
      have hxa : x ≠ a := fun hh => hx (by simp [hh])
      have hxl : x ∉ l := fun hh => hx (by simp [hh])
      rw [e3 x hxl]
      simp [upd, hxa]
    · intro x
      obtain ⟨q1, q2, q3, q4⟩ := e4 x
      rw [q1, q2, q3, q4]
      by_cases hxa : x = a <;> simp [upd, hxa]

/-- The shuffle of the children `U` of the entry `a`: the rounds of
`shuffle_move`, then `shuffle_relink`, then the flag is cleared. -/
theorem shuffle_top (draw : Nat → Nat → Nat) (hdraw : ∀ k c, 0 < c → draw k c < c)
    (U : List Ptr) (a : Ptr) (h : Heap) (kk f : Nat)
    (hc : Chain h none U none) (hchild : (h a).child = headOr U none) (hnd : U.Nodup)
    (haU : a ∉ U) (hf : U.length < f) :
    ∃ h2 kk' h3 U', shuffle_move draw U.length h kk (Loc.child a) = some (h2, kk') ∧
      shuffle_relink f h2 (h2 a).child none = some h3 ∧
      U'.Perm U ∧ Chain h3 none U' none ∧ (h3 a).child = headOr U' none ∧
      (∀ x, x ≠ a → x ∉ U → h3 x = h x) ∧
      (∀ x, (h3 x).parent = (h x).parent) ∧
      (∀ x, x ≠ a → (h3 x).child = (h x).child) ∧
      (h3 a).prev = (h a).prev ∧ (h3 a).next = (h a).next := by
  obtain ⟨h2, kk', U', e1, e2, e3, e4, e5, e6, e7⟩ :=
    shuffle_move_perm draw hdraw U.length U h kk (Loc.child a) rfl hc.nextChain hchild hnd haU
  have hnd' : U'.Nodup := (List.Perm.nodup_iff e2).2 hnd
  have haU' : a ∉ U' := fun hh => haU ((List.Perm.mem_iff e2).1 hh)
  simp only [Loc.get] at e4
  obtain ⟨h3, r1, r2, r3, r4⟩ := shuffle_relink_chain U' h2 none f e3 hnd'
    (by rw [List.Perm.length_eq e2]; exact hf)
  rw [← e4] at r1
  refine ⟨h2, kk', h3, U', e1, r1, e2, r2, ?_, ?_, ?_, ?_, ?_, ?_⟩
  · rw [(r4 a).2.1, e4]
  · intro x hxa hxU
    have hxU' : x ∉ U' := fun hh => hxU ((List.Perm.mem_iff e2).1 hh)
    rw [r3 x hxU']
    obtain ⟨q1, q2, q3, q4, q5, q6, q7⟩ := e5 x
    have q8 := e6 x (by simp [Ne.symm hxa])
    have q9 := e7 x hxU (by simp)
    cases hx2 : h2 x
    cases hx : h x
    simp only [hx2, hx] at q1 q2 q3 q4 q5 q6 q7 q8 q9
    simp [q1, q2, q3, q4, q5, q6, q7, q8, q9]
  · intro x
    rw [(r4 x).1, (e5 x).1]
  · intro x hxa
    rw [(r4 x).2.1, e6 x (by simp [Ne.symm hxa])]
  · rw [r3 a haU', (e5 a).2.1]
  · rw [(r4 a).2.2.1, e7 a haU (by simp)]

theorem Rep_congr {h h' : Heap} (F : Forest) (par prev : Option Ptr)
    (hl : ∀ x ∈ F.addrs, h' x = h x) : Rep h par prev F → Rep h' par prev F := by
  induction F generalizing par prev with
  | nil => intro _; trivial
  | cons a k r ih1 ih2 =>
    intro ⟨h1, h2, h3, h4, h5, h6⟩
    have ha := hl a (by simp [Forest.addrs])
    refine ⟨by rw [ha]; exact h1, by rw [ha]; exact h2, by rw [ha]; exact h3,
      by rw [ha]; exact h4, ih1 _ _ (fun x hx => hl x (by simp [Forest.addrs, hx])) h5,
      ih2 _ _ (fun x hx => hl x (by simp [Forest.addrs, hx])) h6⟩

theorem roots_eq_map (F : Forest) : F.roots = F.toList.map Prod.fst := by
  induction F with
  | nil => rfl
  | cons a k r _ ih2 => simp [Forest.roots, Forest.toList, ih2]

theorem toList_ofList (P : List (Ptr × Forest)) : (Forest.ofList P).toList = P := by
  induction P with
  | nil => rfl
  | cons p P ih => obtain ⟨a, k⟩ := p; simp [Forest.ofList, Forest.toList, ih]

theorem ofList_toList (F : Forest) : Forest.ofList F.toList = F := by
  induction F with
  | nil => rfl
  | cons a k r _ ih2 => simp [Forest.ofList, Forest.toList, ih2]

theorem Rep_iff {h : Heap} (F : Forest) (par prev : Option Ptr) :
    Rep h par prev F ↔ Chain h prev F.roots none ∧
      ∀ p ∈ F.toList, (h p.1).parent = par ∧ (h p.1).child = headOr p.2.roots none ∧
        Rep h (some p.1) none p.2 := by
  induction F generalizing prev with
  | nil => simp [Rep, Forest.roots, Forest.toList, Chain]
  | cons a k r _ ih2 =>
    simp only [Rep, Forest.roots, Forest.toList, Chain, List.mem_cons, forall_eq_or_imp]
    rw [ih2]
    tauto

theorem roots_sublist_addrs (F : Forest) : ∀ x ∈ F.roots, x ∈ F.addrs := by
  induction F with
  | nil => simp [Forest.roots]
  | cons a k r _ ih2 =>
    intro x hx
    simp only [Forest.roots, List.mem_cons] at hx
    rcases hx with hx | hx
    · simp [Forest.addrs, hx]
    · simp [Forest.addrs, ih2 x hx]

theorem toList_addrs {F : Forest} {p : Ptr × Forest} (hp : p ∈ F.toList) :
    p.1 ∈ F.roots ∧ ∀ x ∈ p.2.addrs, x ∈ F.addrs := by
  induction F with
  | nil => simp [Forest.toList] at hp
  | cons a k r _ ih2 =>
    simp only [Forest.toList, List.mem_cons] at hp
    rcases hp with hp | hp
    · subst hp
      exact ⟨by simp [Forest.roots], fun x hx => by simp [Forest.addrs, hx]⟩
    · obtain ⟨q1, q2⟩ := ih2 hp
      exact ⟨by simp [Forest.roots, q1], fun x hx => by simp [Forest.addrs, q2 x hx]⟩

theorem toList_kids_not_root {F : Forest} (hnd : F.addrs.Nodup) {p : Ptr × Forest}
    (hp : p ∈ F.toList) : ∀ x ∈ p.2.addrs, x ∉ F.roots := by
  induction F with
  | nil => simp [Forest.toList] at hp
  | cons a k r _ ih2 =>
    simp only [Forest.addrs, List.nodup_cons, List.mem_append, not_or] at hnd
    obtain ⟨⟨hak, har⟩, hnd2⟩ := hnd
    have hdis := (List.nodup_append.1 hnd2).2.2
    simp only [Forest.toList, List.mem_cons] at hp
    intro x hx
    simp only [Forest.roots, List.mem_cons, not_or]
    rcases hp with hp | hp
    · subst hp
      refine ⟨fun hh => hak (hh ▸ hx), fun hh => hdis hx (roots_sublist_addrs r x hh)⟩
    · refine ⟨fun hh => har (hh ▸ (toList_addrs hp).2 x hx), ?_⟩
      exact ih2 (List.nodup_append.1 hnd2).2.1 hp x hx

theorem shuffled_refl (F : Forest) : Shuffled F F := by
  induction F with
  | nil => exact Shuffled.nil
  | cons a k r ih1 ih2 => exact Shuffled.cons a ih1 ih2

theorem Shuffled.of_perm {P P' : List (Ptr × Forest)} (hp : P'.Perm P) :
    Shuffled (Forest.ofList P) (Forest.ofList P') := by
  induction hp with
  | nil => exact Shuffled.nil
  | cons x _ ih =>
    obtain ⟨a, k⟩ := x
    exact Shuffled.cons a (shuffled_refl k) ih
  | swap x y l =>
    obtain ⟨a, k⟩ := x
    obtain ⟨b, k2⟩ := y
    exact Shuffled.swap a b k k2 _
  | trans _ _ ih1 ih2 => exact Shuffled.trans ih2 ih1

theorem Shuffled.addrs_perm {F F' : Forest} (hs : Shuffled F F') : F'.addrs.Perm F.addrs := by
  induction hs with
  | nil => exact List.Perm.refl _
  | cons a _ _ ih1 ih2 =>
    simp only [Forest.addrs]
    exact List.Perm.cons a (List.Perm.append ih1 ih2)
  | swap a b k k2 r =>
    simp only [Forest.addrs]
    rw [List.perm_iff_count]
    intro x
    simp only [List.count_cons, List.count_append]
    omega
  | trans _ _ ih1 ih2 => exact ih2.trans ih1

theorem Shuffled.size_eq {F F' : Forest} (hs : Shuffled F F') : F'.size = F.size := by
  induction hs with
  | nil => rfl
  | cons a _ _ ih1 ih2 => simp [Forest.size, ih1, ih2]
  | swap a b k k2 r => simp only [Forest.size]; omega
  | trans _ _ ih1 ih2 => rw [ih2, ih1]

theorem Shuffled.roots_perm {F F' : Forest} (hs : Shuffled F F') : F'.roots.Perm F.roots := by
  induction hs with
  | nil => exact List.Perm.refl _
  | cons a _ _ _ ih2 => exact List.Perm.cons a ih2
  | swap a b k k2 r => exact List.Perm.swap _ _ _
  | trans _ _ ih1 ih2 => exact ih2.trans ih1

theorem roots_length_le_size (F : Forest) : F.roots.length ≤ F.size := by
  induction F with
  | nil => simp [Forest.roots]
  | cons a k r _ ih2 => simp only [Forest.roots, Forest.size, List.length_cons]; omega

theorem perm_map_fst_lift {P : List (Ptr × Forest)} {U' : List Ptr}
    (hp : U'.Perm (P.map Prod.fst)) :
    ∃ P' : List (Ptr × Forest), P'.Perm P ∧ P'.map Prod.fst = U' := by
  generalize hU : P.map Prod.fst = U at hp
  induction hp generalizing P with
  | nil =>
    cases P with
    | nil => exact ⟨[], List.Perm.refl _, rfl⟩
    | cons p P => simp at hU
  | cons x _ ih =>
    cases P with
    | nil => simp at hU
    | cons p P =>
      simp only [List.map_cons, List.cons.injEq] at hU
      obtain ⟨P', q1, q2⟩ := ih hU.2
      exact ⟨p :: P', List.Perm.cons p q1, by simp [q2, hU.1]⟩
  | swap x y l =>
    cases P with
    | nil => simp at hU
    | cons p P =>
      cases P with
      | nil => simp at hU
      | cons q P =>
        simp only [List.map_cons, List.cons.injEq] at hU
        exact ⟨q :: p :: P, List.Perm.swap _ _ _, by simp [hU.1, hU.2.1, hU.2.2]⟩
  | trans _ _ ih1 ih2 =>
    obtain ⟨P1, q1, q2⟩ := ih2 hU
    obtain ⟨P2, q3, q4⟩ := ih1 q2
    exact ⟨P2, q3.trans q1, q4⟩

theorem roots_nodup {F : Forest} (hnd : F.addrs.Nodup) : F.roots.Nodup := by
  induction F with
  | nil => simp [Forest.roots]
  | cons a k r _ ih2 =>
    simp only [Forest.addrs, List.nodup_cons, List.mem_append, not_or] at hnd
    simp only [Forest.roots, List.nodup_cons]
    exact ⟨fun hh => hnd.1.2 (roots_sublist_addrs r a hh), ih2 (List.nodup_append.1 hnd.2).2.1⟩

theorem shuffle_tree_spec (draw : Nat → Nat → Nat) (hdraw : ∀ k c, 0 < c → draw k c < c)
    (k : Forest) (hk : ShuffleChildrenSpec draw k) (a : Ptr) (h : Heap) (kk f : Nat)
    (hchild : (h a).child = headOr k.roots none) (hrep : Rep h (some a) none k)
    (hnd : (a :: k.addrs).Nodup) (hf : 2 * k.size + 2 ≤ f) :
    ∃ h' kk' k', shuffle_tree draw f h kk (some a) = some (h', kk') ∧
      (h' a).child = headOr k'.roots none ∧ Rep h' (some a) none k' ∧ Shuffled k k' ∧
      (∀ x, x ≠ a → x ∉ k.addrs → h' x = h x) ∧ (∀ x, (h' x).parent = (h x).parent) ∧
      (h' a).prev = (h a).prev ∧ (h' a).next = (h a).next := by
  obtain ⟨f, rfl⟩ : ∃ f', f = f' + 1 := ⟨f - 1, by omega⟩
  have hak : a ∉ k.addrs := (List.nodup_cons.1 hnd).1
  have hndk : k.addrs.Nodup := (List.nodup_cons.1 hnd).2
  obtain ⟨h1, kk1, k1, e1, e2, e3, e4, e5, e6⟩ := hk (some a) none h kk 0 f hrep hndk (by omega)
  rw [← hchild] at e1
  have h1a : h1 a = h a := e5 a hak
  have hperm := e4.addrs_perm
  have hak1 : a ∉ k1.addrs := fun hh => hak ((List.Perm.mem_iff hperm).1 hh)
  have hndk1 : k1.addrs.Nodup := (List.Perm.nodup_iff hperm).2 hndk
  rw [shuffle_tree]
  simp only [e1]
  by_cases hr : (h1 a).flags.rnd = true
  · simp only [hr, if_true]
    have hU := (Rep_iff k1 (some a) none).1 e2
    have hchild1 : (h1 a).child = headOr k1.roots none := by rw [h1a, hchild, e3]
    have haU : a ∉ k1.roots := fun hh => hak1 (roots_sublist_addrs k1 a hh)
    have hlenU : k1.roots.length < f := by
      have := roots_length_le_size k1
      rw [e4.size_eq] at this
      omega
    obtain ⟨h2, kk', h3, U', t1, t2, t3, t4, t5, t6, t7, t8, t9, t10⟩ :=
      shuffle_top draw hdraw k1.roots a h1 kk1 f hU.1 hchild1 (roots_nodup hndk1) haU hlenU
    have hcount : 0 + k.roots.length = k1.roots.length := by rw [e3]; simp
    rw [hcount]
    simp only [t1, t2]
    rw [roots_eq_map] at t3
    obtain ⟨P', q1, q2⟩ := perm_map_fst_lift t3
    have hroots' : (Forest.ofList P').roots = U' := by
      rw [roots_eq_map, toList_ofList, q2]
    have hUsub : ∀ x ∈ k1.roots, x ∈ k.addrs := fun x hx =>
      (List.Perm.mem_iff hperm).1 (roots_sublist_addrs k1 x hx)
    refine ⟨_, kk', Forest.ofList P', rfl, ?_, ?_, ?_, ?_, ?_, ?_, ?_⟩
    · simp [upd, hroots', t5]
    · rw [Rep_iff, hroots', toList_ofList]
      refine ⟨Chain_congr _ _ ?_ t4, ?_⟩
      · intro x _
        by_cases hxa : x = a <;> simp [upd, hxa]
      · intro p hp
        have hp1 : p ∈ k1.toList := (List.Perm.mem_iff q1).1 hp
        obtain ⟨r1, r2, r3⟩ := hU.2 p hp1
        obtain ⟨s1, s2⟩ := toList_addrs hp1
        have hpa : p.1 ≠ a := fun hh => haU (hh ▸ s1)
        refine ⟨?_, ?_, ?_⟩
        · simp only [upd, hpa, if_false]; rw [t7, r1]
        · simp only [upd, hpa, if_false]; rw [t8 _ hpa, r2]
        · refine Rep_congr _ _ _ ?_ r3
          intro x hx
          have hxa : x ≠ a := fun hh => hak1 (hh ▸ s2 x hx)
          have hxU : x ∉ k1.roots := toList_kids_not_root hndk1 hp1 x hx
          simp only [upd, hxa, if_false]
          exact t6 x hxa hxU
    · refine Shuffled.trans e4 ?_
      have := Shuffled.of_perm q1
      rw [ofList_toList] at this
      exact this
    · intro x hxa hxk
      simp only [upd, hxa, if_false]
      rw [t6 x hxa (fun hh => hxk (hUsub x hh)), e5 x hxk]
    · intro x
      by_cases hxa : x = a
      · subst hxa; simp only [upd_same]; rw [t7, e6]
      · simp only [upd, hxa, if_false]; rw [t7, e6]
    · simp only [upd_same]; rw [t9, h1a]
    · simp only [upd_same]; rw [t10, h1a]
  · simp only [hr, if_false]
    refine ⟨h1, kk1, k1, rfl, by rw [h1a, hchild, e3], e2, e4, fun x _ hx => e5 x hx, e6,
      by rw [h1a], by rw [h1a]⟩

theorem shuffle_children_spec (draw : Nat → Nat → Nat) (hdraw : ∀ k c, 0 < c → draw k c < c)
    (F : Forest) : ShuffleChildrenSpec draw F := by
  induction F with
  | nil =>
    intro par prev h kk c f _ _ hf
    obtain ⟨f, rfl⟩ : ∃ f', f = f' + 1 := ⟨f - 1, by simp [Forest.size] at hf; omega⟩
    exact ⟨h, kk, Forest.nil, by simp [shuffle_tree_children, Forest.roots], trivial, rfl,
      Shuffled.nil, fun _ _ => rfl, fun _ => rfl⟩
  | cons a k r ih1 ih2 =>
    intro par prev h kk c f hrep hnd hf
    simp only [Forest.size] at hf
    obtain ⟨f, rfl⟩ : ∃ f', f = f' + 1 := ⟨f - 1, by omega⟩
    obtain ⟨hp, hpv, hnx, hch, hrk, hrr⟩ := hrep
    have hnd0 := hnd
    simp only [Forest.addrs, List.nodup_cons, List.mem_append, not_or] at hnd
    obtain ⟨⟨hak, har⟩, hnd2⟩ := hnd
    obtain ⟨hndk, hndr, hdis⟩ := List.nodup_append.1 hnd2
    obtain ⟨h1, kk1, k', e1, e2, e3, e4, e5, e6, e7, e8⟩ :=
      shuffle_tree_spec draw hdraw k ih1 a h kk f hch hrk
        (List.nodup_cons.2 ⟨hak, hndk⟩) (by omega)
    have hrr1 : Rep h1 par (some a) r := by
      refine Rep_congr _ _ _ ?_ hrr
      intro x hx
      exact e5 x (fun hh => har (hh ▸ hx)) (fun hh => hdis hh hx)
    obtain ⟨h2, kk2, r', g1, g2, g3, g4, g5, g6⟩ :=
      ih2 par (some a) h1 kk1 (c + 1) f hrr1 hndr (by omega)
    have hnext1 : (h1 a).next = headOr r.roots none := by rw [e8, hnx]
    have h2a : h2 a = h1 a := g5 a har
    refine ⟨h2, kk2, Forest.cons a k' r', ?_, ?_, ?_, ?_, ?_, ?_⟩
    · simp only [Forest.roots, headOr_cons, shuffle_tree_children, e1]
      rw [hnext1, g1]
      simp only [List.length_cons]
      congr 3
      omega
    · refine ⟨?_, ?_, ?_, ?_, ?_, g2⟩
      · rw [h2a, e6, hp]
      · rw [h2a, e7, hpv]
      · rw [h2a, hnext1, g3]
      · rw [h2a, e2]
      · refine Rep_congr _ _ _ ?_ e3
        intro x hx
        have hxk : x ∈ k.addrs := (List.Perm.mem_iff e4.addrs_perm).1 hx
        exact g5 x (fun hh => hdis hxk hh)
    · simp [Forest.roots, g3]
    · exact Shuffled.cons a e4 g4
    · intro x hx
      simp only [Forest.addrs, List.mem_cons, List.mem_append, not_or] at hx
      rw [g5 x hx.2.2, e5 x hx.1 hx.2.1]
    · intro x
      rw [g6, e6]

theorem find_some_mem {F : Forest} {c : Ptr} {k0 : Forest} (hf : F.find c = some k0) :
    c ∈ F.addrs := by
  induction F generalizing k0 with
  | nil => simp [Forest.find] at hf
  | cons a k r ih1 ih2 =>
    simp only [Forest.find] at hf
    by_cases hac : a = c
    · simp [Forest.addrs, hac]
    · simp only [hac, if_false] at hf
      cases hk : k.find c with
      | some k1 => simp [Forest.addrs, ih1 hk]
      | none =>
        rw [hk] at hf
        simp [Forest.addrs, ih2 hf]

theorem find_of_mem {F : Forest} {c : Ptr} (hc : c ∈ F.addrs) : ∃ k0, F.find c = some k0 := by
  induction F with
  | nil => simp [Forest.addrs] at hc
  | cons a k r ih1 ih2 =>
    simp only [Forest.addrs, List.mem_cons, List.mem_append] at hc
    simp only [Forest.find]
    by_cases hac : a = c
    · exact ⟨k, by simp [hac]⟩
    · simp only [hac, if_false]
      cases hk : k.find c with
      | some k1 => exact ⟨k1, rfl⟩
      | none =>
        rcases hc with hc | hc | hc
        · exact absurd hc.symm hac
        · obtain ⟨k0, hk0⟩ := ih1 hc
          rw [hk0] at hk
          cases hk
        · exact ih2 hc

theorem find_none_of_not_mem {F : Forest} {c : Ptr} (hc : c ∉ F.addrs) : F.find c = none := by
  cases hf : F.find c with
  | none => rfl
  | some k0 => exact absurd (find_some_mem hf) hc

theorem find_rep {h : Heap} {F : Forest} {par prev : Option Ptr} {c : Ptr} {k0 : Forest}
    (hrep : Rep h par prev F) (hf : F.find c = some k0) :
    Chain h none k0.roots none ∧ (h c).child = headOr k0.roots none ∧
      ∀ x ∈ k0.roots, (h x).parent = some c := by
  induction F generalizing par prev with
  | nil => simp [Forest.find] at hf
  | cons a k r ih1 ih2 =>
    obtain ⟨_, _, _, hch, hrk, hrr⟩ := hrep
    simp only [Forest.find] at hf
    by_cases hac : a = c
    · simp only [hac, if_true, Option.some.injEq] at hf
      subst hf
      subst hac
      have := (Rep_iff k (some a) none).1 hrk
      refine ⟨this.1, hch, ?_⟩
      intro x hx
      rw [roots_eq_map] at hx
      obtain ⟨p, hp, rfl⟩ := List.mem_map.1 hx
      exact (this.2 p hp).1
    · simp only [hac, if_false] at hf
      cases hk : k.find c with
      | some k1 =>
        rw [hk] at hf
        cases hf
        exact ih1 hrk hk
      | none =>
        rw [hk] at hf
        exact ih2 hrr hf

theorem find_shuffled {F F' : Forest} (hs : Shuffled F F') (hnd : F.addrs.Nodup) (c : Ptr)
    (k0 : Forest) (hf : F.find c = some k0) :
    ∃ k0', F'.find c = some k0' ∧ k0'.roots.Perm k0.roots := by
  induction hs generalizing k0 with
  | nil => simp [Forest.find] at hf
  | @cons a k k' r r' hk hr ih1 ih2 =>
    simp only [Forest.addrs, List.nodup_cons, List.mem_append, not_or] at hnd
    obtain ⟨⟨hak, har⟩, hnd2⟩ := hnd
    obtain ⟨hndk, hndr, hdis⟩ := List.nodup_append.1 hnd2
    simp only [Forest.find] at hf ⊢
    by_cases hac : a = c
    · simp only [hac, if_true, Option.some.injEq] at hf ⊢
      subst hf
      exact ⟨k', rfl, hk.roots_perm⟩
    · simp only [hac, if_false] at hf ⊢
      cases hkc : k.find c with
      | some k1 =>
        rw [hkc] at hf
        cases hf
        obtain ⟨k1', q1, q2⟩ := ih1 hndk _ hkc
        exact ⟨k1', by rw [q1], q2⟩
      | none =>
        rw [hkc] at hf
        have hck : c ∉ k.addrs := by
          intro hh
          obtain ⟨k2, hk2⟩ := find_of_mem hh
          rw [hk2] at hkc
          cases hkc
        have hck' : c ∉ k'.addrs := fun hh => hck ((List.Perm.mem_iff hk.addrs_perm).1 hh)
        rw [find_none_of_not_mem hck']
        exact ih2 hndr k0 hf
  | swap a b k k2 r =>
    simp only [Forest.addrs, List.nodup_cons, List.mem_append, List.mem_cons, not_or] at hnd
    obtain ⟨⟨hak, hab, hak2, har⟩, hnd2⟩ := hnd
    obtain ⟨hndk, hnd3, hdis⟩ := List.nodup_append.1 hnd2
    simp only [List.nodup_cons, List.mem_append, not_or] at hnd3
    obtain ⟨⟨hbk2, hbr⟩, hnd4⟩ := hnd3
    obtain ⟨hndk2, hndr, hdis2⟩ := List.nodup_append.1 hnd4
    have hdk_b : b ∉ k.addrs := fun hh => hdis hh (by simp)
    have hdk_k2 : ∀ x, x ∈ k.addrs → x ∉ k2.addrs := fun x hx hh => hdis hx (by simp [hh])
    refine ⟨k0, ?_, List.Perm.refl _⟩
    simp only [Forest.find] at hf ⊢
    by_cases hac : a = c
    · subst hac
      have hba : ¬ b = a := fun hh => hab hh.symm
      simp only [if_true, Option.some.injEq] at hf
      simp only [hba, if_false, find_none_of_not_mem hak2, if_true, hf]
    · simp only [hac, if_false] at hf ⊢
      cases hkc : k.find c with
      | some k1 =>
        rw [hkc] at hf
        cases hf
        have hck := find_some_mem hkc
        have hbc : ¬ b = c := fun hh => hdk_b (hh ▸ hck)
        simp only [hbc, if_false, find_none_of_not_mem (hdk_k2 c hck)]
      | none =>
        rw [hkc] at hf
        by_cases hbc : b = c
        · simp only [hbc, if_true] at hf ⊢
          exact hf
        · simp only [hbc, if_false] at hf ⊢
          cases hk2c : k2.find c with
          | some k3 => rw [hk2c] at hf; exact hf
          | none => rw [hk2c] at hf; simpa using hf
  | @trans F G H _ _ ih1 ih2 =>
    rename_i hs1 hs2
    obtain ⟨k1, q1, q2⟩ := ih1 hnd k0 hf
    have hndG : G.addrs.Nodup := (List.Perm.nodup_iff hs1.addrs_perm).2 hnd
    obtain ⟨k2, q3, q4⟩ := ih2 hndG k1 q1
    exact ⟨k2, q3, q4.trans q2⟩

/-! ## Loop counts (claims C2, C3, C4) -/

/-- Claim C2, as amended: for every detached root Container with `loop = 2`
whose children are exactly two valid Leaves `a` and `b` (no `PLAY_TREE_RND`),
`play_tree_iter_new` returns a cursor, and stepping it forward (the first step
with any `d`, then `d = +1`, stop-on-nodes off) returns Entry on `a`, Entry on
`b`, Entry on `a`, Entry on `b` (two full passes) and then End on every further
step, for every amount of fuel from 6 on. -/
theorem loop2_two_passes_then_end (draw : Nat → Nat → Nat) (h : Heap) (r a b : Ptr)
    (hf : Flat h r [a, b]) (hloop : (h r).loop = 2) (k f n : Nat) (d0 : Int) :
    play_tree_iter_new draw (f + 6) h k r true = some (some (iter_fresh r), h, k) ∧
    ∃ s', iter_run draw (f + 6) (iter_start h k (iter_fresh r)) (d0 :: List.replicate (n + 4) 1)
      = some ([(IterResult.entry, some a), (IterResult.entry, some b),
          (IterResult.entry, some a), (IterResult.entry, some b)]
          ++ List.replicate (n + 1) (IterResult.end_, some r), s') :=
  ⟨flat_new hf (f + 6) k (by simp), flat_two_run draw hf hloop k f n d0⟩

/-- Witness of `loop2_two_passes_then_end` on `heap_loop2`. -/
theorem loop2_two_passes_then_end_witness :
    Flat heap_loop2 0 [1, 2] ∧ (heap_loop2 0).loop = 2 ∧
    play_tree_iter_new draw_zero 6 heap_loop2 0 0 true
      = some (some (iter_fresh 0), heap_loop2, 0) ∧
    ∃ s', iter_run draw_zero 6 (iter_start heap_loop2 0 (iter_fresh 0)) (1 :: List.replicate 4 1)
      = some ([(IterResult.entry, some 1), (IterResult.entry, some 2),
          (IterResult.entry, some 1), (IterResult.entry, some 2)]
          ++ List.replicate 1 (IterResult.end_, some 0), s') :=
  ⟨flat_loop2, rfl, loop2_two_passes_then_end draw_zero heap_loop2 0 1 2 flat_loop2 rfl 0 0 0 1⟩

/-- Counterexample to claim C2 as stated: on `heap_loop2` seven forward steps of
a fresh cursor do not return Entry six times and then End; the fifth step
already returns End. -/
theorem loop2_not_three_passes :
    ¬ ∃ rs s', iter_run draw_zero 6 (iter_start heap_loop2 0 (iter_fresh 0)) (List.replicate 7 1)
        = some (rs, s') ∧
      rs.map Prod.fst = [IterResult.entry, IterResult.entry, IterResult.entry,
        IterResult.entry, IterResult.entry, IterResult.entry, IterResult.end_] := by
  rintro ⟨rs, s', hrun, hrs⟩
  obtain ⟨s2, e2⟩ := flat_two_run draw_zero flat_loop2 rfl 0 0 2 1
  have e3 : iter_run draw_zero 6 (iter_start heap_loop2 0 (iter_fresh 0)) (List.replicate 7 1)
      = _ := e2
  rw [e3] at hrun
  cases hrun
  simp at hrs

/-- Claim C3, the code at the failing input: on `heap_int_min1` (a detached root
Container with `loop = INT_MIN` and one valid Leaf) a fresh cursor returns
Entry on the Leaf 2147483648 times and End on the next forward step, for every
amount of fuel from 5 on. -/
theorem int_min_loop_reaches_end (f : Nat) :
    play_tree_iter_new draw_zero (f + 5) heap_int_min1 0 0 true
      = some (some (iter_fresh 0), heap_int_min1, 0) ∧
    ∃ s', iter_run draw_zero (f + 5) (iter_start heap_int_min1 0 (iter_fresh 0))
        (0 :: List.replicate (2147483647 + 1) 1)
      = some ((IterResult.entry, some 1) :: (List.replicate 2147483647 (IterResult.entry, some 1)
          ++ [(IterResult.end_, some 0)]), s') :=
  ⟨flat_new flat_int_min1 (f + 5) 0 (by simp), int_min1_run f⟩

/-- Claim C4, the code at the failing input: on `heap_int_min2` (a detached root
Container with `loop = INT_MIN` and two valid Leaves) the first step of a fresh
cursor returns Entry on the first Leaf and the following step with `d = -1`
returns End, not Entry on the last Leaf, for every amount of fuel from 6 on. -/
theorem int_min_loop_step_back_ends (f : Nat) :
    play_tree_iter_new draw_zero (f + 6) heap_int_min2 0 0 true
      = some (some (iter_fresh 0), heap_int_min2, 0) ∧
    ∃ s', iter_run draw_zero (f + 6) (iter_start heap_int_min2 0 (iter_fresh 0)) [0, -1]
      = some ([(IterResult.entry, some 1), (IterResult.end_, some 0)], s') :=
  ⟨flat_new flat_int_min2 (f + 6) 0 (by simp), int_min2_run (f + 1)⟩

/-! ## Validity and cleanup (claims C5, C6) -/

/-- A cursor whose root is a Leaf without file array never returns from its
first step: the assertion `pt->files != NULL` fails. -/
theorem step_leaf_without_files {h : Heap} {r : Ptr} (hc : (h r).child = none)
    (ht : (h r).entry_type ≠ EntryType.node) (hfl : (h r).files = none)
    (hpar : (h r).parent = none) (f : Nat) (d : Int) :
    play_tree_iter_step draw_zero f (iter_start h 0 (iter_fresh r)) d false = none := by
  cases f with
  | zero => rfl
  | succ f =>
    rw [@step_init draw_zero _ r f d false rfl rfl]
    cases f with
    | zero => rfl
    | succ f =>
      cases f with
      | zero =>
        simp [play_tree_iter_step, iter_start, iter_fresh, iter_step_begin, iter_step_candidate,
          hpar, hc, play_tree_is_valid]
      | succ f =>
        simp [play_tree_iter_step, iter_start, iter_fresh, iter_step_begin, iter_step_candidate,
          hpar, hc, play_tree_is_valid, ht, iter_step_entry, hfl]

/-- Claim C5, the code at the failing input: a Leaf made by `play_tree_new` and
`play_tree_add_file` whose only file is taken away by `play_tree_remove_file`
has no file array any more, yet `play_tree_is_valid` returns 1 for it (for
every amount of fuel from 1 on), and `play_tree_iter_new` accepts it as a root
although the first step of that cursor then fails the assertion
`pt->files != NULL` of `play_tree_iter_step`. -/
theorem leaf_without_files_is_valid :
    ∃ h1 h2, play_tree_add_file heap_new 0 "a" = some h1 ∧
      play_tree_remove_file h1 0 "a" = some (1, h2) ∧
      (h2 0).entry_type = EntryType.file ∧ (h2 0).files = none ∧
      (∀ f, play_tree_is_valid h2 (f + 1) 0 = some true) ∧
      (∀ f, play_tree_iter_new draw_zero (f + 2) h2 0 0 true = some (some (iter_fresh 0), h2, 0)) ∧
      ∀ f d, play_tree_iter_step draw_zero f (iter_start h2 0 (iter_fresh 0)) d false = none := by
  refine ⟨_, upd (upd (upd heap_new 0 (fun e => { e with files := some ["a"] })) 0
    (fun e => { e with entry_type := EntryType.file })) 0 (fun e => { e with files := none }),
    rfl, ?_, ?_⟩
  · simp [play_tree_remove_file, heap_new, play_tree_new, upd, find_last_file]
  · refine ⟨by simp [upd], by simp [upd], ?_, ?_, ?_⟩
    · intro f
      simp [play_tree_is_valid, upd, heap_new, play_tree_new]
    · intro f
      simp [play_tree_iter_new, play_tree_is_valid, upd, heap_new, play_tree_new, shuffle_tree,
        shuffle_tree_children, iter_fresh]
    · intro f d
      exact step_leaf_without_files (by simp [upd, heap_new, play_tree_new]) (by simp [upd])
        (by simp [upd]) (by simp [upd, heap_new, play_tree_new]) f d

/-- Claim C6, the code at the failing input: in `heap_one_file` the only file of
the only Leaf is removed, so the subtree of the Container 0 consists of a Leaf
with zero files; `play_tree_cleanup` still returns the Container (not `NULL`),
removes nothing and frees nothing, for every amount of fuel from 4 on. -/
theorem cleanup_keeps_leaf_without_files :
    ∃ h', play_tree_remove_file heap_one_file 1 "a" = some (1, h') ∧
      (h' 1).files = none ∧ (h' 0).child = some 1 ∧
      ∀ f, play_tree_cleanup (f + 4) { heap := h', freed := [] } 0
        = some (some 0, { heap := h', freed := [] }) := by
  refine ⟨upd heap_one_file 1 (fun e => { e with files := none }), ?_, ?_⟩
  · simp [play_tree_remove_file, heap_one_file, find_last_file]
  · refine ⟨by simp [upd], by simp [upd, heap_one_file], ?_⟩
    intro f
    simp [play_tree_cleanup, play_tree_cleanup_prune, play_tree_cleanup_children,
      play_tree_is_valid, play_tree_is_valid_loop, upd, heap_one_file]

/-- Claim C1: for every finite tree (the root `r` with the forest `K` of its
children, all entries at distinct addresses) whose root is detached, in which
every entry is valid (a Leaf with a file array or a Container with at least one
child), every Container has `loop = 0` and no `PLAY_TREE_RND` flag is set,
`play_tree_iter_new` returns a cursor, and stepping it once with `d = 0` and
then with `d = +1` (stop-on-nodes off) returns Entry positioned on each leaf of
the tree exactly once, in depth-first left-to-right order, and End on the step
after the last leaf, for every large enough amount of fuel. -/
theorem traversal_visits_leaves_in_order (draw : Nat → Nat → Nat) (h : Heap) (r : Ptr)
    (K : Forest) (hrep : Rep h none none (Forest.cons r K Forest.nil))
    (hp : Playable h (Forest.cons r K Forest.nil))
    (hnd : (Forest.cons r K Forest.nil).addrs.Nodup) :
    (Forest.cons r K Forest.nil).leaves.Nodup ∧
    ∃ N, ∀ f, N ≤ f → ∀ k,
      play_tree_iter_new draw f h k r true = some (some (iter_fresh r), h, k) ∧
      ∃ s', iter_run draw f (iter_start h k (iter_fresh r))
          (0 :: List.replicate (Forest.cons r K Forest.nil).leaves.length 1)
        = some ((Forest.cons r K Forest.nil).leaves.map (fun l => (IterResult.entry, some l))
            ++ [(IterResult.end_, some r)], s') :=
  ⟨List.Nodup.sublist (leaves_sublist _) hnd, traverse_playable draw hrep hp⟩

/-- Witness of `traversal_visits_leaves_in_order` on `heap_nested`: the leaves
1, 3, 4 and 5 are visited in this order and the fifth forward step returns End. -/
theorem traversal_visits_leaves_in_order_witness :
    Rep heap_nested none none forest_nested ∧ Playable heap_nested forest_nested ∧
    forest_nested.addrs.Nodup ∧ forest_nested.leaves = [1, 3, 4, 5] ∧
    forest_nested.leaves.Nodup ∧
    ∃ N, ∀ f, N ≤ f → ∀ k,
      play_tree_iter_new draw_zero f heap_nested k 0 true
        = some (some (iter_fresh 0), heap_nested, k) ∧
      ∃ s', iter_run draw_zero f (iter_start heap_nested k (iter_fresh 0))
          (0 :: List.replicate forest_nested.leaves.length 1)
        = some (forest_nested.leaves.map (fun l => (IterResult.entry, some l))
            ++ [(IterResult.end_, some 0)], s') :=
  have hrep : Rep heap_nested none none forest_nested := by
    simp [Rep, forest_nested, forest_nested_kids, heap_nested, Forest.roots, headOr]
  have hp : Playable heap_nested forest_nested := by
    simp [Playable, PlayableEntry, IsLeaf, forest_nested, forest_nested_kids, heap_nested]
  have hnd : forest_nested.addrs.Nodup := by decide
  ⟨hrep, hp, hnd, rfl,
    traversal_visits_leaves_in_order draw_zero heap_nested 0 forest_nested_kids hrep hp hnd⟩

/-- The shuffle of the subtree of `pt`, with the trees before and after. -/
theorem shuffle_tree_shuffles (draw : Nat → Nat → Nat) (hdraw : ∀ k c, 0 < c → draw k c < c)
    (h : Heap) (pt : Ptr) (K : Forest) (kk f : Nat)
    (hchild : (h pt).child = headOr K.roots none) (hrep : Rep h (some pt) none K)
    (hnd : (pt :: K.addrs).Nodup) (hf : 2 * K.size + 2 ≤ f) :
    ∃ h' kk' K', shuffle_tree draw f h kk (some pt) = some (h', kk') ∧
      (h' pt).child = headOr K'.roots none ∧ Rep h' (some pt) none K' ∧ Shuffled K K' ∧
      (∀ x, (h' x).parent = (h x).parent) := by
  obtain ⟨h', kk', K', e1, e2, e3, e4, _, e6, _⟩ :=
    shuffle_tree_spec draw hdraw K (shuffle_children_spec draw hdraw K) pt h kk f hchild hrep
      hnd hf
  exact ⟨h', kk', K', e1, e2, e3, e4, e6⟩

/-- Claim C7: for every finite well-formed tree (the entry `pt` with the forest
`K` below it, all at distinct addresses) and every source of random draws that
yields an index below the count it is asked for, `shuffle_tree(pt)` returns
(with fuel from `2 * size + 2` on) and afterwards the heap holds a tree `K'`
below `pt` that is `K` with the siblings permuted level by level; no parent
pointer has changed, and for every entry `c` of the subtree the child chain
after the call is a permutation of the child chain before it, is a well-formed
chain (the head has `prev = NULL`, neighbours point at each other) and its
members have the parent `c`. -/
theorem shuffle_tree_permutes_children (draw : Nat → Nat → Nat)
    (hdraw : ∀ k c, 0 < c → draw k c < c) (h : Heap) (pt : Ptr) (K : Forest) (kk f : Nat)
    (hchild : (h pt).child = headOr K.roots none) (hrep : Rep h (some pt) none K)
    (hnd : (pt :: K.addrs).Nodup) (hf : 2 * K.size + 2 ≤ f) :
    ∃ h' kk' K', shuffle_tree draw f h kk (some pt) = some (h', kk') ∧
      (h' pt).child = headOr K'.roots none ∧ Rep h' (some pt) none K' ∧ Shuffled K K' ∧
      (∀ x, (h' x).parent = (h x).parent) ∧
      ∀ c ∈ pt :: K.addrs, ∃ l l', Chain h none l none ∧ (h c).child = headOr l none ∧
        Chain h' none l' none ∧ (h' c).child = headOr l' none ∧ l'.Perm l ∧
        ∀ x ∈ l', (h' x).parent = some c := by
  obtain ⟨h', kk', K', e1, e2, e3, e4, e5⟩ :=
    shuffle_tree_shuffles draw hdraw h pt K kk f hchild hrep hnd hf
  refine ⟨h', kk', K', e1, e2, e3, e4, e5, ?_⟩
  intro c hc
  have hptK : pt ∉ K.addrs := (List.nodup_cons.1 hnd).1
  have hndK : K.addrs.Nodup := (List.nodup_cons.1 hnd).2
  rcases List.mem_cons.1 hc with hc | hc
  · subst hc
    have r1 := (Rep_iff K (some c) none).1 hrep
    have r2 := (Rep_iff K' (some c) none).1 e3
    refine ⟨K.roots, K'.roots, r1.1, hchild, r2.1, e2, e4.roots_perm, ?_⟩
    intro x hx
    rw [roots_eq_map] at hx
    obtain ⟨p, hp, rfl⟩ := List.mem_map.1 hx
    exact (r2.2 p hp).1
  · obtain ⟨k0, hk0⟩ := find_of_mem hc
    obtain ⟨k0', q1, q2⟩ := find_shuffled e4 hndK c k0 hk0
    obtain ⟨a1, a2, _⟩ := find_rep hrep hk0
    obtain ⟨b1, b2, b3⟩ := find_rep e3 q1
    exact ⟨k0.roots, k0'.roots, a1, a2, b1, b2, q2, b3⟩

/-- Witness of `shuffle_tree_permutes_children` on `heap_rnd3` with the source
`draw_last`, which always picks the last sibling not placed yet. -/
theorem shuffle_tree_permutes_children_witness :
    ∃ h' kk' K', shuffle_tree draw_last 8 heap_rnd3 0 (some 0) = some (h', kk') ∧
      (h' 0).child = headOr K'.roots none ∧ Rep h' (some 0) none K' ∧
      Shuffled forest_three K' ∧ (∀ x, (h' x).parent = (heap_rnd3 x).parent) ∧
      ∀ c ∈ 0 :: forest_three.addrs, ∃ l l', Chain heap_rnd3 none l none ∧
        (heap_rnd3 c).child = headOr l none ∧
        Chain h' none l' none ∧ (h' c).child = headOr l' none ∧ l'.Perm l ∧
        ∀ x ∈ l', (h' x).parent = some c :=
  shuffle_tree_permutes_children draw_last (fun k c hc => Nat.sub_lt hc Nat.one_pos) heap_rnd3 0
    forest_three 0 8 rfl
    (by simp [Rep, forest_three, heap_rnd3, Forest.roots, headOr]) (by decide) (by decide)

/-! ## Setting the child list -/

/-- The loop that sets `parent` along `next`: on a chain `l` that ends with
`NULL` it returns, sets the field on the members and changes nothing else. -/
theorem set_parent_next_chain (v : Option Ptr) (l : List Ptr) :
    ∀ (fuel : Nat) (h : Heap), NextChain h l none → l.length < fuel →
    ∃ h', set_parent_next v fuel h (headOr l none) = some h' ∧
      (∀ a ∈ l, (h' a).parent = v) ∧ (∀ a, a ∉ l → h' a = h a) ∧
      ∀ a, h' a = { h a with parent := (h' a).parent } := by
  induction l with
  | nil =>
    intro fuel h _ hf
    obtain ⟨f, rfl⟩ : ∃ f, fuel = f + 1 := ⟨fuel - 1, by simp at hf; omega⟩
    exact ⟨h, rfl, by simp, fun _ _ => rfl, fun _ => rfl⟩
  | cons a l ih =>
    intro fuel h hc hf
    obtain ⟨f, rfl⟩ : ∃ f, fuel = f + 1 := ⟨fuel - 1, by simp at hf; omega⟩
    obtain ⟨hn, hc'⟩ := hc
    have hc1 : NextChain (upd h a (fun e => { e with parent := v })) l none := by
      refine NextChain_congr none (fun b _ => ?_) hc'
      by_cases hb : b = a
      · subst hb; simp [upd]
      · simp [upd, hb]
    obtain ⟨h', r1, r2, r3, r4⟩ := ih f _ hc1 (by simp at hf; omega)
    have hnx : (upd h a (fun e => { e with parent := v }) a).next = headOr l none := by
      simp [upd, hn]
    refine ⟨h', ?_, ?_, ?_, ?_⟩
    · simp only [headOr_cons, set_parent_next]
      rw [hnx]
      exact r1
    · intro b hb
      by_cases hbl : b ∈ l
      · exact r2 b hbl
      · have hba : b = a := by
          rcases List.mem_cons.1 hb with h1 | h1
          · exact h1
          · exact absurd h1 hbl
        subst hba
        rw [r3 b hbl]
        simp [upd]
    · intro b hb
      simp only [List.mem_cons, not_or] at hb
      rw [r3 b hb.2]
      simp [upd, hb.1]
    · intro b
      rw [r4 b]
      by_cases hb : b = a
      · subst hb; simp [upd]
      · simp [upd, hb]

/-- Claim C11: for every Container `c` whose children are the chain `lo` and
every member `m` (head or not) of a well-formed sibling chain `ln`,
`play_tree_set_child(c, m)` returns (with enough fuel) and afterwards
`c.child` is the head of `ln`, every member of `ln` (before and after `m`) has
the parent `c`, every former child of `c` that is not in `ln` has the parent
`NULL`, the chain `ln` is linked as before, and the entries outside both
chains other than `c` are unchanged. -/
theorem set_child_adopts_chain (h : Heap) (c m : Ptr) (lo ln : List Ptr) (fuel : Nat)
    (hnode : (h c).entry_type = EntryType.node)
    (hold : NextChain h lo none) (hchild : (h c).child = headOr lo none)
    (hnew : Chain h none ln none) (hm : m ∈ ln)
    (hfo : lo.length < fuel) (hfn : ln.length < fuel) :
    ∃ h', play_tree_set_child fuel h c m = some h' ∧ (h' c).child = headOr ln none ∧
      (∀ a ∈ ln, (h' a).parent = some c) ∧ (∀ a ∈ lo, a ∉ ln → (h' a).parent = none) ∧
      Chain h' none ln none ∧ (∀ a, a ∉ lo → a ∉ ln → a ≠ c → h' a = h a) := by
  -- the old children lose their parent
  obtain ⟨h1, o1, o2, o3, o4⟩ := set_parent_next_chain none lo fuel h hold hfo
  have hlinks1 : ∀ a, (h1 a).prev = (h a).prev ∧ (h1 a).next = (h a).next := by
    intro a; rw [o4 a]; exact ⟨rfl, rfl⟩
  have hc1 : Chain h1 none ln none := Chain_congr none none (fun a _ => hlinks1 a) hnew
  -- the walk back to the head of the new chain
  obtain ⟨l1, l2, rfl⟩ := List.append_of_mem hm
  have hc1' : Chain h1 none (l1 ++ [m]) (headOr l2 none) := by
    have := hc1
    rw [show l1 ++ m :: l2 = (l1 ++ [m]) ++ l2 by simp, Chain_append] at this
    exact this.1
  have hfirst : first_entry h1 fuel m = headOr (l1 ++ m :: l2) none := by
    rw [first_entry_chain hc1' (by simp at hfn; omega), headOr_append]
    rfl
  obtain ⟨hd, hhd⟩ : ∃ hd, headOr (l1 ++ m :: l2) none = some hd := by
    cases l1 <;> simp [headOr]
  -- the new children get their parent
  have hc2 : NextChain (upd h1 c (fun e => { e with child := some hd })) (l1 ++ m :: l2) none := by
    refine NextChain_congr none (fun b _ => ?_) hc1.nextChain
    by_cases hb : b = c
    · subst hb; simp [upd]
    · simp [upd, hb]
  obtain ⟨h3, n1, n2, n3, n4⟩ := set_parent_next_chain (some c) (l1 ++ m :: l2) fuel _ hc2 hfn
  refine ⟨h3, ?_, ?_, n2, ?_, ?_, ?_⟩
  · simp only [play_tree_set_child, hnode, hchild, o1, hfirst, hhd]
    rw [hhd] at n1
    exact n1
  · rw [n4 c, hhd]
    simp [upd]
  · intro a hao han
    rw [n3 a han]
    have := o2 a hao
    by_cases hac : a = c
    · subst hac; simpa [upd] using this
    · simpa [upd, hac] using this
  · refine Chain_congr none none (fun a _ => ?_) hc1
    rw [n4 a]
    by_cases hac : a = c
    · subst hac; simp [upd]
    · simp [upd, hac]
  · intro a hao han hac
    rw [n3 a han]
    simp only [upd, if_neg hac]
    exact o3 a hao

/-- Witness of `set_child_adopts_chain`: the Container 0 of `heap_two_chains`
gives up its children 1 and 2 and takes the chain 3, 4, 5 through its middle
member 4. -/
theorem set_child_adopts_chain_witness :
    ∃ h', play_tree_set_child 4 heap_two_chains 0 4 = some h' ∧ (h' 0).child = headOr [3, 4, 5] none ∧
      (∀ a ∈ [3, 4, 5], (h' a).parent = some 0) ∧
      (∀ a ∈ [1, 2], a ∉ [3, 4, 5] → (h' a).parent = none) ∧
      Chain h' none [3, 4, 5] none ∧
      (∀ a, a ∉ [1, 2] → a ∉ [3, 4, 5] → a ≠ 0 → h' a = heap_two_chains a) :=
  set_child_adopts_chain heap_two_chains 0 4 [1, 2] [3, 4, 5] 4 (by simp [heap_two_chains])
    (by simp [NextChain, heap_two_chains, headOr]) (by simp [heap_two_chains, headOr])
    (by simp [Chain, heap_two_chains, headOr]) (by decide) (by decide) (by decide)

/-! ## Files of the current entry -/

/-- Amended claim C12: for a cursor stopped on a Leaf `t` with the files `fs`,
`n = fs.length ≥ 1`, and the file index `i = iter.file` with `-1 ≤ i`:
when `i ≥ n - 1` (the last file) `play_tree_iter_get_file` returns `NULL` and
leaves the index, whatever `d` is, so there is no wraparound forward; when
`i < n - 1` and `d > 0` it returns the file `i + 1` and sets the index to
`i + 1`; when `i < n - 1`, `d < 0` and `i ≤ 0` it returns the last file and
sets the index to `n - 1` (the wraparound backward, which needs `n ≥ 2` at
`i = 0`); when `0 < i < n - 1` and `d < 0` it returns the file `i - 1`. -/
theorem get_file_stops_at_last (h : Heap) (iter : play_tree_iter) (t : Ptr) (fs : List String)
    (d : Int) (ht : iter.tree = some t) (hc : (h t).child = none) (hf : (h t).files = some fs)
    (hn : iter.num_files = (fs.length : Int)) (hpos : fs ≠ []) (hlo : -1 ≤ iter.file) :
    (iter.file ≥ (fs.length : Int) - 1 → play_tree_iter_get_file h iter d = some (none, iter)) ∧
    (iter.file < (fs.length : Int) - 1 → d > 0 →
      play_tree_iter_get_file h iter d
        = some (fs[(iter.file + 1).toNat]?, { iter with file := iter.file + 1 }) ∧
      (iter.file + 1).toNat < fs.length) ∧
    (iter.file < (fs.length : Int) - 1 → d < 0 → iter.file ≤ 0 →
      play_tree_iter_get_file h iter d
        = some (fs[fs.length - 1]?, { iter with file := (fs.length : Int) - 1 })) ∧
    (iter.file < (fs.length : Int) - 1 → d < 0 → 0 < iter.file →
      play_tree_iter_get_file h iter d
        = some (fs[(iter.file - 1).toNat]?, { iter with file := iter.file - 1 }) ∧
      (iter.file - 1).toNat < fs.length) := by
  have hlen : 0 < fs.length := List.length_pos.2 hpos
  have hnum : iter.num_files > 0 := by rw [hn]; exact_mod_cast hlen
  refine ⟨?_, ?_, ?_, ?_⟩
  · intro hi
    have : iter.file ≥ iter.num_files - 1 := by rw [hn]; exact hi
    simp [play_tree_iter_get_file, ht, hc, hf, hnum, this]
  · intro hi hd
    have h1 : ¬ (iter.file ≥ iter.num_files - 1 ∨ iter.file < -1) := by rw [hn]; omega
    have h1' : ¬ iter.file ≥ iter.num_files - 1 := by rw [hn]; omega
    have h2 : ¬ iter.file + 1 < 0 := by omega
    have h3 : (iter.file + 1).toNat < fs.length := by omega
    refine ⟨?_, h3⟩
    simp only [play_tree_iter_get_file, ht, hc, hf, hnum, if_neg h1, if_pos hd, if_neg h1', h2]
    rw [List.getElem?_eq_getElem h3]
    simp
  · intro hi hd h0
    have h1 : ¬ (iter.file ≥ iter.num_files - 1 ∨ iter.file < -1) := by rw [hn]; omega
    have hd' : ¬ d > 0 := by omega
    have h2 : ¬ iter.num_files - 1 < 0 := by omega
    have h3 : (iter.num_files - 1).toNat = fs.length - 1 := by omega
    have h4 : fs.length - 1 < fs.length := by omega
    simp only [play_tree_iter_get_file, ht, hc, hf, hnum, if_neg h1, if_neg hd', if_pos hd,
      if_pos h0, h2, h3]
    rw [List.getElem?_eq_getElem h4]
    simp [hn]
  · intro hi hd h0
    have h1 : ¬ (iter.file ≥ iter.num_files - 1 ∨ iter.file < -1) := by rw [hn]; omega
    have hd' : ¬ d > 0 := by omega
    have h0' : ¬ iter.file ≤ 0 := by omega
    have h2 : ¬ iter.file - 1 < 0 := by omega
    have h3 : (iter.file - 1).toNat < fs.length := by omega
    refine ⟨?_, h3⟩
    simp only [play_tree_iter_get_file, ht, hc, hf, hnum, if_neg h1, if_neg hd', if_pos hd,
      if_neg h0', h2]
    rw [List.getElem?_eq_getElem h3]
    simp

/-- Witness of `get_file_stops_at_last`: the Leaf of `heap_files2` with the
index at its first file. -/
theorem get_file_stops_at_last_witness :
    ((0 : Int) ≥ (["a", "b"].length : Int) - 1 →
      play_tree_iter_get_file heap_files2 { tree := some 0, file := 0, num_files := 2 } (-1)
        = some (none, { tree := some 0, file := 0, num_files := 2 })) ∧
    ((0 : Int) < (["a", "b"].length : Int) - 1 → (-1 : Int) > 0 →
      play_tree_iter_get_file heap_files2 { tree := some 0, file := 0, num_files := 2 } (-1)
        = some (["a", "b"][((0 : Int) + 1).toNat]?, { tree := some 0, file := 0 + 1, num_files := 2 }) ∧
      ((0 : Int) + 1).toNat < ["a", "b"].length) ∧
    ((0 : Int) < (["a", "b"].length : Int) - 1 → (-1 : Int) < 0 → (0 : Int) ≤ 0 →
      play_tree_iter_get_file heap_files2 { tree := some 0, file := 0, num_files := 2 } (-1)
        = some (["a", "b"][["a", "b"].length - 1]?,
            { tree := some 0, file := (["a", "b"].length : Int) - 1, num_files := 2 })) ∧
    ((0 : Int) < (["a", "b"].length : Int) - 1 → (-1 : Int) < 0 → (0 : Int) < 0 →
      play_tree_iter_get_file heap_files2 { tree := some 0, file := 0, num_files := 2 } (-1)
        = some (["a", "b"][((0 : Int) - 1).toNat]?, { tree := some 0, file := 0 - 1, num_files := 2 }) ∧
      ((0 : Int) - 1).toNat < ["a", "b"].length) :=
  get_file_stops_at_last heap_files2 { tree := some 0, file := 0, num_files := 2 } 0 ["a", "b"] (-1)
    rfl (by simp [heap_files2]) (by simp [heap_files2]) (by simp) (by simp) (by decide)

/-- Counterexample to claim C12: the cursor that the first step leaves on the
Leaf of `heap_files2` gets the file `a`, then the file `b`, and then, with the
index at the last file and `d = 1`, `NULL` with the index unchanged instead
of the first file `a` with the index 0. -/
theorem get_file_no_wrap_forward :
    play_tree_iter_step draw_zero 3 (iter_start heap_files2 0 (iter_fresh 0)) 0 false
        = some (IterResult.entry,
            { heap := heap_files2, iter := cursor_files2, cfg := { pushed := 1 }, rand_calls := 0 }) ∧
      play_tree_iter_get_file heap_files2 cursor_files2 1
        = some (some "a", { cursor_files2 with file := 0 }) ∧
      play_tree_iter_get_file heap_files2 { cursor_files2 with file := 0 } 1
        = some (some "b", { cursor_files2 with file := 1 }) ∧
      play_tree_iter_get_file heap_files2 { cursor_files2 with file := 1 } 1
        = some (none, { cursor_files2 with file := 1 }) := by
  refine ⟨?_, ?_, ?_, ?_⟩
  · simp [play_tree_iter_step, iter_start, iter_fresh, iter_step_candidate, iter_step_begin,
      heap_files2, play_tree_is_valid, iter_step_entry, play_tree_iter_push_params, cursor_files2]
  · simp [play_tree_iter_get_file, heap_files2, cursor_files2]
  · simp [play_tree_iter_get_file, heap_files2, cursor_files2]
  · simp [play_tree_iter_get_file, heap_files2, cursor_files2]

/-! ## Copying parameters -/

/-- The parameters of an entry as a list, `NULL` being the empty list. -/
theorem set_param_params (h : Heap) (pt : Ptr) (name val : String) :
    ((play_tree_set_param h pt name val) pt).params
      = some ((h pt).params.getD [] ++ [(name, val)]) ∧
    (∀ q, q ≠ pt → play_tree_set_param h pt name val q = h q) ∧
    ((play_tree_set_param h pt name val) pt).flags = (h pt).flags := by
  refine ⟨?_, ?_, by simp [play_tree_set_param, upd]⟩
  · cases hp : (h pt).params <;> simp [play_tree_set_param, upd, hp]
  · intro q hq
    simp [play_tree_set_param, upd, hq]

theorem set_params_loop_copies (dest src : Ptr) (ps : List (String × String)) (hds : dest ≠ src)
    (n : Nat) : ∀ (fuel : Nat) (h : Heap) (i : Nat) (old : List (String × String)),
      (h src).params = some ps → (h dest).params = some old ∨ ((h dest).params = none ∧ old = []) →
      i + n = ps.length → n < fuel →
      ∃ h', set_params_loop dest src fuel h i = some h' ∧
        (h' dest).params = (if n = 0 then (h dest).params else some (old ++ ps.drop i)) ∧
        (∀ q, q ≠ dest → h' q = h q) ∧ (h' dest).flags = (h dest).flags := by
  induction n with
  | zero =>
    intro fuel h i old hs _ hi hf
    obtain ⟨f, rfl⟩ : ∃ f, fuel = f + 1 := ⟨fuel - 1, by omega⟩
    have : ps[i]? = none := List.getElem?_eq_none (by omega)
    exact ⟨h, by simp [set_params_loop, hs, this], by simp, fun _ _ => rfl, rfl⟩
  | succ n ih =>
    intro fuel h i old hs hd hi hf
    obtain ⟨f, rfl⟩ : ∃ f, fuel = f + 1 := ⟨fuel - 1, by omega⟩
    have hlt : i < ps.length := by omega
    have hget : ps[i]? = some ps[i] := List.getElem?_eq_getElem hlt
    obtain ⟨e1, e2, e3⟩ := set_param_params h dest ps[i].1 ps[i].2
    have e1' : ((play_tree_set_param h dest ps[i].1 ps[i].2) dest).params = some (old ++ [ps[i]]) := by
      rw [e1]
      rcases hd with hd | ⟨hd, rfl⟩ <;> simp [hd]
    obtain ⟨h', r1, r2, r3, r4⟩ := ih f (play_tree_set_param h dest ps[i].1 ps[i].2) (i + 1)
      (old ++ [ps[i]]) (by rw [e2 src (Ne.symm hds)]; exact hs) (Or.inl e1') (by omega) (by omega)
    refine ⟨h', ?_, ?_, ?_, ?_⟩
    · simp only [set_params_loop, hs, hget]
      exact r1
    · rw [r2, e1']
      simp only [Nat.succ_ne_zero, if_false]
      rw [List.drop_eq_getElem_cons hlt]
      by_cases hn : n = 0
      · have : ps.drop (i + 1) = [] := List.drop_eq_nil_of_le (by omega)
        rw [if_pos hn, this]
      · rw [if_neg hn, List.append_assoc]
        rfl
    · intro q hq
      rw [r3 q hq, e2 q hq]
    · rw [r4, e3]

/-- With parameters on `src` and `dest` another entry, `play_tree_set_params_from`
appends the parameters of `src` to those of `dest` in their order and passes
`PLAY_TREE_RND` on. -/
theorem set_params_from_with_params (h : Heap) (dest src : Ptr) (ps : List (String × String))
    (fuel : Nat) (hds : dest ≠ src) (hs : (h src).params = some ps) (hf : ps.length < fuel) :
    ∃ h', play_tree_set_params_from fuel h dest src = some h' ∧
      (h' dest).params = (if ps = [] then (h dest).params
        else some ((h dest).params.getD [] ++ ps)) ∧
      ((h src).flags.rnd = true → (h' dest).flags.rnd = true) ∧
      (∀ q, q ≠ dest → h' q = h q) := by
  obtain ⟨h1, r1, r2, r3, r4⟩ := set_params_loop_copies dest src ps hds ps.length fuel h 0
    ((h dest).params.getD []) hs
    (by cases hd : (h dest).params <;> simp) (by simp) hf
  have hsrc : (h1 src).flags.rnd = (h src).flags.rnd := by rw [r3 src (Ne.symm hds)]
  have hp : (h1 dest).params = (if ps = [] then (h dest).params
        else some ((h dest).params.getD [] ++ ps)) := by
    rw [r2]; simp
  by_cases hr : (h src).flags.rnd = true
  · refine ⟨upd h1 dest (fun e => { e with flags := { e.flags with rnd := true } }), ?_, ?_, ?_, ?_⟩
    · simp [play_tree_set_params_from, hs, r1, hsrc, hr]
    · simpa [upd] using hp
    · intro _; simp [upd]
    · intro q hq; simp [upd, hq, r3 q hq]
  · refine ⟨h1, ?_, hp, fun hh => absurd hh hr, r3⟩
    simp [play_tree_set_params_from, hs, r1, hsrc, hr]

/-- Claim C13 at the failing input `heap_rnd_src`: the source 0 has no
parameters and has `PLAY_TREE_RND` set, the destination 1 does not have it;
`play_tree_set_params_from(1, 0)` returns at `if(!src->params) return;` with
the heap unchanged, so the destination still does not have `PLAY_TREE_RND`. -/
theorem set_params_from_drops_rnd (fuel : Nat) :
    (heap_rnd_src 0).params = none ∧ (heap_rnd_src 0).flags.rnd = true ∧
    ∃ h', play_tree_set_params_from fuel heap_rnd_src 1 0 = some h' ∧
      (h' 1).flags.rnd = false := by
  refine ⟨by simp [heap_rnd_src], by simp [heap_rnd_src], heap_rnd_src, ?_, by simp [heap_rnd_src]⟩
  simp [play_tree_set_params_from, heap_rnd_src]

/-! ## Removing a file -/

theorem find_last_file_not_mem (p : String) (fs : List String) (n : Nat) (f : Int)
    (hp : p ∉ fs) : find_last_file p fs n f = f := by
  induction fs generalizing n f with
  | nil => rfl
  | cons x xs ih =>
    simp only [List.mem_cons, not_or] at hp
    simp only [find_last_file, if_neg hp.1]
    exact ih _ _ hp.2

theorem find_last_file_split (p : String) (pre post : List String) (n : Nat) (f : Int)
    (hp : p ∉ post) : find_last_file p (pre ++ p :: post) n f = ((n + pre.length : Nat) : Int) := by
  induction pre generalizing n f with
  | nil =>
    simp only [List.nil_append, find_last_file, if_true, List.length_nil, Nat.add_zero]
    exact find_last_file_not_mem p post _ _ hp
  | cons x xs ih =>
    rw [List.cons_append]
    simp only [find_last_file, List.length_cons]
    rw [ih]
    congr 1
    omega

theorem last_occurrence_split (p : String) (fs : List String) (hp : p ∈ fs) :
    ∃ pre post, fs = pre ++ p :: post ∧ p ∉ post := by
  induction fs with
  | nil => simp at hp
  | cons x xs ih =>
    by_cases hx : p ∈ xs
    · obtain ⟨pre, post, e, hn⟩ := ih hx
      exact ⟨x :: pre, post, by simp [e], hn⟩
    · have : p = x := by
        rcases List.mem_cons.1 hp with h1 | h1
        · exact h1
        · exact absurd h1 hx
      subst this
      exact ⟨[], xs, rfl, hx⟩

/-- Claim C14: for every Leaf `pt` (an entry whose type is not node) with the
file list `fs` and every path `p`: if `p` occurs in `fs`,
`play_tree_remove_file` returns 1 and the file list becomes `fs` without the
last occurrence of `p` (`fs = pre ++ p :: post` with `p` not in `post` becomes
`pre ++ post`), and is released (`NULL`) when `fs` had one element; if `p` does
not occur in `fs`, it returns 0 and the heap is unchanged; in both cases the
type of the entry stays what it was, so the entry stays a Leaf, and no other
entry changes. -/
theorem remove_file_last_occurrence (h : Heap) (pt : Ptr) (fs : List String) (p : String)
    (hleaf : (h pt).entry_type ≠ EntryType.node) (hfiles : (h pt).files = some fs) :
    (p ∈ fs → ∃ pre post h', fs = pre ++ p :: post ∧ p ∉ post ∧
        play_tree_remove_file h pt p = some (1, h') ∧
        (h' pt).files = (if fs.length = 1 then none else some (pre ++ post)) ∧
        (h' pt).entry_type = (h pt).entry_type ∧ (h' pt).entry_type ≠ EntryType.node ∧
        ∀ q, q ≠ pt → h' q = h q) ∧
    (p ∉ fs → play_tree_remove_file h pt p = some (0, h)) := by
  constructor
  · intro hp
    obtain ⟨pre, post, e, hn⟩ := last_occurrence_split p fs hp
    have hf : find_last_file p fs 0 (-1) = ((pre.length : Nat) : Int) := by
      rw [e, find_last_file_split p pre post 0 (-1) hn]; simp
    have hlen : fs.length = pre.length + post.length + 1 := by rw [e]; simp; omega
    by_cases h1 : fs.length = 1
    · refine ⟨pre, post, upd h pt (fun e => { e with files := none }), e, hn, ?_, ?_, ?_, ?_, ?_⟩
      · simp [play_tree_remove_file, hleaf, hfiles, hf, h1]
      · simp [upd, h1]
      · simp [upd]
      · simpa [upd] using hleaf
      · intro q hq; simp [upd, hq]
    · refine ⟨pre, post, upd h pt (fun e => { e with files := some (pre ++ post) }), e, hn,
        ?_, ?_, ?_, ?_, ?_⟩
      · have h2 : 1 < fs.length := by omega
        have h3 : fs.eraseIdx pre.length = pre ++ post := by
          rw [e]; simp [List.eraseIdx_append_of_length_le]
        simp [play_tree_remove_file, hleaf, hfiles, hf, h2, h3]
      · simp [upd, h1]
      · simp [upd]
      · simpa [upd] using hleaf
      · intro q hq; simp [upd, hq]
  · intro hp
    have hf : find_last_file p fs 0 (-1) = -1 := find_last_file_not_mem p fs 0 (-1) hp
    simp [play_tree_remove_file, hleaf, hfiles, hf]

/-- Witness of `remove_file_last_occurrence` on `heap_files4` and the path `a`,
which occurs twice. -/
theorem remove_file_last_occurrence_witness :
    ("a" ∈ ["a", "b", "a", "c"] → ∃ pre post h', ["a", "b", "a", "c"] = pre ++ "a" :: post ∧
        "a" ∉ post ∧ play_tree_remove_file heap_files4 0 "a" = some (1, h') ∧
        (h' 0).files = (if ["a", "b", "a", "c"].length = 1 then none else some (pre ++ post)) ∧
        (h' 0).entry_type = (heap_files4 0).entry_type ∧ (h' 0).entry_type ≠ EntryType.node ∧
        ∀ q, q ≠ 0 → h' q = heap_files4 q) ∧
    ("a" ∉ ["a", "b", "a", "c"] → play_tree_remove_file heap_files4 0 "a" = some (0, heap_files4)) :=
  remove_file_last_occurrence heap_files4 0 ["a", "b", "a", "c"] "a" (by simp [heap_files4])
    (by simp [heap_files4])

/-! ## Appending and prepending an entry to itself -/

/-- `play_tree_append_entry(pt, pt)` returns at `if(pt == entry) return;` and
leaves the heap as it is. -/
theorem append_entry_self (fuel : Nat) (h : Heap) (pt : Ptr) :
    play_tree_append_entry fuel h pt pt = some h := by
  simp [play_tree_append_entry]

/-- Prepending the head of a chain to itself: `play_tree_prepend_entry(pt, pt)`
has no test `pt == entry`, so for every head `pt` whose parent, if any, has
`pt` as its child, it returns with `pt->next == pt` and `pt->prev == pt`. -/
theorem prepend_entry_self_head (fuel : Nat) (h : Heap) (pt : Ptr) (hp : (h pt).prev = none)
    (hc : ∀ p, (h pt).parent = some p → (h p).child = some pt) :
    ∃ h', play_tree_prepend_entry (fuel + 1) h pt pt = some h' ∧
      (h' pt).next = some pt ∧ (h' pt).prev = some pt := by
  have h1 : first_entry h (fuel + 1) pt = some pt := by simp [first_entry, hp]
  cases hpar : (h pt).parent with
  | none =>
    refine ⟨_, by simp [play_tree_prepend_entry, h1, upd, hpar]; rfl, ?_⟩
    simp [upd]
  | some p =>
    have hcp := hc p hpar
    by_cases hpp : p = pt
    · subst hpp
      refine ⟨_, by simp [play_tree_prepend_entry, h1, upd, hpar, hcp]; rfl, ?_⟩
      simp [upd]
    · refine ⟨_, by simp [play_tree_prepend_entry, h1, upd, hpar, hcp, hpp]; rfl, ?_⟩
      simp [upd, Ne.symm hpp]

/-- A walk along `next` from an entry that is its own `next` never ends. -/
theorem walk_next_self_loop (h : Heap) (a : Ptr) (hn : (h a).next = some a) (f : Nat) :
    walk_next h f (some a) = none := by
  induction f with
  | zero => rfl
  | succ f ih => simp [walk_next, hn, ih]

/-- Claim C15 at the failing input `heap_chain3`: the entry 1 is the head of
the chain 1, 2, 3 below the Container 0.  `play_tree_append_entry(1, 1)`
leaves the heap as it is, but `play_tree_prepend_entry(1, 1)` changes the
links of the entry: before the call `next` is 2 and `prev` is `NULL`, after
the call `next` and `prev` are the entry itself, so a walk along `next`
from the child of the Container never ends. -/
theorem prepend_entry_self_changes_links :
    play_tree_append_entry 3 heap_chain3 1 1 = some heap_chain3 ∧
    (heap_chain3 1).next = some 2 ∧ (heap_chain3 1).prev = none ∧
    (heap_chain3 0).child = some 1 ∧
    ∃ h', play_tree_prepend_entry 3 heap_chain3 1 1 = some h' ∧
      (h' 1).next = some 1 ∧ (h' 1).prev = some 1 ∧ (h' 0).child = some 1 ∧
      ∀ f, walk_next h' f (h' 0).child = none := by
  refine ⟨by simp [play_tree_append_entry], by simp [heap_chain3], by simp [heap_chain3],
    by simp [heap_chain3], ?_⟩
  refine ⟨_, by simp [play_tree_prepend_entry, first_entry, heap_chain3, upd]; rfl, ?_⟩
  refine ⟨by simp [upd], by simp [upd], by simp [upd], ?_⟩
  intro f
  have hc : ∀ h : Heap, (h 0).child = some 1 → (h 1).next = some 1 →
      walk_next h f (h 0).child = none := by
    intro h hc hn
    rw [hc]
    exact walk_next_self_loop h 1 hn f
  exact hc _ (by simp [upd]) (by simp [upd])

/-! ## A candidate that is not valid -/

/-- On `heap_skip`, a step with `d = 1` from the Leaf 1 finds the candidate 2,
which is not valid, and calls itself with `iter->tree` still on the Leaf 1:
whatever the fuel, it does not return. -/
theorem step_skip_loops (draw : Nat → Nat → Nat) : ∀ (fuel : Nat) (s : State),
    s.heap = heap_skip → s.iter.root = some 0 → s.iter.tree = some 1 →
    play_tree_iter_step draw fuel s 1 false = none := by
  intro fuel
  induction fuel with
  | zero => intro s _ _ _; rfl
  | succ f ih =>
    intro s hh hr ht
    have hb : (iter_step_begin s 1).heap = heap_skip := by
      simp only [iter_step_begin]; split <;> exact hh
    have hbr : (iter_step_begin s 1).iter.root = some 0 := by
      simp only [iter_step_begin]; split <;> exact hr
    have hbt : (iter_step_begin s 1).iter.tree = some 1 := by
      simp only [iter_step_begin]; split <;> exact ht
    have hm : (iter_step_begin s 1).iter.mode = IterMode.normal := by
      by_cases hc : s.iter.config = true ∧ s.iter.entry_pushed > 0 <;>
        simp [iter_step_begin, hc, hh, heap_skip]
    have hc : iter_step_candidate draw f (iter_step_begin s 1) 1 1
        = some (some 2, 1, iter_step_begin s 1) := by
      simp [iter_step_candidate, hm, seek_next, hb, heap_skip]
    simp only [play_tree_iter_step, hr, ht, hc, hb]
    have hch : (heap_skip 2).child = none := by simp [heap_skip]
    simp only [hch]
    cases f with
    | zero => rfl
    | succ f =>
      cases f with
      | zero => simp [play_tree_is_valid, heap_skip, play_tree_is_valid_loop]
      | succ f =>
        have hv : play_tree_is_valid heap_skip (f + 1 + 1) 2 = some false := by
          simp [play_tree_is_valid, heap_skip, play_tree_is_valid_loop]
        simp only [hv]
        simp only [show ((1 : Int) = 0) = False by simp, if_false]
        exact ih _ hb hbr hbt

/-- Claim C16 at the failing input `heap_skip`: the first step of a new cursor
returns Entry on the Leaf 1 and leaves the state `state_skip`; the sibling
after it, the Container 2, has no child and is not valid.  The next step with
`d = 1` does not skip it and end: for every fuel the model runs out of it,
that is, the C function calls itself without end. -/
theorem step_over_invalid_never_returns (draw : Nat → Nat → Nat) :
    play_tree_iter_step draw 5 (iter_start heap_skip 0 (iter_fresh 0)) 0 false
      = some (IterResult.entry, state_skip) ∧
    play_tree_is_valid heap_skip 2 2 = some false ∧
    ∀ fuel, play_tree_iter_step draw fuel state_skip 1 false = none := by
  refine ⟨?_, ?_, fun fuel => step_skip_loops draw fuel state_skip rfl rfl rfl⟩
  · simp [play_tree_iter_step, iter_start, iter_fresh, iter_step_candidate, iter_step_begin,
      heap_skip, play_tree_is_valid, play_tree_is_valid_loop, iter_step_entry,
      play_tree_iter_push_params, play_tree_iter_down_step, wrap_int, state_skip]
  · simp [play_tree_is_valid, heap_skip, play_tree_is_valid_loop]

/-! ## A step as a sequence of passes -/

theorem up_step_resume (step : State → Int → Bool → Option (IterResult × State)) (s : State)
    (d : Int) (w : Bool) :
    play_tree_iter_up_step step s d w = resume step w (iter_up_once s d) := by
  unfold play_tree_iter_up_step iter_up_once
  cases s.iter.tree with
  | none => rfl
  | some tree =>
    cases s.iter.root with
    | none => rfl
    | some root =>
      dsimp only
      split_ifs <;>
        first
        | rfl
        | (cases (s.heap tree).parent <;> first | rfl | (cases s.iter.status_stack <;> rfl))

theorem down_step_resume (step : State → Int → Bool → Option (IterResult × State)) (fuel : Nat)
    (s : State) (d : Int) (w : Bool) :
    play_tree_iter_down_step step fuel s d w = resume step w (iter_down_once fuel s d) := by
  unfold play_tree_iter_down_step iter_down_once
  cases s.iter.tree with
  | none => rfl
  | some tree =>
    dsimp only
    cases (s.heap tree).child with
    | none => rfl
    | some child =>
      dsimp only
      split_ifs
      · rfl
      · generalize play_tree_iter_push_params _ = pp
        cases pp
        · rfl
        · rfl
      · generalize play_tree_iter_push_params _ = pp
        cases pp
        · rfl
        · dsimp only
          generalize last_entry _ fuel child = le
          cases le <;> rfl
      · rfl
      · dsimp only
        generalize last_entry _ fuel child = le
        cases le <;> rfl

theorem step_resume (draw : Nat → Nat → Nat) (fuel : Nat) (s : State) (d : Int) (w : Bool) :
    play_tree_iter_step draw (fuel + 1) s d w
      = resume (play_tree_iter_step draw fuel) w (iter_step_once draw fuel s d w) := by
  rw [play_tree_iter_step]
  unfold iter_step_once
  simp only [up_step_resume, down_step_resume]
  cases s.iter.root with
  | none => rfl
  | some root =>
    cases s.iter.tree with
    | none => rfl
    | some tree =>
      dsimp only
      generalize iter_step_candidate draw fuel (iter_step_begin s tree) tree d = cand
      rcases cand with _ | ⟨_ | pt, d1, s1⟩
      · rfl
      · dsimp only
        by_cases hm : s1.iter.mode = IterMode.rnd
        · simp only [if_pos hm]
          by_cases hl : (s1.heap root).loop = 0
          · simp only [if_pos hl]; rfl
          · simp only [if_neg hl]
            generalize play_tree_unset_flag PLAY_TREE_RND_PLAYED fuel s1.heap root (-1) = uf
            cases uf <;> rfl
        · simp only [if_neg hm]
          generalize (s1.heap tree).parent = par
          cases par with
          | none => rfl
          | some par =>
            dsimp only
            generalize first_entry s1.heap fuel tree = fe
            generalize last_entry s1.heap fuel tree = le
            split_ifs <;> first | rfl | (cases fe <;> rfl) | (cases le <;> rfl)
      · dsimp only
        have key : ∀ hv : Option Bool,
            (match hv with
              | none => none
              | some true =>
                if w = true then
                  some (IterResult.node, { s1 with iter := { s1.iter with tree := some pt } })
                else
                  resume (play_tree_iter_step draw fuel) w
                    (iter_down_once fuel { s1 with iter := { s1.iter with tree := some pt } } d1)
              | some false =>
                match play_tree_is_valid s1.heap fuel pt with
                | none => none
                | some false =>
                  if d1 = 0 then some (IterResult.error, s1)
                  else play_tree_iter_step draw fuel s1 d1 w
                | some true => iter_step_entry s1 pt)
            = resume (play_tree_iter_step draw fuel) w
              (match hv with
              | none => none
              | some true =>
                if w = true then
                  some (Sum.inl (IterResult.node, { s1 with iter := { s1.iter with tree := some pt } }))
                else iter_down_once fuel { s1 with iter := { s1.iter with tree := some pt } } d1
              | some false =>
                match play_tree_is_valid s1.heap fuel pt with
                | none => none
                | some false =>
                  if d1 = 0 then some (Sum.inl (IterResult.error, s1))
                  else some (Sum.inr (s1, d1))
                | some true =>
                  match iter_step_entry s1 pt with
                  | none => none
                  | some r => some (Sum.inl r)) := by
          intro hv
          rcases hv with _ | _ | _
          · rfl
          · dsimp only
            generalize play_tree_is_valid s1.heap fuel pt = v
            rcases v with _ | _ | _
            · rfl
            · dsimp only
              split_ifs <;> rfl
            · dsimp only
              generalize iter_step_entry s1 pt = e
              cases e <;> rfl
          · dsimp only
            split_ifs <;> rfl
        cases (s1.heap pt).child with
        | none => exact key (some false)
        | some c => exact key (play_tree_is_valid s1.heap fuel c)

/-! ## Invariants of a step -/

/-- What holds of every state before a step and is kept by every pass holds
of the state in which the step returns. -/
theorem step_induct (draw : Nat → Nat → Nat) (I : State → Prop) (J : IterResult → State → Prop)
    (hI : ∀ fuel s d w s2 d2, I s → iter_step_once draw fuel s d w = some (Sum.inr (s2, d2)) → I s2)
    (hJ : ∀ fuel s d w r s', I s → iter_step_once draw fuel s d w = some (Sum.inl (r, s')) → J r s') :
    ∀ fuel s d w r s', I s → play_tree_iter_step draw fuel s d w = some (r, s') → J r s' := by
  intro fuel
  induction fuel with
  | zero => intro s d w r s' _ h; simp [play_tree_iter_step] at h
  | succ f ih =>
    intro s d w r s' hs h
    rw [step_resume] at h
    cases ho : iter_step_once draw f s d w with
    | none => rw [ho] at h; simp [resume] at h
    | some out =>
      rw [ho] at h
      rcases out with ⟨r1, s1⟩ | ⟨s2, d2⟩
      · simp only [resume, Option.some.injEq, Prod.mk.injEq] at h
        obtain ⟨rfl, rfl⟩ := h
        exact hJ f s d w _ _ hs ho
      · simp only [resume] at h
        exact ih s2 d2 w r s' (hI f s d w s2 d2 hs ho) h

theorem begin_fields (s : State) (t : Ptr) :
    (iter_step_begin s t).heap = s.heap ∧ (iter_step_begin s t).iter.root = s.iter.root ∧
    (iter_step_begin s t).iter.tree = s.iter.tree ∧
    (iter_step_begin s t).iter.config = s.iter.config ∧
    (iter_step_begin s t).iter.status_stack = s.iter.status_stack ∧
    (iter_step_begin s t).cfg.pushed = s.cfg.pushed := by
  by_cases hc : s.iter.config = true ∧ s.iter.entry_pushed > 0 <;> simp [iter_step_begin, hc]

theorem begin_scopes (s : State) (t : Ptr) :
    (s.iter.config = true →
      ¬ (iter_step_begin s t).iter.entry_pushed > 0 ∧
      (iter_step_begin s t).cfg.popped
        = s.cfg.popped + (if s.iter.entry_pushed > 0 then 1 else 0)) ∧
    (s.iter.config = false → (iter_step_begin s t).cfg = s.cfg) := by
  by_cases hc : s.iter.config = true ∧ s.iter.entry_pushed > 0
  · simp [iter_step_begin, hc]
  · constructor
    · intro h1
      have h2 : ¬ s.iter.entry_pushed > 0 := fun hh => hc ⟨h1, hh⟩
      simp only [iter_step_begin, if_neg hc, if_neg h2]
      exact ⟨h2, rfl⟩
    · intro _
      simp [iter_step_begin, hc]

theorem seek_next_parent {h : Heap} (hs : SiblingsShareParent h) (n : Nat) :
    ∀ (t p : Ptr), (seek_next h n (some t)).2 = some p → (h p).parent = (h t).parent := by
  induction n with
  | zero => intro t p hp; simp [seek_next] at hp; rw [hp]
  | succ n ih =>
    intro t p hp
    simp only [seek_next] at hp
    cases hn : (h t).next with
    | none =>
      rw [hn] at hp
      cases n <;> simp [seek_next] at hp
    | some q =>
      rw [hn] at hp
      rw [ih q p hp]
      exact hs t q (Or.inl hn)

theorem seek_prev_parent {h : Heap} (hs : SiblingsShareParent h) (n : Nat) :
    ∀ (t p : Ptr), (seek_prev h n (some t)).2 = some p → (h p).parent = (h t).parent := by
  induction n with
  | zero => intro t p hp; simp [seek_prev] at hp; rw [hp]
  | succ n ih =>
    intro t p hp
    simp only [seek_prev] at hp
    cases hn : (h t).prev with
    | none =>
      rw [hn] at hp
      cases n <;> simp [seek_prev] at hp
    | some q =>
      rw [hn] at hp
      rw [ih q p hp]
      exact hs t q (Or.inr hn)

theorem first_entry_parent {h : Heap} (hs : SiblingsShareParent h) (fuel : Nat) :
    ∀ (t p : Ptr), first_entry h fuel t = some p → (h p).parent = (h t).parent := by
  induction fuel with
  | zero => intro t p hp; simp [first_entry] at hp
  | succ n ih =>
    intro t p hp
    simp only [first_entry] at hp
    cases hn : (h t).prev with
    | none => rw [hn] at hp; simp at hp; rw [hp]
    | some q =>
      rw [hn] at hp
      rw [ih q p hp]
      exact hs t q (Or.inr hn)

theorem last_entry_parent {h : Heap} (hs : SiblingsShareParent h) (fuel : Nat) :
    ∀ (t p : Ptr), last_entry h fuel t = some p → (h p).parent = (h t).parent := by
  induction fuel with
  | zero => intro t p hp; simp [last_entry] at hp
  | succ n ih =>
    intro t p hp
    simp only [last_entry] at hp
    cases hn : (h t).next with
    | none => rw [hn] at hp; simp at hp; rw [hp]
    | some q =>
      rw [hn] at hp
      rw [ih q p hp]
      exact hs t q (Or.inl hn)

theorem rnd_count_prev_parent {h : Heap} (hs : SiblingsShareParent h) (fuel : Nat) :
    ∀ (t : Ptr) (c : Nat) (hd : Ptr) (c' : Nat), rnd_count_prev h fuel t c = some (hd, c') →
      (h hd).parent = (h t).parent := by
  induction fuel with
  | zero => intro t c hd c' hp; simp [rnd_count_prev] at hp
  | succ n ih =>
    intro t c hd c' hp
    simp only [rnd_count_prev] at hp
    cases hn : (h t).prev with
    | none => rw [hn] at hp; simp at hp; rw [hp.1]
    | some q =>
      rw [hn] at hp
      rw [ih q _ hd c' hp]
      exact hs t q (Or.inr hn)

theorem rnd_pick_parent {h : Heap} (hs : SiblingsShareParent h) (fuel : Nat) :
    ∀ (t : Ptr) (r : Int) (p : Ptr), rnd_pick h fuel (some t) r = some (some p) →
      (h p).parent = (h t).parent := by
  induction fuel with
  | zero => intro t r p hp; simp [rnd_pick] at hp
  | succ n ih =>
    intro t r p hp
    simp only [rnd_pick] at hp
    by_cases hlt : (if (h t).flags.rnd_played = true then r else r - 1) < 0
    · rw [if_pos hlt] at hp
      simp at hp; rw [hp]
    · rw [if_neg hlt] at hp
      cases hn : (h t).next with
      | none =>
        rw [hn] at hp
        cases n <;> simp [rnd_pick] at hp
      | some q =>
        rw [hn] at hp
        rw [ih q _ p hp]
        exact hs t q (Or.inl hn)

theorem rnd_step_parent {h : Heap} (hs : SiblingsShareParent h) (draw : Nat → Nat → Nat)
    (fuel k k' : Nat) (t p : Ptr) (hp : play_tree_rnd_step draw fuel h k t = some (some p, k')) :
    (h p).parent = (h t).parent := by
  simp only [play_tree_rnd_step] at hp
  cases h1 : rnd_count_prev h fuel t 0 with
  | none => rw [h1] at hp; simp at hp
  | some hc =>
    obtain ⟨hd, c1⟩ := hc
    rw [h1] at hp
    dsimp only at hp
    cases h2 : rnd_count_next h fuel (h t).next (if (h hd).flags.rnd_played then c1 else c1 + 1) with
    | none => rw [h2] at hp; simp at hp
    | some count =>
      rw [h2] at hp
      dsimp only at hp
      split_ifs at hp with h3
      · simp at hp
      · cases h4 : rnd_pick h fuel (some hd) (draw k count) with
        | none => rw [h4] at hp; simp at hp
        | some res =>
          rw [h4] at hp
          simp at hp
          rw [hp.1] at h4
          rw [rnd_pick_parent hs fuel hd _ p h4]
          exact rnd_count_prev_parent hs fuel t 0 hd c1 h1

/-- The candidate of a step is a sibling of the current entry, and choosing it
changes nothing of the state but the number of calls of `rand()`. -/
theorem candidate_fields {draw : Nat → Nat → Nat} {fuel : Nat} {s s1 : State} {t : Ptr}
    {d d1 : Int} {pt : Option Ptr}
    (hc : iter_step_candidate draw fuel s t d = some (pt, d1, s1)) :
    s1.heap = s.heap ∧ s1.iter = s.iter ∧ s1.cfg = s.cfg ∧
    (SiblingsShareParent s.heap → ∀ p, pt = some p → (s.heap p).parent = (s.heap t).parent) := by
  simp only [iter_step_candidate] at hc
  by_cases h1 : s.iter.mode = IterMode.rnd
  · rw [if_pos h1] at hc
    cases hr : play_tree_rnd_step draw fuel s.heap s.rand_calls t with
    | none => rw [hr] at hc; simp at hc
    | some res =>
      obtain ⟨q, k⟩ := res
      rw [hr] at hc
      simp only [Option.some.injEq, Prod.mk.injEq] at hc
      obtain ⟨rfl, _, rfl⟩ := hc
      refine ⟨rfl, rfl, rfl, ?_⟩
      intro hs p hp
      subst hp
      exact rnd_step_parent hs draw fuel _ _ t p hr
  · rw [if_neg h1] at hc
    by_cases h2 : d > 0
    · rw [if_pos h2] at hc
      simp only [Option.some.injEq, Prod.mk.injEq] at hc
      obtain ⟨rfl, _, rfl⟩ := hc
      exact ⟨rfl, rfl, rfl, fun hs p hp => seek_next_parent hs _ t p hp⟩
    · rw [if_neg h2] at hc
      by_cases h3 : d < 0
      · rw [if_pos h3] at hc
        simp only [Option.some.injEq, Prod.mk.injEq] at hc
        obtain ⟨rfl, _, rfl⟩ := hc
        exact ⟨rfl, rfl, rfl, fun hs p hp => seek_prev_parent hs _ t p hp⟩
      · rw [if_neg h3] at hc
        simp only [Option.some.injEq, Prod.mk.injEq] at hc
        obtain ⟨rfl, _, rfl⟩ := hc
        refine ⟨rfl, rfl, rfl, fun _ p hp => ?_⟩
        simp at hp
        rw [hp]

/-! ## The cursor invariant -/

theorem sameLinks_rfl (h : Heap) : SameLinks h h := fun _ => ⟨rfl, rfl, rfl, rfl⟩

theorem sameLinks_trans2 {h1 h2 h3 : Heap} (a : SameLinks h1 h2) (b : SameLinks h2 h3) :
    SameLinks h1 h3 := fun x => by
  obtain ⟨a1, a2, a3, a4⟩ := a x
  obtain ⟨b1, b2, b3, b4⟩ := b x
  exact ⟨b1.trans a1, b2.trans a2, b3.trans a3, b4.trans a4⟩

theorem sameLinks_upd_flags (h : Heap) (p : Ptr) (f : Flags → Flags) :
    SameLinks h (upd h p (fun e => { e with flags := f e.flags })) := fun x => by
  by_cases hx : x = p
  · subst hx; simp [upd]
  · simp [upd, hx]

theorem sameLinks_upd_loop (h : Heap) (p : Ptr) (f : Int → Int) :
    SameLinks h (upd h p (fun e => { e with loop := f e.loop })) := fun x => by
  by_cases hx : x = p
  · subst hx; simp [upd]
  · simp [upd, hx]

theorem unset_flag_links (fl : Flags) (fuel : Nat) :
    (∀ (h : Heap) (pt : Ptr) (deep : Int) (h' : Heap),
      play_tree_unset_flag fl fuel h pt deep = some h' → SameLinks h h') ∧
    (∀ (h : Heap) (i : Option Ptr) (deep : Int) (h' : Heap),
      play_tree_unset_flag_loop fl fuel h i deep = some h' → SameLinks h h') := by
  induction fuel with
  | zero =>
    constructor
    · intro h pt deep h' hh; simp [play_tree_unset_flag] at hh
    · intro h i deep h' hh; simp [play_tree_unset_flag_loop] at hh
  | succ f ih =>
    constructor
    · intro h pt deep h' hh
      simp only [play_tree_unset_flag] at hh
      have hl := sameLinks_upd_flags h pt (fun g => g.clear fl)
      split_ifs at hh with h1
      · exact sameLinks_trans2 hl (ih.2 _ _ _ _ hh)
      · exact sameLinks_trans2 hl (ih.2 _ _ _ _ hh)
      · simp only [Option.some.injEq] at hh
        rw [← hh]; exact hl
    · intro h i deep h' hh
      cases i with
      | none =>
        simp only [play_tree_unset_flag_loop, Option.some.injEq] at hh
        rw [← hh]; exact sameLinks_rfl h
      | some i =>
        simp only [play_tree_unset_flag_loop] at hh
        cases h1 : play_tree_unset_flag fl f h i deep with
        | none => rw [h1] at hh; simp at hh
        | some hm =>
          rw [h1] at hh
          exact sameLinks_trans2 (ih.1 _ _ _ _ h1) (ih.2 _ _ _ _ hh)

theorem depth_congr {h : Heap} {rp : Option Ptr} {n : Nat} {a b : Ptr}
    (hp : (h b).parent = (h a).parent) (hd : Depth h rp n a) : Depth h rp n b := by
  cases n with
  | zero => simp only [Depth] at hd ⊢; rw [hp]; exact hd
  | succ n => simp only [Depth] at hd ⊢; rw [hp]; exact hd

/-- What `play_tree_iter_push_params` changes: it opens one scope, and sets
`entry_pushed` only on an entry that has parameters and no child. -/
theorem push_params_fields {s s3 : State} (hp : play_tree_iter_push_params s = some s3) :
    s3.heap = s.heap ∧ s3.iter.root = s.iter.root ∧ s3.iter.tree = s.iter.tree ∧
    s3.iter.config = s.iter.config ∧ s3.iter.status_stack = s.iter.status_stack ∧
    s3.iter.loop = s.iter.loop ∧ s3.iter.mode = s.iter.mode ∧
    s3.cfg.pushed = s.cfg.pushed + 1 ∧ s3.cfg.popped = s.cfg.popped ∧
    (s3.iter.entry_pushed = s.iter.entry_pushed ∨
      (s3.iter.entry_pushed = 1 ∧ ∃ t, s.iter.tree = some t ∧ (s.heap t).child = none)) := by
  simp only [play_tree_iter_push_params] at hp
  split_ifs at hp with h1
  cases ht : s.iter.tree with
  | none => rw [ht] at hp; simp at hp
  | some t =>
    rw [ht] at hp
    dsimp only at hp
    cases hps : (s.heap t).params with
    | none =>
      rw [hps] at hp
      simp only [Option.some.injEq] at hp
      subst hp
      simp [ht]
    | some ps =>
      rw [hps] at hp
      dsimp only at hp
      split_ifs at hp with h2
      · simp only [Option.some.injEq] at hp
        subst hp
        simp [ht, h2]
      · simp only [Option.some.injEq] at hp
        subst hp
        simp [ht]

/-- What the end of a step on a valid entry changes: the cursor stands on
the entry, and with a configuration handle one scope is opened and
`entry_pushed` is set. -/
theorem step_entry_fields {s s' : State} {pt : Ptr} {r : IterResult}
    (he : iter_step_entry s pt = some (r, s')) :
    r = IterResult.entry ∧ SameLinks s.heap s'.heap ∧ s'.iter.root = s.iter.root ∧
    s'.iter.tree = some pt ∧ s'.iter.config = s.iter.config ∧
    s'.iter.status_stack = s.iter.status_stack ∧ s'.iter.mode = s.iter.mode ∧
    (s.iter.config = true → s'.cfg.pushed = s.cfg.pushed + 1 ∧ s'.cfg.popped = s.cfg.popped ∧
      s'.iter.entry_pushed = 1) ∧
    (s.iter.config = false → s'.cfg = s.cfg) := by
  simp only [iter_step_entry] at he
  cases hf : (s.heap pt).files with
  | none => rw [hf] at he; simp at he
  | some fs =>
    rw [hf] at he
    dsimp only at he
    by_cases hc : s.iter.config = true
    · rw [if_pos hc] at he
      cases hp : play_tree_iter_push_params
          { s with iter := { s.iter with tree := some pt, num_files := (fs.length : Int) } } with
      | none => rw [hp] at he; simp at he
      | some s3 =>
        rw [hp] at he
        obtain ⟨p1, p2, p3, p4, p5, p6, p7, p8, p9, _⟩ := push_params_fields hp
        dsimp only at he p1 p2 p3 p4 p5 p6 p7 p8 p9
        split_ifs at he with hm
        · simp only [Option.some.injEq, Prod.mk.injEq] at he
          obtain ⟨rfl, rfl⟩ := he
          refine ⟨rfl, ?_, p2, p3, p4, p5, p7, fun _ => ⟨p8, p9, rfl⟩, fun hh => ?_⟩
          · dsimp only
            rw [p1]
            exact sameLinks_upd_flags s.heap pt (fun g => { g with rnd_played := true })
          · rw [hc] at hh; cases hh
        · simp only [Option.some.injEq, Prod.mk.injEq] at he
          obtain ⟨rfl, rfl⟩ := he
          refine ⟨rfl, ?_, p2, p3, p4, p5, p7, fun _ => ⟨p8, p9, rfl⟩, fun hh => ?_⟩
          · dsimp only
            rw [p1]
            exact sameLinks_rfl _
          · rw [hc] at hh; cases hh
    · rw [if_neg hc] at he
      simp only [Option.some.injEq, Prod.mk.injEq] at he
      obtain ⟨rfl, rfl⟩ := he
      exact ⟨rfl, sameLinks_rfl _, rfl, rfl, rfl, rfl, rfl, fun hh => absurd hh hc, fun _ => rfl⟩

/-! ## The cursor invariant is kept by every pass -/

theorem sibs_of_links {h0 h : Heap} (hl : SameLinks h0 h) (hs : SiblingsShareParent h0) :
    SiblingsShareParent h := by
  intro a b hab
  rw [(hl b).1, (hl a).1]
  apply hs a b
  rw [← (hl a).2.1, ← (hl a).2.2.1]
  exact hab

/-- After the start of a step and the choice of the candidate the invariant
holds with `entry_pushed` not set, the cursor has not moved, and the
candidate has the parent of the current entry. -/
theorem begin_inv {draw : Nat → Nat → Nat} {fuel : Nat} {h0 : Heap} {r t : Ptr} {s s1 : State}
    {d d1 : Int} {pt : Option Ptr} (hs : SiblingsShareParent h0) (hI : CursorInv h0 r s)
    (ht : s.iter.tree = some t)
    (hc : iter_step_candidate draw fuel (iter_step_begin s t) t d = some (pt, d1, s1)) :
    CursorInv h0 r s1 ∧ ¬ s1.iter.entry_pushed > 0 ∧ s1.iter.tree = some t ∧
    ∀ p, pt = some p → (h0 p).parent = (h0 t).parent := by
  obtain ⟨c1, c2, c3, c4⟩ := candidate_fields hc
  obtain ⟨b1, b2, b3, b4, b5, b6⟩ := begin_fields s t
  obtain ⟨b7, b8⟩ := (begin_scopes s t).1 hI.config
  have hl : SameLinks h0 s1.heap := by rw [c1, b1]; exact hI.links
  refine ⟨⟨hl, ?_, ?_, ?_, ?_, ?_⟩, ?_, ?_, ?_⟩
  · rw [c2, b2]; exact hI.root
  · rw [c2, b4]; exact hI.config
  · intro t'; rw [c2, b3, b5]; exact hI.depth t'
  · rw [c2, b3, b5]; exact hI.fresh
  · rw [c2, c3, b5, b6, b8, if_neg b7, hI.scopes]; omega
  · rw [c2]; exact b7
  · rw [c2, b3]; exact ht
  · intro p hp
    have := c4 (by rw [b1]; exact sibs_of_links hI.links hs) p hp
    rw [b1, (hI.links p).1, (hI.links t).1] at this
    exact this

theorem depth_zero_of_parent {h : Heap} {rp : Option Ptr} {n : Nat} {t : Ptr}
    (hd : Depth h rp n t) (hp : (h t).parent = rp) : n = 0 := by
  cases n with
  | zero => rfl
  | succ n => exact absurd hp hd.1

/-- The invariant is kept by `play_tree_iter_up_step`, and when it returns
End the loop stack is empty and no scope is open. -/
theorem up_once_inv {h0 : Heap} {r : Ptr} {s : State} {d : Int} {out : Pass}
    (hI : CursorInv h0 r s) (hep : ¬ s.iter.entry_pushed > 0)
    (ho : iter_up_once s d = some out) :
    CursorInv h0 r out.state ∧
    ∀ res s', out = Sum.inl (res, s') →
      s'.iter.status_stack = [] ∧ s'.cfg.pushed = s'.cfg.popped ∧ s'.iter.tree ≠ none := by
  have hroot := hI.root
  have hconf := hI.config
  unfold iter_up_once at ho
  cases ht : s.iter.tree with
  | none => rw [ht] at ho; simp at ho
  | some t =>
    have hd := hI.depth t ht
    have hsc := hI.scopes
    rw [if_neg hep] at hsc
    simp only [ht, hroot] at ho
    by_cases hend : (s.heap t).parent = (s.heap r).parent
    · rw [if_pos hend] at ho
      simp only [Option.some.injEq] at ho
      subst ho
      rw [(hI.links t).1, (hI.links r).1] at hend
      have h0' := depth_zero_of_parent hd hend
      refine ⟨⟨hI.links, rfl, hI.config, ?_, ?_, ?_⟩, ?_⟩
      · intro t' ht'
        simp only [Pass.state, Option.some.injEq] at ht'
        subst ht'
        exact hd
      · intro hh; simp [Pass.state] at hh
      · exact hI.scopes
      · intro res s' he
        simp only [Sum.inl.injEq, Prod.mk.injEq] at he
        obtain ⟨_, rfl⟩ := he
        dsimp only
        refine ⟨List.length_eq_zero.1 h0', ?_, by simp⟩
        rw [hsc, h0']; rfl
    · rw [if_neg hend] at ho
      cases hpar : (s.heap t).parent with
      | none => rw [hpar] at ho; simp at ho
      | some par =>
        cases hst : s.iter.status_stack with
        | nil => rw [hpar, hst] at ho; simp at ho
        | cons top rest =>
          rw [hpar, hst] at ho
          simp only [hconf, if_true, Option.some.injEq] at ho
          rw [hst] at hd hsc
          rw [(hI.links t).1] at hpar
          have hd' : Depth h0 (h0 r).parent rest.length par := by
            obtain ⟨_, p, hp, hdp⟩ := hd
            rw [hpar] at hp
            cases hp
            exact hdp
          simp only [List.length_cons] at hsc
          subst ho
          constructor
          · by_cases hm : s.iter.mode = IterMode.rnd
            · simp only [if_pos hm, Pass.state]
              refine ⟨sameLinks_trans2 hI.links (sameLinks_upd_flags _ _
                (fun g => { g with rnd_played := true })), rfl, rfl, ?_, ?_, ?_⟩
              · intro t' ht'
                simp only [Option.some.injEq] at ht'
                subst ht'
                exact hd'
              · intro hh; simp at hh
              · dsimp only
                rw [if_neg hep, hsc]; omega
            · simp only [if_neg hm, Pass.state]
              refine ⟨hI.links, rfl, rfl, ?_, ?_, ?_⟩
              · intro t' ht'
                simp only [Option.some.injEq] at ht'
                subst ht'
                exact hd'
              · intro hh; simp at hh
              · dsimp only
                rw [if_neg hep, hsc]; omega
          · intro res s' he
            simp at he

/-- The invariant is kept by `play_tree_iter_down_step`. -/
theorem down_once_inv {h0 : Heap} {r p : Ptr} {s : State} {d : Int} {fuel : Nat} {out : Pass}
    (hs : SiblingsShareParent h0)
    (hacyc : ∀ n t, Depth h0 (h0 r).parent n t → (h0 r).parent ≠ some t)
    (hI : CursorInv h0 r s) (hep : ¬ s.iter.entry_pushed > 0) (ht : s.iter.tree = some p)
    (ho : iter_down_once fuel s d = some out) :
    CursorInv h0 r out.state ∧ ∀ res s', out ≠ Sum.inl (res, s') := by
  have hroot := hI.root
  have hconf := hI.config
  unfold iter_down_once at ho
  rw [ht] at ho
  dsimp only at ho
  cases hch : (s.heap p).child with
  | none => rw [hch] at ho; simp at ho
  | some c =>
    rw [hch] at ho
    dsimp only at ho
    by_cases hg : (s.heap p).files ≠ none ∨ (s.heap c).parent ≠ some p
    · rw [if_pos hg] at ho; simp at ho
    · rw [if_neg hg, if_pos hconf] at ho
      have hcp : (s.heap c).parent = some p := by
        by_contra hh; exact hg (Or.inr hh)
      generalize hpp : play_tree_iter_push_params _ = pp at ho
      cases pp with
      | none => simp at ho
      | some s3 =>
        dsimp only at ho
        obtain ⟨p1, p2, p3, p4, p5, p6, p7, p8, p9, p10⟩ := push_params_fields hpp
        dsimp only at p1 p2 p3 p4 p5 p6 p7 p8 p9 p10
        have hep3 : s3.iter.entry_pushed = s.iter.entry_pushed := by
          rcases p10 with h1 | ⟨_, t, h1, h2⟩
          · exact h1
          · rw [ht] at h1
            cases h1
            rw [hch] at h2
            cases h2
        have hdp := hI.depth p ht
        have hsc := hI.scopes
        rw [if_neg hep] at hsc
        have hdc : Depth h0 (h0 r).parent (s.iter.status_stack.length + 1) c := by
          rw [(hI.links c).1] at hcp
          refine ⟨?_, p, hcp, hdp⟩
          rw [hcp]
          exact Ne.symm (hacyc _ _ hdp)
        have hl3 : SameLinks h0 s3.heap := by rw [p1]; exact hI.links
        have key : ∀ q, (h0 q).parent = (h0 c).parent →
            CursorInv h0 r
              { s3 with iter := { s3.iter with
                  status_stack := s3.iter.loop :: s3.iter.status_stack,
                  loop := wrap_int ((s3.heap p).loop - 1), tree := some q } } := by
          intro q hq
          refine ⟨hl3, by rw [← hI.root]; exact p2, by rw [← hI.config]; exact p4, ?_, ?_, ?_⟩
          · intro t' ht'
            simp only [Option.some.injEq] at ht'
            subst ht'
            simp only [List.length_cons, p5]
            exact depth_congr hq hdc
          · intro hh; simp at hh
          · simp only [List.length_cons, p5, p8, p9, hep3, if_neg hep, hsc]
            omega
        by_cases hd0 : d ≥ 0
        · rw [if_pos hd0] at ho
          simp only [Option.some.injEq] at ho
          subst ho
          refine ⟨?_, fun res s' hh => by simp at hh⟩
          have := key c rfl
          simp only [Pass.state]
          rw [p1, hch]
          rw [p1] at this
          exact this
        · rw [if_neg hd0] at ho
          cases hle : last_entry s3.heap fuel c with
          | none => rw [hle] at ho; simp at ho
          | some q =>
            rw [hle] at ho
            simp only [Option.some.injEq] at ho
            subst ho
            refine ⟨?_, fun res s' hh => by simp at hh⟩
            have hq := last_entry_parent (sibs_of_links hl3 hs) fuel c q hle
            rw [(hl3 q).1, (hl3 c).1] at hq
            exact key q hq

/-! ## The cursor invariant is kept by every step -/

/-- Every pass of a step keeps the invariant, a pass that returns leaves the
cursor on an entry, and a pass that returns End in normal mode leaves the
loop stack empty and no scope open. -/
theorem step_once_inv {draw : Nat → Nat → Nat} {fuel : Nat} {h0 : Heap} {r : Ptr} {s : State}
    {d : Int} {w : Bool} {out : Pass} (hs : SiblingsShareParent h0)
    (hacyc : ∀ n t, Depth h0 (h0 r).parent n t → (h0 r).parent ≠ some t)
    (hI : CursorInv h0 r s) (ho : iter_step_once draw fuel s d w = some out) :
    CursorInv h0 r out.state ∧
    (∀ s', out = Sum.inl (IterResult.end_, s') → s'.iter.mode ≠ IterMode.rnd →
      s'.iter.status_stack = [] ∧ s'.cfg.pushed = s'.cfg.popped) ∧
    ∀ res s', out = Sum.inl (res, s') → s'.iter.tree ≠ none := by
  have hroot := hI.root
  unfold iter_step_once at ho
  rw [hroot] at ho
  dsimp only at ho
  cases ht : s.iter.tree with
  | none =>
    rw [ht] at ho
    simp only [Option.some.injEq] at ho
    subst ho
    refine ⟨⟨hI.links, hI.root, hI.config, ?_, ?_, hI.scopes⟩, fun s' hh => by simp at hh,
      fun res s' hh => by simp at hh⟩
    · intro t' ht'
      simp only [Pass.state, Option.some.injEq] at ht'
      subst ht'
      simp only [Pass.state, hI.fresh ht, List.length_nil, Depth]
    · intro hh; simp [Pass.state] at hh
  | some t =>
    rw [ht] at ho
    dsimp only at ho
    generalize hc : iter_step_candidate draw fuel (iter_step_begin s t) t d = cand at ho
    rcases cand with _ | ⟨_ | p, d1, s1⟩
    · simp at ho
    · -- no candidate
      obtain ⟨hI1, hep1, ht1, _⟩ := begin_inv hs hI ht hc
      dsimp only at ho
      by_cases hm : s1.iter.mode = IterMode.rnd
      · rw [if_pos hm] at ho
        by_cases hl : (s1.heap r).loop = 0
        · rw [if_pos hl] at ho
          simp only [Option.some.injEq] at ho
          subst ho
          refine ⟨hI1, fun s' hh hn => ?_, fun res s' hh => ?_⟩
          · simp only [Sum.inl.injEq, Prod.mk.injEq, true_and] at hh
            subst hh
            exact absurd hm hn
          · simp only [Sum.inl.injEq, Prod.mk.injEq] at hh
            rw [← hh.2, ht1]; simp
        · rw [if_neg hl] at ho
          generalize hu : play_tree_unset_flag PLAY_TREE_RND_PLAYED fuel s1.heap r (-1) = uf at ho
          cases uf with
          | none => simp at ho
          | some h2 =>
            dsimp only at ho
            simp only [Option.some.injEq] at ho
            subst ho
            have hl2 : SameLinks h0 h2 :=
              sameLinks_trans2 hI1.links ((unset_flag_links _ fuel).1 _ _ _ _ hu)
            refine ⟨⟨?_, hI1.root, hI1.config, hI1.depth, hI1.fresh, hI1.scopes⟩,
              fun s' hh => by simp at hh, fun res s' hh => by simp at hh⟩
            simp only [Pass.state]
            split_ifs
            · exact sameLinks_trans2 hl2 (sameLinks_upd_loop h2 r (fun x => x - 1))
            · exact hl2
      · rw [if_neg hm] at ho
        have hup : ∀ out, iter_up_once s1 d1 = some out →
            CursorInv h0 r out.state ∧
            (∀ s', out = Sum.inl (IterResult.end_, s') → s'.iter.mode ≠ IterMode.rnd →
              s'.iter.status_stack = [] ∧ s'.cfg.pushed = s'.cfg.popped) ∧
            ∀ res s', out = Sum.inl (res, s') → s'.iter.tree ≠ none := by
          intro out ho
          obtain ⟨u1, u2⟩ := up_once_inv hI1 hep1 ho
          exact ⟨u1, fun s' hh _ => ⟨(u2 _ s' hh).1, (u2 _ s' hh).2.1⟩,
            fun res s' hh => (u2 res s' hh).2.2⟩
        have hmove : ∀ (q : Ptr) (lp : Int), (h0 q).parent = (h0 t).parent →
            CursorInv h0 r { s1 with iter := { s1.iter with loop := lp, tree := some q } } := by
          intro q lp hq
          refine ⟨hI1.links, hI1.root, hI1.config, ?_, ?_, hI1.scopes⟩
          · intro t' ht'
            simp only [Option.some.injEq] at ht'
            subst ht'
            exact depth_congr hq (hI1.depth t ht1)
          · intro hh; simp at hh
        have hs1 := sibs_of_links hI1.links hs
        cases hpar : (s1.heap t).parent with
        | none =>
          rw [hpar] at ho
          exact hup out ho
        | some par =>
          rw [hpar] at ho
          dsimp only at ho
          by_cases hw : (s1.heap par).loop ≠ 0 ∧
              ((d1 > 0 ∧ s1.iter.loop ≠ 0) ∨
               (d1 < 0 ∧ (s1.iter.loop < 0 ∨ s1.iter.loop < (s1.heap par).loop)))
          · rw [if_pos hw] at ho
            by_cases hd1 : d1 > 0
            · rw [if_pos hd1] at ho
              cases hfe : first_entry s1.heap fuel t with
              | none => rw [hfe] at ho; simp at ho
              | some q =>
                rw [hfe] at ho
                simp only [Option.some.injEq] at ho
                subst ho
                have hq := first_entry_parent hs1 fuel t q hfe
                rw [(hI1.links q).1, (hI1.links t).1] at hq
                refine ⟨?_, fun s' hh => by simp at hh, fun res s' hh => by simp at hh⟩
                simp only [Pass.state]
                split_ifs
                · exact hmove q _ hq
                · exact hmove q _ hq
            · rw [if_neg hd1] at ho
              cases hfe : last_entry s1.heap fuel t with
              | none => rw [hfe] at ho; simp at ho
              | some q =>
                rw [hfe] at ho
                simp only [Option.some.injEq] at ho
                subst ho
                have hq := last_entry_parent hs1 fuel t q hfe
                rw [(hI1.links q).1, (hI1.links t).1] at hq
                refine ⟨?_, fun s' hh => by simp at hh, fun res s' hh => by simp at hh⟩
                simp only [Pass.state]
                split_ifs
                · exact hmove q _ hq
                · exact hmove q _ hq
          · rw [if_neg hw] at ho
            exact hup out ho
    · -- a candidate
      obtain ⟨hI1, hep1, ht1, hpp⟩ := begin_inv hs hI ht hc
      have hp := hpp p rfl
      have hI2 : CursorInv h0 r { s1 with iter := { s1.iter with tree := some p } } := by
        refine ⟨hI1.links, hI1.root, hI1.config, ?_, ?_, hI1.scopes⟩
        · intro t' ht'
          simp only [Option.some.injEq] at ht'
          subst ht'
          exact depth_congr hp (hI1.depth t ht1)
        · intro hh; simp at hh
      dsimp only at ho
      split at ho
      · simp at ho
      · -- a valid child
        by_cases hwn : w = true
        · rw [if_pos hwn] at ho
          simp only [Option.some.injEq] at ho
          subst ho
          refine ⟨hI2, fun s' hh => by simp at hh, fun res s' hh => ?_⟩
          simp only [Sum.inl.injEq, Prod.mk.injEq] at hh
          rw [← hh.2]; simp
        · rw [if_neg hwn] at ho
          obtain ⟨d1', d2'⟩ := down_once_inv hs hacyc hI2 hep1 rfl ho
          exact ⟨d1', fun s' hh => absurd hh (d2' _ _), fun res s' hh => absurd hh (d2' _ _)⟩
      · -- no valid child
        generalize hv2 : play_tree_is_valid s1.heap fuel p = v2 at ho
        rcases v2 with _ | _ | _
        · simp at ho
        · dsimp only at ho
          split_ifs at ho
          · simp only [Option.some.injEq] at ho
            subst ho
            refine ⟨hI1, fun s' hh => by simp at hh, fun res s' hh => ?_⟩
            simp only [Sum.inl.injEq, Prod.mk.injEq] at hh
            rw [← hh.2, ht1]; simp
          · simp only [Option.some.injEq] at ho
            subst ho
            exact ⟨hI1, fun s' hh => by simp at hh, fun res s' hh => by simp at hh⟩
        · dsimp only at ho
          cases he : iter_step_entry s1 p with
          | none => rw [he] at ho; simp at ho
          | some res =>
            obtain ⟨rr, s'⟩ := res
            rw [he] at ho
            simp only [Option.some.injEq] at ho
            subst ho
            obtain ⟨e1, e2, e3, e4, e5, e6, e7, e8, _⟩ := step_entry_fields he
            obtain ⟨e8a, e8b, e8c⟩ := e8 hI1.config
            subst e1
            refine ⟨⟨sameLinks_trans2 hI1.links e2, ?_, ?_, ?_, ?_, ?_⟩, fun s'' hh => by simp at hh,
              fun res s'' hh => ?_⟩
            rotate_right
            · simp only [Sum.inl.injEq, Prod.mk.injEq] at hh
              rw [← hh.2, e4]; simp
            · simp only [Pass.state]; rw [e3]; exact hI1.root
            · simp only [Pass.state]; rw [e5]; exact hI1.config
            · intro t' ht'
              simp only [Pass.state] at ht' ⊢
              rw [e4] at ht'
              cases ht'
              rw [e6]
              exact depth_congr hp (hI1.depth t ht1)
            · intro hh
              simp only [Pass.state] at hh
              rw [e4] at hh
              cases hh
            · simp only [Pass.state]
              have := hI1.scopes
              rw [if_neg hep1] at this
              simp only [e8a, e8b, e8c, e6, this]
              simp

/-! ## The cursor invariant after every call -/

/-- A step from a state with the invariant returns in a state with the
invariant and with the cursor on an entry; when it returns End in normal mode
the loop stack is empty and no scope is open. -/
theorem step_keeps_inv {draw : Nat → Nat → Nat} {h0 : Heap} {r : Ptr}
    (hs : SiblingsShareParent h0)
    (hacyc : ∀ n t, Depth h0 (h0 r).parent n t → (h0 r).parent ≠ some t) :
    ∀ (fuel : Nat) (s : State) (d : Int) (w : Bool) (res : IterResult) (s' : State),
      CursorInv h0 r s → play_tree_iter_step draw fuel s d w = some (res, s') →
      CursorInv h0 r s' ∧ s'.iter.tree ≠ none ∧
      (res = IterResult.end_ → s'.iter.mode ≠ IterMode.rnd →
        s'.iter.status_stack = [] ∧ s'.cfg.pushed = s'.cfg.popped) := by
  apply step_induct draw (CursorInv h0 r)
  · intro fuel s d w s2 d2 hI ho
    exact (step_once_inv hs hacyc hI ho).1
  · intro fuel s d w res s' hI ho
    obtain ⟨a, b, c⟩ := step_once_inv hs hacyc hI ho
    refine ⟨a, c res s' rfl, ?_⟩
    intro hr
    subst hr
    exact b s' rfl

/-- The iterator that `play_tree_iter_new` returns has the root it was given,
no current entry, the configuration handle, an empty loop stack and
`entry_pushed` not set. -/
theorem iter_new_fields {draw : Nat → Nat → Nat} {fuel k k1 : Nat} {h0 h : Heap} {r : Ptr}
    {it : play_tree_iter}
    (hnew : play_tree_iter_new draw fuel h0 k r true = some (some it, h, k1)) :
    it.root = some r ∧ it.tree = none ∧ it.config = true ∧ it.status_stack = [] ∧
    it.entry_pushed = 0 := by
  simp only [play_tree_iter_new] at hnew
  simp only [Bool.true_eq_false, if_false] at hnew
  cases hv : play_tree_is_valid h0 fuel r with
  | none => rw [hv] at hnew; simp at hnew
  | some b =>
    rw [hv] at hnew
    cases b with
    | false => simp at hnew
    | true =>
      dsimp only at hnew
      cases hsh : shuffle_tree draw fuel h0 k (some r) with
      | none => rw [hsh] at hnew; simp at hnew
      | some res =>
        obtain ⟨h1, k2⟩ := res
        rw [hsh] at hnew
        dsimp only at hnew
        cases hp : (h1 r).parent with
        | none =>
          rw [hp] at hnew
          simp only [Option.some.injEq, Prod.mk.injEq] at hnew
          obtain ⟨rfl, _, _⟩ := hnew
          exact ⟨rfl, rfl, rfl, rfl, rfl⟩
        | some par =>
          rw [hp] at hnew
          simp only [Option.some.injEq, Prod.mk.injEq] at hnew
          obtain ⟨rfl, _, _⟩ := hnew
          exact ⟨rfl, rfl, rfl, rfl, rfl⟩

/-- The invariant holds of a new cursor before its first step. -/
theorem iter_start_inv {h : Heap} {r : Ptr} {k : Nat} {it : play_tree_iter}
    (h1 : it.root = some r) (h2 : it.tree = none) (h3 : it.config = true)
    (h4 : it.status_stack = []) (h5 : it.entry_pushed = 0) :
    CursorInv h r (iter_start h k it) := by
  refine ⟨sameLinks_rfl h, h1, h3, ?_, fun _ => h4, ?_⟩
  · intro t ht
    simp only [iter_start] at ht
    rw [h2] at ht
    cases ht
  · simp [iter_start, h4, h5]

theorem calls_keep_inv {draw : Nat → Nat → Nat} {h0 : Heap} {r : Ptr}
    (hs : SiblingsShareParent h0)
    (hacyc : ∀ n t, Depth h0 (h0 r).parent n t → (h0 r).parent ≠ some t) (fuel : Nat) :
    ∀ (calls : List (Int × Bool)) (s : State) (rs : List (IterResult × State)),
      CursorInv h0 r s → iter_calls draw fuel s calls = some rs →
      ∀ x ∈ rs, CursorInv h0 r x.2 ∧ x.2.iter.tree ≠ none ∧
        (x.1 = IterResult.end_ → x.2.iter.mode ≠ IterMode.rnd →
          x.2.iter.status_stack = [] ∧ x.2.cfg.pushed = x.2.cfg.popped) := by
  intro calls
  induction calls with
  | nil =>
    intro s rs _ hr
    simp only [iter_calls, Option.some.injEq] at hr
    subst hr
    intro x hx
    cases hx
  | cons c calls ih =>
    intro s rs hI hr
    obtain ⟨d, w⟩ := c
    simp only [iter_calls] at hr
    cases h1 : play_tree_iter_step draw fuel s d w with
    | none => rw [h1] at hr; simp at hr
    | some res =>
      obtain ⟨r1, s1⟩ := res
      rw [h1] at hr
      dsimp only at hr
      obtain ⟨a, b, c⟩ := step_keeps_inv hs hacyc fuel s d w r1 s1 hI h1
      cases h2 : iter_calls draw fuel s1 calls with
      | none => rw [h2] at hr; simp at hr
      | some rs1 =>
        rw [h2] at hr
        simp only [Option.some.injEq] at hr
        subst hr
        intro x hx
        rcases List.mem_cons.1 hx with hx | hx
        · subst hx; exact ⟨a, b, c⟩
        · exact ih s1 rs1 a h2 x hx

/-- Claim C20: let `play_tree_iter_new` with a configuration handle return
the cursor `it` on the root `r`, in a heap `h` in which siblings share their
parent and the parent of the root is not an entry at or below the level of
the root.  Then after every call of a sequence of calls of
`play_tree_iter_step` (any `d`, `with_nodes` on or off) that return, the links
of the tree are those of `h`, the cursor stands on an entry `t`, the depth of
the loop stack is the number of levels that `t` lies below the level of the
root, and the number of scopes pushed and not popped is the depth of the loop
stack, plus one if `entry_pushed` is set. -/
theorem cursor_invariant (draw : Nat → Nat → Nat) (f0 k k1 : Nat) (h0 h : Heap) (r : Ptr)
    (it : play_tree_iter)
    (hnew : play_tree_iter_new draw f0 h0 k r true = some (some it, h, k1))
    (hs : SiblingsShareParent h)
    (hacyc : ∀ n t, Depth h (h r).parent n t → (h r).parent ≠ some t)
    (fuel : Nat) (calls : List (Int × Bool)) (rs : List (IterResult × State))
    (hrun : iter_calls draw fuel (iter_start h k1 it) calls = some rs) :
    ∀ x ∈ rs, SameLinks h x.2.heap ∧
      ∃ t, x.2.iter.tree = some t ∧ Depth h (h r).parent x.2.iter.status_stack.length t ∧
        x.2.cfg.pushed = x.2.cfg.popped + x.2.iter.status_stack.length
          + (if x.2.iter.entry_pushed > 0 then 1 else 0) := by
  obtain ⟨a1, a2, a3, a4, a5⟩ := iter_new_fields hnew
  have hI := @iter_start_inv h r k1 it a1 a2 a3 a4 a5
  intro x hx
  obtain ⟨b1, b2, _⟩ := calls_keep_inv hs hacyc fuel calls _ rs hI hrun x hx
  obtain ⟨t, ht⟩ := Option.ne_none_iff_exists'.1 b2
  exact ⟨b1.links, t, ht, b1.depth t ht, b1.scopes⟩

/-! ## The cursor invariant after every call -/

theorem siblings_heap_nested : SiblingsShareParent heap_nested := by
  intro a b hab
  simp only [heap_nested] at hab ⊢
  split_ifs at hab <;> simp at hab <;> (try (rcases hab with hab | hab)) <;>
    (try subst hab) <;> simp [*]

theorem run_heap_nested :
    (iter_calls draw_zero 6 (iter_start heap_nested 0 (iter_fresh 0)) [(0, false), (1, false)]).map
        (List.map Prod.fst) = some [IterResult.entry, IterResult.entry] := by
  simp [iter_calls, play_tree_iter_step, iter_start, iter_fresh, iter_step_candidate,
    iter_step_begin, heap_nested, play_tree_is_valid, play_tree_is_valid_loop, iter_step_entry,
    play_tree_iter_push_params, play_tree_iter_down_step, wrap_int, seek_next]

theorem new_heap_nested :
    play_tree_iter_new draw_zero 20 heap_nested 0 0 true = some (some (iter_fresh 0), heap_nested, 0) := by
  simp [play_tree_iter_new, play_tree_is_valid, play_tree_is_valid_loop, heap_nested,
    shuffle_tree, shuffle_tree_children, iter_fresh]

/-- Witness of `cursor_invariant`: a new cursor on the root of `heap_nested`
is stepped with `d = 0` and then with `d = 1`; both calls return Entry. -/
theorem cursor_invariant_witness :
    (iter_calls draw_zero 6 (iter_start heap_nested 0 (iter_fresh 0)) [(0, false), (1, false)]).map
        (List.map Prod.fst) = some [IterResult.entry, IterResult.entry] ∧
    ∃ rs, iter_calls draw_zero 6 (iter_start heap_nested 0 (iter_fresh 0)) [(0, false), (1, false)]
        = some rs ∧
      ∀ x ∈ rs, SameLinks heap_nested x.2.heap ∧
        ∃ t, x.2.iter.tree = some t ∧
          Depth heap_nested (heap_nested 0).parent x.2.iter.status_stack.length t ∧
          x.2.cfg.pushed = x.2.cfg.popped + x.2.iter.status_stack.length
            + (if x.2.iter.entry_pushed > 0 then 1 else 0) := by
  refine ⟨run_heap_nested, ?_⟩
  have hsome := run_heap_nested
  cases hrs : iter_calls draw_zero 6 (iter_start heap_nested 0 (iter_fresh 0))
      [(0, false), (1, false)] with
  | none => rw [hrs] at hsome; simp at hsome
  | some rs =>
    exact ⟨rs, rfl, cursor_invariant draw_zero 20 0 0 heap_nested heap_nested 0 (iter_fresh 0)
      new_heap_nested siblings_heap_nested (by simp [heap_nested]) 6 [(0, false), (1, false)] rs hrs⟩

/-! ## End in random mode -/

/-- In normal mode the scopes are balanced at End: whenever a call of a
sequence of calls on a new cursor returns End with `iter->mode` normal, the
loop stack is empty and as many scopes are popped as are pushed. -/
theorem end_balanced_in_normal_mode (draw : Nat → Nat → Nat) (f0 k k1 : Nat) (h0 h : Heap)
    (r : Ptr) (it : play_tree_iter)
    (hnew : play_tree_iter_new draw f0 h0 k r true = some (some it, h, k1))
    (hs : SiblingsShareParent h)
    (hacyc : ∀ n t, Depth h (h r).parent n t → (h r).parent ≠ some t)
    (fuel : Nat) (calls : List (Int × Bool)) (rs : List (IterResult × State))
    (hrun : iter_calls draw fuel (iter_start h k1 it) calls = some rs) :
    ∀ x ∈ rs, x.1 = IterResult.end_ → x.2.iter.mode ≠ IterMode.rnd →
      x.2.iter.status_stack = [] ∧ x.2.cfg.pushed = x.2.cfg.popped := by
  obtain ⟨a1, a2, a3, a4, a5⟩ := iter_new_fields hnew
  have hI := @iter_start_inv h r k1 it a1 a2 a3 a4 a5
  intro x hx
  exact (calls_keep_inv hs hacyc fuel calls _ rs hI hrun x hx).2.2

/-- Claim C17 at the failing input `heap_rnd_nested`: `play_tree_iter_new` on
the Leaf 1, whose parent has `PLAY_TREE_RND` set, returns a cursor.  With the
random source `draw_last` the first step goes down into the Container 2 and
returns Entry on the Leaf 3, with one value on the loop stack and two scopes
pushed.  The second step, with `d = 1`, finds no entry that is not played and
returns End at `if (iter->root->loop == 0) return PLAY_TREE_ITER_END;`
without going up: the loop stack still holds one value, and of the two
scopes pushed only one is popped. -/
theorem rnd_end_leaves_scope_open :
    play_tree_iter_new draw_last 5 heap_rnd_nested 0 1 true
      = some (some (iter_fresh 1), heap_rnd_nested, 0) ∧
    (iter_calls draw_last 6 (iter_start heap_rnd_nested 0 (iter_fresh 1))
        [(0, false), (1, false)]).map
      (List.map (fun x => (x.1, x.2.iter.tree, x.2.iter.mode, x.2.iter.status_stack,
        x.2.cfg.pushed, x.2.cfg.popped)))
      = some [(IterResult.entry, some 3, IterMode.rnd, [0], 2, 0),
              (IterResult.end_, some 3, IterMode.rnd, [0], 2, 1)] := by
  constructor
  · simp [play_tree_iter_new, play_tree_is_valid, play_tree_is_valid_loop, heap_rnd_nested,
      shuffle_tree, shuffle_tree_children, iter_fresh]
  · simp [iter_calls, play_tree_iter_step, iter_start, iter_fresh, iter_step_candidate,
      iter_step_begin, heap_rnd_nested, play_tree_is_valid, play_tree_is_valid_loop,
      iter_step_entry, play_tree_iter_push_params, play_tree_iter_down_step, wrap_int,
      play_tree_rnd_step, rnd_count_prev, rnd_count_next, rnd_pick, draw_last, upd]

/-! ## Copies of a cursor -/

theorem up_once_noscope {s : State} {d : Int} {out : Pass} (hc : s.iter.config = false)
    (ho : iter_up_once s d = some out) :
    out.state.cfg = s.cfg ∧ out.state.iter.config = false := by
  have hc' : ¬ s.iter.config = true := by rw [hc]; simp
  unfold iter_up_once at ho
  dsimp only at ho
  simp only [if_neg hc'] at ho
  split at ho
  · split at ho
    · simp only [Option.some.injEq] at ho
      subst ho
      exact ⟨rfl, hc⟩
    · split at ho
      · simp only [Option.some.injEq] at ho
        subst ho
        exact ⟨rfl, hc⟩
      · simp at ho
  · simp at ho

theorem down_once_noscope {s : State} {d : Int} {fuel : Nat} {out : Pass}
    (hc : s.iter.config = false) (ho : iter_down_once fuel s d = some out) :
    out.state.cfg = s.cfg ∧ out.state.iter.config = false := by
  have hc' : ¬ s.iter.config = true := by rw [hc]; simp
  unfold iter_down_once at ho
  dsimp only at ho
  simp only [if_neg hc'] at ho
  split at ho
  · simp at ho
  · split at ho
    · simp at ho
    · split at ho
      · simp at ho
      · split at ho
        · simp only [Option.some.injEq] at ho
          subst ho
          exact ⟨rfl, hc⟩
        · split at ho
          · simp at ho
          · simp only [Option.some.injEq] at ho
            subst ho
            exact ⟨rfl, hc⟩

/-- A pass of a step of a cursor without a configuration handle leaves the
configuration object as it is. -/
theorem step_once_noscope {draw : Nat → Nat → Nat} {fuel : Nat} {s : State} {d : Int} {w : Bool}
    {out : Pass} (hc : s.iter.config = false)
    (ho : iter_step_once draw fuel s d w = some out) :
    out.state.cfg = s.cfg ∧ out.state.iter.config = false := by
  unfold iter_step_once at ho
  split at ho
  · simp only [Option.some.injEq] at ho
    subst ho
    exact ⟨rfl, hc⟩
  · split at ho
    · simp only [Option.some.injEq] at ho
      subst ho
      exact ⟨rfl, hc⟩
    · rename_i root _ tree _
      have hb := (begin_scopes s tree).2 hc
      have hb2 := (begin_fields s tree).2.2.2.1
      generalize hcand : iter_step_candidate draw fuel (iter_step_begin s tree) tree d = cand at ho
      rcases cand with _ | ⟨pt, d1, s1⟩
      · simp at ho
      · obtain ⟨c1, c2, c3, _⟩ := candidate_fields hcand
        have hcfg : s1.cfg = s.cfg := by rw [c3, hb]
        have hconf : s1.iter.config = false := by rw [c2, hb2, hc]
        have hup : ∀ out, iter_up_once s1 d1 = some out →
            out.state.cfg = s.cfg ∧ out.state.iter.config = false := by
          intro out ho
          obtain ⟨u1, u2⟩ := up_once_noscope hconf ho
          exact ⟨u1.trans hcfg, u2⟩
        have hdown : ∀ p out,
            iter_down_once fuel { s1 with iter := { s1.iter with tree := some p } } d1 = some out →
            out.state.cfg = s.cfg ∧ out.state.iter.config = false := by
          intro p out ho
          obtain ⟨u1, u2⟩ := @down_once_noscope
            { s1 with iter := { s1.iter with tree := some p } } d1 fuel out hconf ho
          exact ⟨u1.trans hcfg, u2⟩
        have hent : ∀ p res, iter_step_entry s1 p = some res →
            res.2.cfg = s.cfg ∧ res.2.iter.config = false := by
          intro p res he
          obtain ⟨rr, s'⟩ := res
          obtain ⟨_, _, _, _, e5, _, _, _, e9⟩ := step_entry_fields he
          exact ⟨(e9 hconf).trans hcfg, e5.trans hconf⟩
        cases pt with
        | none =>
          dsimp only at ho
          repeat' split at ho
          all_goals first
            | (simp at ho; done)
            | exact hup _ ho
            | (simp only [Option.some.injEq] at ho
               subst ho
               exact ⟨hcfg, hconf⟩)
        | some p =>
          dsimp only at ho
          repeat' split at ho
          all_goals first
            | (simp at ho; done)
            | exact hdown _ _ ho
            | (simp only [Option.some.injEq] at ho
               subst ho
               exact ⟨hcfg, hconf⟩)
            | (simp only [Option.some.injEq] at ho
               subst ho
               exact hent _ _ (by assumption))

/-- A step of a cursor without a configuration handle returns with the
configuration object as it was, and the cursor still has no handle. -/
theorem step_noscope (draw : Nat → Nat → Nat) :
    ∀ (fuel : Nat) (s : State) (d : Int) (w : Bool) (res : IterResult) (s' : State),
      s.iter.config = false → play_tree_iter_step draw fuel s d w = some (res, s') →
      s'.cfg = s.cfg ∧ s'.iter.config = false := by
  intro fuel
  induction fuel with
  | zero => intro s d w res s' _ h; simp [play_tree_iter_step] at h
  | succ f ih =>
    intro s d w res s' hc h
    rw [step_resume] at h
    cases ho : iter_step_once draw f s d w with
    | none => rw [ho] at h; simp [resume] at h
    | some out =>
      rw [ho] at h
      obtain ⟨o1, o2⟩ := step_once_noscope hc ho
      rcases out with ⟨r1, s1⟩ | ⟨s2, d2⟩
      · simp only [resume, Option.some.injEq, Prod.mk.injEq] at h
        obtain ⟨rfl, rfl⟩ := h
        exact ⟨o1, o2⟩
      · simp only [resume] at h
        obtain ⟨i1, i2⟩ := ih s2 d2 w res s' o2 h
        exact ⟨i1.trans o1, i2⟩

/-- Claim C18: for every cursor `old`, `play_tree_iter_new_copy(old)` has the
root, the current entry, the mode, the loop counter, the file index, the
number of files and the loop stack (depth and values) of `old`, and its
configuration handle is `NULL`.  So whatever `entry_pushed` it has copied,
stepping the copy changes nothing of the configuration object: after every
call of a sequence of calls of `play_tree_iter_step` that return, the counts
of pushes and pops and the options are those before the first call, and the
handle is still `NULL`. -/
theorem new_copy_has_no_scope (old : play_tree_iter) (draw : Nat → Nat → Nat) (fuel : Nat)
    (h : Heap) (c : m_config) (k : Nat) (calls : List (Int × Bool))
    (rs : List (IterResult × State))
    (hrun : iter_calls draw fuel
      { heap := h, iter := play_tree_iter_new_copy old, cfg := c, rand_calls := k } calls
        = some rs) :
    (play_tree_iter_new_copy old).root = old.root ∧
    (play_tree_iter_new_copy old).tree = old.tree ∧
    (play_tree_iter_new_copy old).mode = old.mode ∧
    (play_tree_iter_new_copy old).loop = old.loop ∧
    (play_tree_iter_new_copy old).file = old.file ∧
    (play_tree_iter_new_copy old).num_files = old.num_files ∧
    (play_tree_iter_new_copy old).status_stack = old.status_stack ∧
    (play_tree_iter_new_copy old).config = false ∧
    ∀ x ∈ rs, x.2.cfg = c ∧ x.2.iter.config = false := by
  refine ⟨rfl, rfl, rfl, rfl, rfl, rfl, rfl, rfl, ?_⟩
  have key : ∀ (calls : List (Int × Bool)) (s : State) (rs : List (IterResult × State)),
      s.iter.config = false → iter_calls draw fuel s calls = some rs →
      ∀ x ∈ rs, x.2.cfg = s.cfg ∧ x.2.iter.config = false := by
    intro calls
    induction calls with
    | nil =>
      intro s rs _ hr
      simp only [iter_calls, Option.some.injEq] at hr
      subst hr
      intro x hx
      cases hx
    | cons cl calls ih =>
      intro s rs hc hr
      obtain ⟨d, w⟩ := cl
      simp only [iter_calls] at hr
      cases h1 : play_tree_iter_step draw fuel s d w with
      | none => rw [h1] at hr; simp at hr
      | some res =>
        obtain ⟨r1, s1⟩ := res
        rw [h1] at hr
        dsimp only at hr
        obtain ⟨a, b⟩ := step_noscope draw fuel s d w r1 s1 hc h1
        cases h2 : iter_calls draw fuel s1 calls with
        | none => rw [h2] at hr; simp at hr
        | some rs1 =>
          rw [h2] at hr
          simp only [Option.some.injEq] at hr
          subst hr
          intro x hx
          rcases List.mem_cons.1 hx with hx | hx
          · subst hx; exact ⟨a, b⟩
          · obtain ⟨i1, i2⟩ := ih s1 rs1 b h2 x hx
            exact ⟨i1.trans a, i2⟩
  exact key calls _ rs rfl hrun

theorem run_copy_one_file :
    (iter_calls draw_zero 4
      { heap := heap_one_file, iter := play_tree_iter_new_copy cursor_one_file,
        cfg := { pushed := 2 }, rand_calls := 0 } [(1, false), (0, false)]).map
      (List.map (fun x => (x.1, x.2.iter.tree, x.2.iter.status_stack)))
      = some [(IterResult.end_, some 0, []), (IterResult.entry, some 1, [0])] := by
  simp [iter_calls, play_tree_iter_step, play_tree_iter_new_copy, cursor_one_file,
    iter_step_candidate, iter_step_begin, heap_one_file, play_tree_is_valid,
    play_tree_is_valid_loop, iter_step_entry, play_tree_iter_push_params,
    play_tree_iter_down_step, play_tree_iter_up_step, wrap_int, seek_next]

/-- Witness of `new_copy_has_no_scope`: the copy of `cursor_one_file`, which
has two scopes pushed, is stepped to End and then onto the Leaf again. -/
theorem new_copy_has_no_scope_witness :
    ∃ rs, iter_calls draw_zero 4
        { heap := heap_one_file, iter := play_tree_iter_new_copy cursor_one_file,
          cfg := { pushed := 2 }, rand_calls := 0 } [(1, false), (0, false)] = some rs ∧
      rs.map (fun x => (x.1, x.2.iter.tree, x.2.iter.status_stack))
        = [(IterResult.end_, some 0, []), (IterResult.entry, some 1, [0])] ∧
      (play_tree_iter_new_copy cursor_one_file).root = cursor_one_file.root ∧
      (play_tree_iter_new_copy cursor_one_file).tree = cursor_one_file.tree ∧
      (play_tree_iter_new_copy cursor_one_file).mode = cursor_one_file.mode ∧
      (play_tree_iter_new_copy cursor_one_file).loop = cursor_one_file.loop ∧
      (play_tree_iter_new_copy cursor_one_file).file = cursor_one_file.file ∧
      (play_tree_iter_new_copy cursor_one_file).num_files = cursor_one_file.num_files ∧
      (play_tree_iter_new_copy cursor_one_file).status_stack = cursor_one_file.status_stack ∧
      (play_tree_iter_new_copy cursor_one_file).config = false ∧
      ∀ x ∈ rs, x.2.cfg = { pushed := 2 } ∧ x.2.iter.config = false := by
  have hsome := run_copy_one_file
  cases hrs : iter_calls draw_zero 4
      { heap := heap_one_file, iter := play_tree_iter_new_copy cursor_one_file,
        cfg := { pushed := 2 }, rand_calls := 0 } [(1, false), (0, false)] with
  | none => rw [hrs] at hsome; simp at hsome
  | some rs =>
    rw [hrs] at hsome
    simp only [Option.map_some', Option.some.injEq] at hsome
    exact ⟨rs, rfl, hsome, new_copy_has_no_scope cursor_one_file draw_zero 4 heap_one_file
      { pushed := 2 } 0 [(1, false), (0, false)] rs hrs⟩

/-! ## Well-formedness and the splice operations -/

/-- One level of nesting: on `heap_nested` a step with `d = 1` from the Leaf 4,
the last child of the Container 2, returns Entry on the Leaf 5, and the step
with `d = -1` after it returns Entry on the Leaf 4 again. -/
theorem step_back_undoes_one_level :
    (iter_calls draw_zero 8 (iter_start heap_nested 0 (iter_fresh 0))
        [(0, false), (1, false), (1, false), (1, false), (-1, false)]).map
      (List.map (fun x => (x.1, x.2.iter.tree)))
      = some [(IterResult.entry, some 1), (IterResult.entry, some 3), (IterResult.entry, some 4),
              (IterResult.entry, some 5), (IterResult.entry, some 4)] := by
  simp [iter_calls, play_tree_iter_step, iter_start, iter_fresh, iter_step_candidate,
    iter_step_begin, heap_nested, play_tree_is_valid, play_tree_is_valid_loop, iter_step_entry,
    play_tree_iter_push_params, play_tree_iter_down_step, play_tree_iter_up_step, wrap_int,
    seek_next, seek_prev, last_entry]

/-- Claim C21 at the failing input `heap_deep`: every entry is valid, every
`loop` is 0, no flag is set and the root is detached.  A new cursor is stepped
onto the Leaf 3 and then, with `d = 1`, onto the Leaf 4.  The step with `d = 1`
from the Leaf 4 returns Entry on the Leaf 5; the step with `d = -1` after it
returns Entry, but on the Leaf 3 and not on the Leaf 4: going down into the
Container 1 it takes the last child, the Container 2, and then calls
`play_tree_iter_step` with `d = 0`, which enters the Container 2 at its first
child. -/
theorem step_back_enters_at_first_child :
    (∀ p ∈ [0, 1, 2, 3, 4, 5], play_tree_is_valid heap_deep 8 p = some true) ∧
    (iter_calls draw_zero 8 (iter_start heap_deep 0 (iter_fresh 0))
        [(0, false), (1, false), (1, false), (-1, false)]).map
      (List.map (fun x => (x.1, x.2.iter.tree)))
      = some [(IterResult.entry, some 3), (IterResult.entry, some 4), (IterResult.entry, some 5),
              (IterResult.entry, some 3)] := by
  constructor
  · simp [play_tree_is_valid, play_tree_is_valid_loop, heap_deep]
  · simp [iter_calls, play_tree_iter_step, iter_start, iter_fresh, iter_step_candidate,
      iter_step_begin, heap_deep, play_tree_is_valid, play_tree_is_valid_loop, iter_step_entry,
      play_tree_iter_push_params, play_tree_iter_down_step, play_tree_iter_up_step, wrap_int,
      seek_next, seek_prev, last_entry]

/-! ## Going back to the head -/

/-- At the level of the root: on `heap_files2`, whose root is a Leaf, the
first step of a new cursor leaves the cursor on the root with an empty loop
stack and one scope open, and `pt_iter_goto_head` after it does the same. -/
theorem goto_head_at_root_level :
    play_tree_iter_step draw_zero 4 (iter_start heap_files2 0 (iter_fresh 0)) 0 false
      = some (IterResult.entry,
          { heap := heap_files2, iter := cursor_files2, cfg := { pushed := 1 }, rand_calls := 0 }) ∧
    cursor_files2.status_stack = [] ∧
    (pt_iter_goto_head draw_zero 4
      { heap := heap_files2, iter := cursor_files2, cfg := { pushed := 1 }, rand_calls := 0 }).map
      (fun s => (s.iter.tree, s.iter.loop, s.iter.status_stack, s.cfg.pushed, s.cfg.popped))
      = some (cursor_files2.tree, cursor_files2.loop, [], 2, 1) := by
  refine ⟨?_, rfl, ?_⟩ <;>
  simp [pt_iter_goto_head, play_tree_iter_step, iter_start, iter_fresh, iter_step_candidate,
    iter_step_begin, heap_files2, play_tree_is_valid, play_tree_is_valid_loop, iter_step_entry,
    play_tree_iter_push_params, cursor_files2]

/-- Claim C22 at the failing input `heap_one_file`: the first step of a new
cursor on the root Container 0 goes down and returns Entry on the Leaf 1, in
the state `state_one_file`: the loop counter is -1, the loop stack holds the
one value 0 and two scopes are open.  `pt_iter_goto_head` on that cursor sets
`iter->tree = iter->root` and steps with `d = 0`: the scope of the entry is
popped, but the loop stack and the scope of the descent are kept, and the new
descent pushes again.  The cursor stands on the Leaf 1 with the two values -1
and 0 on the loop stack and three scopes open (four pushed, one popped), not
with the stack and the two open scopes of the new cursor after its first
step. -/
theorem goto_head_keeps_stack_and_scopes :
    play_tree_iter_step draw_zero 5 (iter_start heap_one_file 0 (iter_fresh 0)) 0 false
      = some (IterResult.entry, state_one_file) ∧
    (state_one_file.iter.tree, state_one_file.iter.loop, state_one_file.iter.status_stack,
      state_one_file.cfg.pushed, state_one_file.cfg.popped) = (some 1, -1, [0], 2, 0) ∧
    (pt_iter_goto_head draw_zero 5 state_one_file).map
      (fun s => (s.iter.tree, s.iter.loop, s.iter.status_stack, s.cfg.pushed, s.cfg.popped))
      = some (some 1, -1, [-1, 0], 4, 1) := by
  refine ⟨?_, rfl, ?_⟩ <;>
  simp [pt_iter_goto_head, play_tree_iter_step, iter_start, iter_fresh, iter_step_candidate,
    iter_step_begin, heap_one_file, play_tree_is_valid, play_tree_is_valid_loop, iter_step_entry,
    play_tree_iter_push_params, play_tree_iter_down_step, wrap_int, state_one_file,
    cursor_one_file]

end PlayTree
